import Mathlib

/-!
# A bidirectional ordered map over two AVL trees

Shallow embedding of `tree-base-node.cpp`, `tree.h` and `bimap.h`.

* A `tree_base_node*` is a `Ptr`: null, the address of a tree's sentinel
  (`fake`), or a face of the entry with a given identity.  The C++ types
  `tree_node<Left, left_tag>` / `tree_node<Right, right_tag>` (and the two
  iterator types) say which face of the entry is meant, so the left face and
  the right face of one entry carry the same identity.
* The nodes owned by a subtree are a `tree_node`: the links `left` and
  `right` are the owned subtrees, `parent` and `height` are the cached fields
  exactly as the code writes them.
* Heights are far below `2 ^ 63`, so the `size_t` difference converted to
  `ptrdiff_t` in `get_balance` is the integer difference.
* `new` returns an identity that no live entry has; the live entries fit the
  address space, so `++tree_size` does not wrap and is `+ 1`, while
  `--tree_size` is modelled with its wrap at `0`.
* Dereferencing a pointer that is not a node of the tree it is used with is
  undefined in the code; the operations that would do so return `none`.
-/

namespace bimap_impl

/-- Value of a `tree_base_node*`. -/
inductive Ptr where
  | null : Ptr
  | fake (addr : Nat) : Ptr
  | node (id : Nat) : Ptr
  deriving DecidableEq, Repr

/-- The fields of one `tree_base_node`, as read through a pointer. -/
structure tree_base_node where
  left : Ptr
  right : Ptr
  parent : Ptr
  height : Nat
  deriving DecidableEq, Repr

/-- A possibly null `tree_node<T, Tag>*` together with the nodes below it. -/
inductive tree_node (α : Type) where
  | nil : tree_node α
  | node (left right : tree_node α) (parent : Ptr) (height : Nat) (id : Nat) (value : α) :
      tree_node α
  deriving Repr

namespace tree_node

variable {α : Type}

/-- The address of the root node of a subtree (`nullptr` when absent). -/
def ptr : tree_node α → Ptr
  | nil => Ptr.null
  | node _ _ _ _ i _ => Ptr.node i

/-- The freshly constructed face of entry `i`: both links and the parent are
`nullptr` and the height is `1` (the default member initialisers). -/
def fresh (i : Nat) (x : α) : tree_node α :=
  node nil nil Ptr.null 1 i x

/-- In-order sequence of `(identity, value)`. -/
def inorder : tree_node α → List (Nat × α)
  | nil => []
  | node l r _ _ i v => inorder l ++ (i, v) :: inorder r

/-- Number of nodes. -/
def size : tree_node α → Nat
  | nil => 0
  | node l r _ _ _ _ => size l + size r + 1

/-- Largest identity in a subtree (`0` when empty). -/
def max_id : tree_node α → Nat
  | nil => 0
  | node l r _ _ i _ => max i (max (max_id l) (max_id r))

/-- Dereference: the node with identity `i` inside the subtree. -/
def lookup (i : Nat) : tree_node α → tree_node α
  | nil => nil
  | node l r p h j v =>
    if j = i then node l r p h j v
    else match lookup i l with
      | nil => lookup i r
      | node a b c d e f => node a b c d e f

/-- `node->value()`; `none` for a null pointer. -/
def value? : tree_node α → Option α
  | nil => none
  | node _ _ _ _ _ v => some v

/-- The base fields of a node. -/
def base? : tree_node α → Option tree_base_node
  | nil => none
  | node l r p h _ _ => some ⟨ptr l, ptr r, p, h⟩

/-! ### tree-base-node.cpp -/

/-- `tree_base_node::get_height`. -/
def get_height : tree_node α → Nat
  | nil => 0
  | node _ _ _ h _ _ => h

/-- `tree_base_node::get_balance` (never called on a null `this`). -/
def get_balance : tree_node α → Int
  | nil => 0
  | node l r _ _ _ _ => (get_height r : Int) - (get_height l : Int)

/-- `tree_base_node::upd_height`. -/
def upd_height : tree_node α → tree_node α
  | nil => nil
  | node l r p _ i v => node l r p (max (get_height l) (get_height r) + 1) i v

/-- The guarded store `if (x != nullptr) x->parent = q`. -/
def set_parent (q : Ptr) : tree_node α → tree_node α
  | nil => nil
  | node l r _ h i v => node l r q h i v

/-- `tree_base_node::upd_left`. -/
def upd_left : tree_node α → tree_node α
  | nil => nil
  | node l r p h i v => node (set_parent (Ptr.node i) l) r p h i v

/-- `tree_base_node::upd_kids`. -/
def upd_kids : tree_node α → tree_node α
  | nil => nil
  | node l r p h i v => node (set_parent (Ptr.node i) l) (set_parent (Ptr.node i) r) p h i v

/-- `tree_base_node::rotate_left`.  With a null right child the code
dereferences `nullptr`; the model then yields `nil`. -/
def rotate_left : tree_node α → tree_node α
  | node l (node rl rr rp rh ri rv) p h i v =>
    upd_height (upd_kids (node (upd_height (upd_kids (node l rl p h i v))) rr rp rh ri rv))
  | _ => nil

/-- `tree_base_node::rotate_right`.  With a null left child the code
dereferences `nullptr`; the model then yields `nil`. -/
def rotate_right : tree_node α → tree_node α
  | node (node ll lr lp lh li lv) r p h i v =>
    upd_height (upd_kids (node ll (upd_height (upd_kids (node lr r p h i v))) lp lh li lv))
  | _ => nil

/-- `tree_base_node::balance`. -/
def balance : tree_node α → tree_node α
  | nil => nil
  | node l r p _ i v =>
    let h1 := max (get_height l) (get_height r) + 1
    if get_balance (node l r p h1 i v) = 2 then
      if get_balance r < 0 then
        rotate_left (upd_kids (node l (rotate_right r) p h1 i v))
      else
        rotate_left (node l r p h1 i v)
    else if get_balance (node l r p h1 i v) = -2 then
      if get_balance l > 0 then
        rotate_right (upd_kids (node (rotate_left l) r p h1 i v))
      else
        rotate_right (node l r p h1 i v)
    else
      node l r p h1 i v

/-- `tree_base_node::get_min`: the leftmost node of a non-null subtree. -/
def get_min : tree_node α → tree_node α
  | nil => nil
  | node nil r p h i v => node nil r p h i v
  | node (node ll lr lp lh li lv) _ _ _ _ _ => get_min (node ll lr lp lh li lv)

/-- `tree_base_node::get_max`: the rightmost node of a non-null subtree. -/
def get_max : tree_node α → tree_node α
  | nil => nil
  | node l nil p h i v => node l nil p h i v
  | node _ (node rl rr rp rh ri rv) _ _ _ _ => get_max (node rl rr rp rh ri rv)

/-- `tree_base_node::remove_min`. -/
def remove_min : tree_node α → tree_node α
  | nil => nil
  | node nil r _ _ _ _ => r
  | node (node ll lr lp lh li lv) r p h i v =>
    balance (upd_kids (node (remove_min (node ll lr lp lh li lv)) r p h i v))

/-! ### tree.h, the recursive and looping helpers -/

/-- The loop of `tree::find`, started at `point`. -/
def find (cmp : α → α → Bool) (key : α) : tree_node α → tree_node α
  | nil => nil
  | node l r p h i v =>
    if cmp key v then find cmp key l
    else if cmp v key then find cmp key r
    else node l r p h i v

/-- `tree::insert_impl`; the inserted node is the fresh face of entry `i`
holding `x`. -/
def insert_impl (cmp : α → α → Bool) (i : Nat) (x : α) : tree_node α → tree_node α
  | nil => fresh i x
  | node l r p h j v =>
    if cmp x v then
      balance (upd_kids (node (insert_impl cmp i x l) r p h j v))
    else if cmp v x then
      balance (upd_kids (node l (insert_impl cmp i x r) p h j v))
    else
      balance (node l r p h j v)

/-- `tree::remove_impl`; of the node to remove only `node->value()` is read. -/
def remove_impl (cmp : α → α → Bool) (x : α) : tree_node α → tree_node α
  | nil => nil
  | node l r p h i v =>
    if cmp x v then
      balance (upd_kids (node (remove_impl cmp x l) r p h i v))
    else if cmp v x then
      balance (upd_kids (node l (remove_impl cmp x r) p h i v))
    else
      match r with
      | nil => l
      | node rl rr rp rh ri rv =>
        match get_min (node rl rr rp rh ri rv) with
        | nil => nil
        | node _ _ _ mh mi mv =>
          balance (upd_kids (node l (remove_min (node rl rr rp rh ri rv)) p mh mi mv))

/-- The loop of `tree::lower_bound`. -/
def lower_bound (cmp : α → α → Bool) (key : α) : Ptr → tree_node α → Ptr
  | result, nil => result
  | result, node l r _ _ i v =>
    if !cmp v key then lower_bound cmp key (Ptr.node i) l
    else lower_bound cmp key result r

/-- `tree::check_invariant` compiled with `DEBUG`: `true` when no
assertion fails. -/
def check_invariant (cmp : α → α → Bool) : tree_node α → Bool
  | nil => true
  | node l r p h i v =>
    (match l with
      | nil => true
      | node ll lr lp lh li lv =>
        decide (lp = Ptr.node i) && cmp lv v && check_invariant cmp (node ll lr lp lh li lv)) &&
    (match r with
      | nil => true
      | node rl rr rp rh ri rv =>
        decide (rp = Ptr.node i) && cmp v rv && check_invariant cmp (node rl rr rp rh ri rv)) &&
    decide (-1 ≤ get_balance (node l r p h i v)) &&
    decide (get_balance (node l r p h i v) ≤ 1)

/-! ### The nodes visited by the descending functions

For each function that descends through the tree, the identities of the
nodes it visits, in the order of the visits: the successive non-null values
of `point` (of `result` in `get_min`).  The nodes that `balance()` reads on
the way back (children and grandchildren of a visited node) are not counted. -/

/-- The nodes visited by the loop of `tree::find`, started at `point`. -/
def find_path (cmp : α → α → Bool) (key : α) : tree_node α → List Nat
  | nil => []
  | node l r _ _ i v =>
    if cmp key v then i :: find_path cmp key l
    else if cmp v key then i :: find_path cmp key r
    else [i]

/-- The nodes visited by the loop of `tree::lower_bound`. -/
def lower_bound_path (cmp : α → α → Bool) (key : α) : tree_node α → List Nat
  | nil => []
  | node l r _ _ i v =>
    if !cmp v key then i :: lower_bound_path cmp key l
    else i :: lower_bound_path cmp key r

/-- The nodes visited by `tree::insert_impl`: one for every call with a
non-null `point`. -/
def insert_impl_path (cmp : α → α → Bool) (x : α) : tree_node α → List Nat
  | nil => []
  | node l r _ _ j v =>
    if cmp x v then j :: insert_impl_path cmp x l
    else if cmp v x then j :: insert_impl_path cmp x r
    else [j]

/-- The recursive calls of `tree::insert_impl` nested below the first call
(the last of them is the call with `point == nullptr`). -/
def insert_impl_depth (cmp : α → α → Bool) (x : α) : tree_node α → Nat
  | nil => 0
  | node l r _ _ _ v =>
    if cmp x v then insert_impl_depth cmp x l + 1
    else if cmp v x then insert_impl_depth cmp x r + 1
    else 0

/-- The nodes visited by the loop of `tree_base_node::get_min`. -/
def get_min_path : tree_node α → List Nat
  | nil => []
  | node nil _ _ _ i _ => [i]
  | node (node ll lr lp lh li lv) _ _ _ i _ => i :: get_min_path (node ll lr lp lh li lv)

/-- The nodes visited by `tree_base_node::remove_min`: one for every call. -/
def remove_min_path : tree_node α → List Nat
  | nil => []
  | node nil _ _ _ i _ => [i]
  | node (node ll lr lp lh li lv) _ _ _ i _ => i :: remove_min_path (node ll lr lp lh li lv)

/-- The recursive calls of `tree_base_node::remove_min` nested below the
first call. -/
def remove_min_depth : tree_node α → Nat
  | nil => 0
  | node nil _ _ _ _ _ => 0
  | node (node ll lr lp lh li lv) _ _ _ _ _ => remove_min_depth (node ll lr lp lh li lv) + 1

/-- The nodes visited by `tree::remove_impl`: one for every call with a
non-null `point`, then, at the node to remove, the nodes that
`right->get_min()` and `remove_min(right)` visit. -/
def remove_impl_path (cmp : α → α → Bool) (x : α) : tree_node α → List Nat
  | nil => []
  | node l r _ _ i v =>
    if cmp x v then i :: remove_impl_path cmp x l
    else if cmp v x then i :: remove_impl_path cmp x r
    else
      match r with
      | nil => [i]
      | node rl rr rp rh ri rv =>
        i :: (get_min_path (node rl rr rp rh ri rv) ++ remove_min_path (node rl rr rp rh ri rv))

/-- The calls of `tree::remove_impl` and of `remove_min` nested below the
first call of `tree::remove_impl`. -/
def remove_impl_depth (cmp : α → α → Bool) (x : α) : tree_node α → Nat
  | nil => 0
  | node l r _ _ _ v =>
    if cmp x v then remove_impl_depth cmp x l + 1
    else if cmp v x then remove_impl_depth cmp x r + 1
    else
      match r with
      | nil => 0
      | node rl rr rp rh ri rv => remove_min_depth (node rl rr rp rh ri rv) + 1

end tree_node

/-! ### tree.h, the `tree` object -/

/-- The members of `tree<T, Compare, Tag>`: the sentinel `fake` (its address,
its `left` link, which owns the nodes, and its `right` link; its `parent`
stays `nullptr` and its `height` stays `1`) and the comparator. -/
structure tree (α : Type) where
  fake_addr : Nat
  root : tree_node α
  fake_right : Ptr
  compare : α → α → Bool

namespace tree

variable {α : Type}

/-- The default constructor / `tree(Compare&&)` for a tree whose sentinel
lives at `addr`. -/
def init (addr : Nat) (cmp : α → α → Bool) : tree α :=
  ⟨addr, tree_node.nil, Ptr.null, cmp⟩

/-- `tree::get_end`. -/
def get_end (t : tree α) : Ptr :=
  Ptr.fake t.fake_addr

/-- Read the base fields behind a pointer into this tree. -/
def deref (t : tree α) : Ptr → Option tree_base_node
  | Ptr.null => none
  | Ptr.fake a =>
    if a = t.fake_addr then some ⟨t.root.ptr, t.fake_right, Ptr.null, 1⟩ else none
  | Ptr.node i => (tree_node.lookup i t.root).base?

/-- `static_cast<node_t*>(p)->value()`. -/
def value_at (t : tree α) : Ptr → Option α
  | Ptr.node i => (tree_node.lookup i t.root).value?
  | _ => none

/-- `tree::find`. -/
def find (t : tree α) (key : α) : tree_node α :=
  tree_node.find t.compare key t.root

/-- `tree::insert` of the fresh face of entry `i` holding `x`; the returned
pointer is `Ptr.node i`. -/
def insert (t : tree α) (i : Nat) (x : α) : tree α :=
  { t with root := tree_node.set_parent (Ptr.fake t.fake_addr)
                     (tree_node.insert_impl t.compare i x t.root) }

/-- `tree::get_begin`: `fake.get_min()`. -/
def get_begin (t : tree α) : Ptr :=
  match t.root with
  | tree_node.nil => Ptr.fake t.fake_addr
  | tree_node.node l r p h i v => (tree_node.get_min (tree_node.node l r p h i v)).ptr

/-- The climbing loop of `tree::next`; `none` when the fuel runs out or a
pointer leaves the tree. -/
def next_up (t : tree α) : Nat → Ptr → Ptr → Option Ptr
  | 0, _, _ => none
  | fuel + 1, point, parent =>
    if parent = Ptr.null then some parent
    else match t.deref parent with
      | none => none
      | some pn => if point = pn.right then next_up t fuel parent pn.parent else some parent

/-- `tree::next` at a node of this tree.  At the sentinel the code walks
into the other tree through `fake.right`; that is outside the model. -/
def next (t : tree α) (point : Ptr) : Option Ptr :=
  match point with
  | Ptr.node i =>
    match tree_node.lookup i t.root with
    | tree_node.nil => none
    | tree_node.node _ r p _ _ _ =>
      match r with
      | tree_node.nil => next_up t (t.root.size + 1) point p
      | tree_node.node rl rr rp rh ri rv =>
        some (tree_node.get_min (tree_node.node rl rr rp rh ri rv)).ptr
  | _ => none

/-- `tree::lower_bound`. -/
def lower_bound (t : tree α) (key : α) : Ptr :=
  tree_node.lower_bound t.compare key (Ptr.fake t.fake_addr) t.root

/-- `tree::remove`, without the `assert`: the new tree and `src_next`. -/
def remove (t : tree α) (src : Ptr) : Option (tree α × Ptr) :=
  match t.value_at src with
  | none => none
  | some x =>
    match t.next src with
    | none => none
    | some src_next =>
      some ({ t with root := tree_node.set_parent (Ptr.fake t.fake_addr)
                               (tree_node.remove_impl t.compare x t.root) }, src_next)

/-- The climbing loop of `tree::prev`; `none` when the fuel runs out or a
pointer leaves the tree. -/
def prev_up (t : tree α) : Nat → Ptr → Ptr → Option Ptr
  | 0, _, _ => none
  | fuel + 1, point, parent =>
    if parent = Ptr.null then some parent
    else match t.deref parent with
      | none => none
      | some pn => if point = pn.left then prev_up t fuel parent pn.parent else some parent

/-- `tree::prev` at a node of this tree or at its sentinel (whose `left` is
the root and whose `parent` is `nullptr`). -/
def prev (t : tree α) (point : Ptr) : Option Ptr :=
  match point with
  | Ptr.node i =>
    match tree_node.lookup i t.root with
    | tree_node.nil => none
    | tree_node.node l _ p _ _ _ =>
      match l with
      | tree_node.nil => prev_up t (t.root.size + 1) point p
      | tree_node.node ll lr lp lh li lv =>
        some (tree_node.get_max (tree_node.node ll lr lp lh li lv)).ptr
  | Ptr.fake a =>
    if a = t.fake_addr then
      match t.root with
      | tree_node.nil => some Ptr.null
      | tree_node.node l r p h i v => some (tree_node.get_max (tree_node.node l r p h i v)).ptr
    else none
  | Ptr.null => none

/-- `tree::upper_bound`. -/
def upper_bound (t : tree α) (key : α) : Option Ptr :=
  if t.lower_bound key ≠ Ptr.fake t.fake_addr then
    match t.value_at (t.lower_bound key) with
    | none => none
    | some v => if !t.compare key v then t.next (t.lower_bound key) else some (t.lower_bound key)
  else some (t.lower_bound key)

/-- `tree::compare_equal`. -/
def compare_equal (t : tree α) (lhs rhs : α) : Bool :=
  !t.compare lhs rhs && !t.compare rhs lhs

/-- `tree::swap`: `(this, other)` afterwards. -/
def swap (t other : tree α) : tree α × tree α :=
  ({ t with root := tree_node.set_parent (Ptr.fake t.fake_addr) other.root,
            compare := other.compare },
   { other with root := tree_node.set_parent (Ptr.fake other.fake_addr) t.root,
                compare := t.compare })

/-- `tree::connect`: `(this, other)` afterwards. -/
def connect {β : Type} (t : tree α) (other : tree β) : tree α × tree β :=
  ({ t with fake_right := other.get_end }, { other with fake_right := t.get_end })

end tree

/-- `tree_base_node::is_end`. -/
def tree_base_node.is_end (n : tree_base_node) : Bool :=
  decide (n.parent = Ptr.null)

/-- `tree_base_node::get_right`. -/
def tree_base_node.get_right (n : tree_base_node) : Ptr :=
  n.right

end bimap_impl

open bimap_impl

/-! ### bimap.h -/

/-- The members of `bimap<Left, Right, CompareLeft, CompareRight>`. -/
structure bimap (L R : Type) where
  left_tree : tree L
  right_tree : tree R
  tree_size : Nat

/-- What `at_left` / `at_right` can signal instead of returning. -/
inductive at_error where
  | out_of_range : at_error
  | bad_pointer : at_error
  deriving DecidableEq, Repr

namespace bimap

variable {L R : Type}

/-- `bimap(CompareLeft, CompareRight)` for a map whose two sentinels live at
the addresses `la` and `ra`. -/
def init (la ra : Nat) (compare_left : L → L → Bool) (compare_right : R → R → Bool) :
    bimap L R :=
  let c := tree.connect (tree.init la compare_left) (tree.init ra compare_right)
  ⟨c.1, c.2, 0⟩

/-- `new bimap_node_t(...)`: an identity that no live entry of the map has. -/
def alloc (m : bimap L R) : Nat :=
  max m.left_tree.root.max_id m.right_tree.root.max_id + 1

/-- `--tree_size` on a `size_t` of 64 bits. -/
def dec_size (n : Nat) : Nat :=
  if n = 0 then 2 ^ 64 - 1 else n - 1

/-- `bimap::size`. -/
def size (m : bimap L R) : Nat :=
  m.tree_size

/-- `bimap::empty`. -/
def empty (m : bimap L R) : Bool :=
  decide (m.tree_size = 0)

/-- `bimap::end_left`. -/
def end_left (m : bimap L R) : Ptr :=
  m.left_tree.get_end

/-- `bimap::end_right`. -/
def end_right (m : bimap L R) : Ptr :=
  m.right_tree.get_end

/-- `bimap::begin_left`. -/
def begin_left (m : bimap L R) : Ptr :=
  m.left_tree.get_begin

/-- `bimap::begin_right`. -/
def begin_right (m : bimap L R) : Ptr :=
  m.right_tree.get_begin

/-- `operator*` of a left iterator. -/
def deref_left (m : bimap L R) (it : Ptr) : Option L :=
  m.left_tree.value_at it

/-- `operator*` of a right iterator. -/
def deref_right (m : bimap L R) (it : Ptr) : Option R :=
  m.right_tree.value_at it

/-- `base_iterator::flip` of a left iterator; `switch_node` keeps the entry
and changes the face. -/
def flip_left (m : bimap L R) (it : Ptr) : Option Ptr :=
  match m.left_tree.deref it with
  | none => none
  | some n => if n.is_end then some n.get_right else some it

/-- `base_iterator::flip` of a right iterator. -/
def flip_right (m : bimap L R) (it : Ptr) : Option Ptr :=
  match m.right_tree.deref it with
  | none => none
  | some n => if n.is_end then some n.get_right else some it

/-- `operator++` of a left iterator. -/
def next_left (m : bimap L R) (it : Ptr) : Option Ptr :=
  m.left_tree.next it

/-- `operator++` of a right iterator. -/
def next_right (m : bimap L R) (it : Ptr) : Option Ptr :=
  m.right_tree.next it

/-- `bimap::find_left`. -/
def find_left (m : bimap L R) (left : L) : Ptr :=
  match m.left_tree.find left with
  | tree_node.nil => m.end_left
  | tree_node.node _ _ _ _ i _ => Ptr.node i

/-- `bimap::find_right`. -/
def find_right (m : bimap L R) (right : R) : Ptr :=
  match m.right_tree.find right with
  | tree_node.nil => m.end_right
  | tree_node.node _ _ _ _ i _ => Ptr.node i

/-- `bimap::lower_bound_left`. -/
def lower_bound_left (m : bimap L R) (left : L) : Ptr :=
  m.left_tree.lower_bound left

/-- `bimap::lower_bound_right`. -/
def lower_bound_right (m : bimap L R) (right : R) : Ptr :=
  m.right_tree.lower_bound right

/-- `bimap::insert_impl`: the map afterwards and the returned left iterator. -/
def insert_impl (m : bimap L R) (left : L) (right : R) : bimap L R × Ptr :=
  match m.left_tree.find left, m.right_tree.find right with
  | tree_node.nil, tree_node.nil =>
    let i := m.alloc
    let rt := m.right_tree.insert i right
    let lt := m.left_tree.insert i left
    (⟨lt, rt, m.tree_size + 1⟩, Ptr.node i)
  | _, _ => (m, m.end_left)

/-- `bimap::insert` (all four overloads forward to `insert_impl`). -/
def insert (m : bimap L R) (left : L) (right : R) : bimap L R × Ptr :=
  m.insert_impl left right

/-- `bimap::remove`: the map afterwards and the pair of iterators. -/
def remove (m : bimap L R) (bimap_node : Ptr) : Option (bimap L R × Ptr × Ptr) :=
  match m.left_tree.remove bimap_node with
  | none => none
  | some (lt, left_node) =>
    match m.right_tree.remove bimap_node with
    | none => none
    | some (rt, right_node) => some (⟨lt, rt, dec_size m.tree_size⟩, left_node, right_node)

/-- `bimap::erase_left(left_iterator)`. -/
def erase_left (m : bimap L R) (it : Ptr) : Option (bimap L R × Ptr) :=
  match m.remove it with
  | none => none
  | some (m1, first, _) => some (m1, first)

/-- `bimap::erase_right(right_iterator)`. -/
def erase_right (m : bimap L R) (it : Ptr) : Option (bimap L R × Ptr) :=
  match m.remove it with
  | none => none
  | some (m1, _, second) => some (m1, second)

/-- `bimap::erase_left(left_t const&)`. -/
def erase_left_key (m : bimap L R) (left : L) : Option (bimap L R × Bool) :=
  match m.left_tree.find left with
  | tree_node.nil => some (m, false)
  | tree_node.node _ _ _ _ i _ =>
    match m.remove (Ptr.node i) with
    | none => none
    | some (m1, _, _) => some (m1, true)

/-- `bimap::erase_right(right_t const&)`. -/
def erase_right_key (m : bimap L R) (right : R) : Option (bimap L R × Bool) :=
  match m.right_tree.find right with
  | tree_node.nil => some (m, false)
  | tree_node.node _ _ _ _ i _ =>
    match m.remove (Ptr.node i) with
    | none => none
    | some (m1, _, _) => some (m1, true)

/-- The loop of `bimap::erase_left(first, last)` with the local `iter`. -/
def erase_left_loop : Nat → bimap L R → Ptr → Ptr → Ptr → Option (bimap L R × Ptr)
  | 0, _, _, _, _ => none
  | fuel + 1, m, first, iter, last =>
    if first = last then some (m, last)
    else
      match m.next_left first with
      | none => none
      | some first1 =>
        match m.next_left iter with
        | none => none
        | some iter1 =>
          match m.erase_left iter with
          | none => none
          | some (m1, _) => erase_left_loop fuel m1 first1 iter1 last

/-- `bimap::erase_left(first, last)`. -/
def erase_left_range (m : bimap L R) (first last : Ptr) : Option (bimap L R × Ptr) :=
  erase_left_loop (m.left_tree.root.size + 1) m first first last

/-- The loop of `bimap::erase_right(first, last)` with the local `iter`. -/
def erase_right_loop : Nat → bimap L R → Ptr → Ptr → Ptr → Option (bimap L R × Ptr)
  | 0, _, _, _, _ => none
  | fuel + 1, m, first, iter, last =>
    if first = last then some (m, last)
    else
      match m.next_right first with
      | none => none
      | some first1 =>
        match m.next_right iter with
        | none => none
        | some iter1 =>
          match m.erase_right iter with
          | none => none
          | some (m1, _) => erase_right_loop fuel m1 first1 iter1 last

/-- `bimap::erase_right(first, last)`. -/
def erase_right_range (m : bimap L R) (first last : Ptr) : Option (bimap L R × Ptr) :=
  erase_right_loop (m.right_tree.root.size + 1) m first first last

/-- `bimap::at_left`; `out_of_range` is the thrown `std::out_of_range`. -/
def at_left (m : bimap L R) (key : L) : Except at_error R :=
  match m.left_tree.find key with
  | tree_node.nil => Except.error at_error.out_of_range
  | tree_node.node _ _ _ _ i _ =>
    match m.right_tree.value_at (Ptr.node i) with
    | none => Except.error at_error.bad_pointer
    | some r => Except.ok r

/-- `bimap::at_right`. -/
def at_right (m : bimap L R) (key : R) : Except at_error L :=
  match m.right_tree.find key with
  | tree_node.nil => Except.error at_error.out_of_range
  | tree_node.node _ _ _ _ i _ =>
    match m.left_tree.value_at (Ptr.node i) with
    | none => Except.error at_error.bad_pointer
    | some l => Except.ok l

/-- `bimap::at_left_or_default`. -/
def at_left_or_default [Inhabited R] (m : bimap L R) (left : L) : Option (bimap L R × R) :=
  match m.left_tree.find left with
  | tree_node.nil =>
    let right : R := default
    let evicted : Option (bimap L R) :=
      match m.right_tree.find right with
      | tree_node.nil => some m
      | tree_node.node _ _ _ _ j _ => (m.erase_right (Ptr.node j)).map Prod.fst
    match evicted with
    | none => none
    | some m1 =>
      let res := m1.insert left right
      match res.1.flip_left res.2 with
      | none => none
      | some rit => (res.1.deref_right rit).map (fun v => (res.1, v))
  | tree_node.node _ _ _ _ i _ =>
    (m.right_tree.value_at (Ptr.node i)).map (fun v => (m, v))

/-- `bimap::at_right_or_default`. -/
def at_right_or_default [Inhabited L] (m : bimap L R) (right : R) : Option (bimap L R × L) :=
  match m.right_tree.find right with
  | tree_node.nil =>
    let left : L := default
    let evicted : Option (bimap L R) :=
      match m.left_tree.find left with
      | tree_node.nil => some m
      | tree_node.node _ _ _ _ j _ => (m.erase_left (Ptr.node j)).map Prod.fst
    match evicted with
    | none => none
    | some m1 =>
      let res := m1.insert left right
      (res.1.deref_left res.2).map (fun v => (res.1, v))
  | tree_node.node _ _ _ _ i _ =>
    (m.left_tree.value_at (Ptr.node i)).map (fun v => (m, v))

/-- `operator--` of a left iterator. -/
def prev_left (m : bimap L R) (it : Ptr) : Option Ptr :=
  m.left_tree.prev it

/-- `operator--` of a right iterator. -/
def prev_right (m : bimap L R) (it : Ptr) : Option Ptr :=
  m.right_tree.prev it

/-- `bimap::upper_bound_left`. -/
def upper_bound_left (m : bimap L R) (left : L) : Option Ptr :=
  m.left_tree.upper_bound left

/-- `bimap::upper_bound_right`. -/
def upper_bound_right (m : bimap L R) (right : R) : Option Ptr :=
  m.right_tree.upper_bound right

/-- `*it.flip()` for a left iterator. -/
def deref_flip_left (m : bimap L R) (it : Ptr) : Option R :=
  match m.flip_left it with
  | none => none
  | some rit => m.deref_right rit

/-- `*it.flip()` for a right iterator. -/
def deref_flip_right (m : bimap L R) (it : Ptr) : Option L :=
  match m.flip_right it with
  | none => none
  | some lit => m.deref_left lit

/-- The loop of `bimap::compare_equal`, from the iterators `a_iter` (of
`this`) and `b_iter` (of `other`). -/
def compare_equal_loop (m other : bimap L R) : Nat → Ptr → Ptr → Option Bool
  | 0, _, _ => none
  | fuel + 1, a_iter, b_iter =>
    if a_iter ≠ m.end_left ∧ b_iter ≠ other.end_left then
      match m.deref_left a_iter, other.deref_left b_iter with
      | some la, some lb =>
        if !m.left_tree.compare_equal la lb then some false
        else
          match m.deref_flip_left a_iter, other.deref_flip_left b_iter with
          | some ra, some rb =>
            if !m.right_tree.compare_equal ra rb then some false
            else
              match m.next_left a_iter, other.next_left b_iter with
              | some a1, some b1 => compare_equal_loop m other fuel a1 b1
              | _, _ => none
          | _, _ => none
      | _, _ => none
    else some true

/-- `bimap::compare_equal`, which is `operator==`. -/
def compare_equal (m other : bimap L R) : Option Bool :=
  if m.size ≠ other.size then some false
  else compare_equal_loop m other (m.left_tree.root.size + 1) m.begin_left other.begin_left

/-- The loop of the copy constructor, with the map under construction. -/
def copy_loop (other : bimap L R) : Nat → bimap L R → Ptr → Option (bimap L R)
  | 0, _, _ => none
  | fuel + 1, c, iter =>
    if iter ≠ other.end_left then
      match other.deref_left iter, other.deref_flip_left iter with
      | some l, some r =>
        match other.next_left iter with
        | none => none
        | some iter1 => copy_loop other fuel (c.insert l r).1 iter1
      | _, _ => none
    else some c

/-- The copy constructor `bimap(bimap const& other)` for a map whose two
sentinels live at the addresses `la` and `ra`. -/
def copy (la ra : Nat) (other : bimap L R) : Option (bimap L R) :=
  copy_loop other (other.left_tree.root.size + 1)
    (init la ra other.left_tree.compare other.right_tree.compare) other.begin_left

/-- Apply `++` to a left iterator `n` times: the positions passed, in order,
and the position reached. -/
def walk_left (m : bimap L R) : Nat → Ptr → Option (List Ptr × Ptr)
  | 0, it => some ([], it)
  | n + 1, it =>
    match m.next_left it with
    | none => none
    | some it1 =>
      match walk_left m n it1 with
      | none => none
      | some (seen, last) => some (it :: seen, last)

/-- Apply `++` to a right iterator `n` times: the positions passed, in order,
and the position reached. -/
def walk_right (m : bimap L R) : Nat → Ptr → Option (List Ptr × Ptr)
  | 0, it => some ([], it)
  | n + 1, it =>
    match m.next_right it with
    | none => none
    | some it1 =>
      match walk_right m n it1 with
      | none => none
      | some (seen, last) => some (it :: seen, last)

/-- `bimap::swap`: `(this, other)` afterwards. -/
def swap (m other : bimap L R) : bimap L R × bimap L R :=
  let l := m.left_tree.swap other.left_tree
  let r := m.right_tree.swap other.right_tree
  (⟨l.1, r.1, other.tree_size⟩, ⟨l.2, r.2, m.tree_size⟩)

/-- The move constructor `bimap(bimap&& other)`: a default-constructed map at
the sentinel addresses `la`, `ra`, with the default-constructed comparators,
swapped with `other`; `(the new map, other)` afterwards. -/
def move (la ra : Nat) (compare_left : L → L → Bool) (compare_right : R → R → Bool)
    (other : bimap L R) : bimap L R × bimap L R :=
  let r := other.swap (init la ra compare_left compare_right)
  (r.2, r.1)

end bimap

/-! ### Invariants and reachable states -/

namespace bimap_impl

/-- Two values are equivalent when neither is less than the other (what
`tree::compare_equal` computes). -/
def equiv {α : Type} (cmp : α → α → Bool) (a b : α) : Prop :=
  cmp a b = false ∧ cmp b a = false

instance equiv_decidable {α : Type} (cmp : α → α → Bool) (a b : α) : Decidable (equiv cmp a b) :=
  inferInstanceAs (Decidable (cmp a b = false ∧ cmp b a = false))

/-- The comparator is a strict weak ordering. -/
structure strict_weak {α : Type} (cmp : α → α → Bool) : Prop where
  irrefl : ∀ a, cmp a a = false
  trans : ∀ a b c, cmp a b = true → cmp b c = true → cmp a c = true
  equiv_trans : ∀ a b c, equiv cmp a b → equiv cmp b c → equiv cmp a c

namespace tree_node

variable {α : Type}

/-- Identities in in-order. -/
def ids (t : tree_node α) : List Nat :=
  t.inorder.map Prod.fst

/-- Values in in-order. -/
def values (t : tree_node α) : List α :=
  t.inorder.map Prod.snd

/-- The in-order sequence is strictly increasing under `cmp`. -/
def sorted (cmp : α → α → Bool) (t : tree_node α) : Prop :=
  t.inorder.Pairwise (fun a b => cmp a.2 b.2 = true)

/-- At every node the cached height is `1 + max` of the children's heights
and the balance factor is `-1`, `0` or `1`. -/
def avl : tree_node α → Prop
  | nil => True
  | node l r p h i v =>
    avl l ∧ avl r ∧ h = max (get_height l) (get_height r) + 1 ∧
      -1 ≤ get_balance (node l r p h i v) ∧ get_balance (node l r p h i v) ≤ 1

/-- The root of the subtree, when there is one, has `parent == q`. -/
def parent_is (q : Ptr) : tree_node α → Prop
  | nil => True
  | node _ _ p _ _ _ => p = q

/-- Below the root, every child's parent link is the node that holds it. -/
def links_ok : tree_node α → Prop
  | nil => True
  | node l r _ _ i _ =>
    parent_is (Ptr.node i) l ∧ parent_is (Ptr.node i) r ∧ links_ok l ∧ links_ok r

end tree_node

/-- The pointer to the first node of a sequence, `up` when it is empty. -/
def head_ptr {α : Type} (up : Ptr) : List (Nat × α) → Ptr
  | [] => up
  | a :: _ => Ptr.node a.1

/-- The pointer to the last node of a sequence, `up` when it is empty. -/
def last_ptr {α : Type} (up : Ptr) (l : List (Nat × α)) : Ptr :=
  match l.getLast? with
  | none => up
  | some a => Ptr.node a.1

/-- `subtree s t`: the node `s` (with everything below it) occurs in `t`. -/
inductive subtree {α : Type} (s : tree_node α) : tree_node α → Prop where
  | refl : subtree s s
  | left (l r : tree_node α) (p : Ptr) (h i : Nat) (v : α) :
      subtree s l → subtree s (tree_node.node l r p h i v)
  | right (l r : tree_node α) (p : Ptr) (h i : Nat) (v : α) :
      subtree s r → subtree s (tree_node.node l r p h i v)

/-- Rebalancing as the specification words the case selection: like
`tree_node.balance`, except that for the balance factor `-2` the left child is
rotated left first exactly when it is left-heavy (child balance `< 0`). -/
def balance_as_worded {α : Type} : tree_node α → tree_node α
  | tree_node.nil => tree_node.nil
  | tree_node.node l r p _ i v =>
    let h1 := max l.get_height r.get_height + 1
    if (tree_node.node l r p h1 i v).get_balance = 2 then
      if r.get_balance < 0 then
        (tree_node.upd_kids (tree_node.node l r.rotate_right p h1 i v)).rotate_left
      else
        (tree_node.node l r p h1 i v).rotate_left
    else if (tree_node.node l r p h1 i v).get_balance = -2 then
      if l.get_balance < 0 then
        (tree_node.upd_kids (tree_node.node l.rotate_left r p h1 i v)).rotate_right
      else
        (tree_node.node l r p h1 i v).rotate_right
    else
      tree_node.node l r p h1 i v

/-- The node `3` whose left child `1` has the right child `2`, before
`balance()`: the balance factor becomes `-2` and the left child is
right-heavy. -/
def left_right_case : tree_node Int :=
  tree_node.node
    (tree_node.node tree_node.nil (tree_node.node tree_node.nil tree_node.nil (Ptr.node 1) 1 2 2)
      (Ptr.node 3) 2 1 1)
    tree_node.nil (Ptr.fake 0) 2 3 3

/-- The node `3` whose left child `2` has the left child `1`, before
`balance()`: the balance factor becomes `-2` and the left child is
left-heavy. -/
def left_left_case : tree_node Int :=
  tree_node.node
    (tree_node.node (tree_node.node tree_node.nil tree_node.nil (Ptr.node 2) 1 1 1) tree_node.nil
      (Ptr.node 3) 2 2 2)
    tree_node.nil (Ptr.fake 0) 2 3 3

/-- The node `1` whose right child `2` has the right child `3`, before
`balance()`: the balance factor becomes `2`. -/
def right_right_case : tree_node Int :=
  tree_node.node tree_node.nil
    (tree_node.node tree_node.nil (tree_node.node tree_node.nil tree_node.nil (Ptr.node 2) 1 3 3)
      (Ptr.node 1) 2 2 2)
    (Ptr.fake 0) 2 1 1

/-- The invariant of one `tree`. -/
structure tree.inv {α : Type} (t : tree α) : Prop where
  order : strict_weak t.compare
  sorted : t.root.sorted t.compare
  avl : t.root.avl
  root_parent : t.root.parent_is (Ptr.fake t.fake_addr)
  links : t.root.links_ok
  nodup : t.root.ids.Nodup

/-- The node behind the child pointer `c` of the node or sentinel at `p` has
`parent == p`; nothing is asked of a null child. -/
def tree.child_link_ok {α : Type} (t : tree α) (p c : Ptr) : Prop :=
  c = Ptr.null ∨ ∃ n, t.deref c = some n ∧ n.parent = p

/-- The parent links of one tree, read through pointers: behind both child
pointers of every stored node the parent link is that node, and `is_end()` is
false for it; the sentinel's `left` is the root, whose parent link is the
sentinel, the sentinel's own parent link is null and `is_end()` is true for
it; and no assertion of `check_invariant` fails. -/
structure tree.back_links {α : Type} (t : tree α) : Prop where
  node_links : ∀ i ∈ t.root.ids, ∃ n, t.deref (Ptr.node i) = some n ∧
    t.child_link_ok (Ptr.node i) n.left ∧ t.child_link_ok (Ptr.node i) n.right ∧
    n.is_end = false
  fake_links : ∃ f, t.deref t.get_end = some f ∧ f.left = t.root.ptr ∧
    t.child_link_ok t.get_end f.left ∧ f.parent = Ptr.null ∧ f.is_end = true
  asserts : t.root.check_invariant t.compare = true

end bimap_impl

namespace bimap

variable {L R : Type}

/-- The left sequence: identity and left value of every entry, in left order. -/
def left_seq (m : bimap L R) : List (Nat × L) :=
  m.left_tree.root.inorder

/-- The right sequence: identity and right value of every entry, in right order. -/
def right_seq (m : bimap L R) : List (Nat × R) :=
  m.right_tree.root.inorder

/-- The entry `i` of the map pairs `l` with `r`. -/
def has_pair (m : bimap L R) (i : Nat) (l : L) (r : R) : Prop :=
  (i, l) ∈ m.left_seq ∧ (i, r) ∈ m.right_seq

/-- The pair `(*it, *it.flip())` at the position of the entry `a` of the left
sequence. -/
def pair_at (m : bimap L R) (a : Nat × L) : Option (L × R) :=
  (m.deref_flip_left (Ptr.node a.1)).map (fun r => (a.2, r))

/-- The pairs of the map in left order: `(*it, *it.flip())` at every position
of the left sequence. -/
def pairs (m : bimap L R) : List (L × R) :=
  m.left_seq.filterMap (pair_at m)

/-- Two pairs are equal for the map `m`: the left values are equivalent under
the left comparator of `m` and the right values under its right comparator. -/
def equal_entries (m : bimap L R) (x y : L × R) : Prop :=
  equiv m.left_tree.compare x.1 y.1 ∧ equiv m.right_tree.compare x.2 y.2

/-- The equality of two maps as the specification words it: the same size
and, in lock-step over the two left sequences, equivalent left values and
equivalent paired right values. -/
def equal_as_worded (a b : bimap L R) : Prop :=
  a.size = b.size ∧ List.Forall₂ (equal_entries a) (pairs a) (pairs b)

/-- The entry at `x` of the left sequence of `c` and the entry at `y` of the
left sequence of `m` hold the same left value and the same right value. -/
def same_entry (c m : bimap L R) (x y : Nat × L) : Prop :=
  x.2 = y.2 ∧ ∃ r, has_pair c x.1 x.2 r ∧ has_pair m y.1 y.2 r

/-- The invariant of the whole map. -/
structure inv (m : bimap L R) : Prop where
  left : m.left_tree.inv
  right : m.right_tree.inv
  same_ids : ∀ i, i ∈ m.left_tree.root.ids ↔ i ∈ m.right_tree.root.ids
  size_left : m.left_tree.root.size = m.tree_size
  size_right : m.right_tree.root.size = m.tree_size
  link_left : m.left_tree.fake_right = Ptr.fake m.right_tree.fake_addr
  link_right : m.right_tree.fake_right = Ptr.fake m.left_tree.fake_addr

/-- `std::less<int>`. -/
def int_less (a b : Int) : Bool :=
  decide (a < b)

/-- `std::less<std::string>`. -/
def string_less (a b : String) : Bool :=
  decide (a < b)

/-- An empty `bimap<int, int>` with its sentinels at the addresses `0` and `1`. -/
def empty_int_int : bimap Int Int :=
  init 0 1 int_less int_less

/-- An empty `bimap<int, std::string>` with its sentinels at the addresses `0`
and `1`. -/
def empty_int_string : bimap Int String :=
  init 0 1 int_less string_less

/-- The `bimap<int, std::string>` holding `(1, "a")`, `(2, "b")`, `(3, "c")`,
inserted in that order. -/
def abc_map : bimap Int String :=
  (((empty_int_string.insert 1 "a").1.insert 2 "b").1.insert 3 "c").1

/-- The two maps have the same sentinels and the same comparators. -/
def same_frame (m m1 : bimap L R) : Prop :=
  m1.left_tree.fake_addr = m.left_tree.fake_addr ∧
  m1.right_tree.fake_addr = m.right_tree.fake_addr ∧
  m1.left_tree.compare = m.left_tree.compare ∧
  m1.right_tree.compare = m.right_tree.compare

/-- States reachable from an empty map (with strict weak comparators) by the
mutating operations of the public interface.  `default` is the
value-initialised `Left()` / `Right()`; a type that cannot be default
constructed has no `at_*_or_default`, which only removes steps. -/
inductive reachable [Inhabited L] [Inhabited R] : bimap L R → Prop where
  | init (la ra : Nat) (cl : L → L → Bool) (cr : R → R → Bool) :
      strict_weak cl → strict_weak cr → reachable (init la ra cl cr)
  | insert (m : bimap L R) (l : L) (r : R) : reachable m → reachable (m.insert l r).1
  | erase_left (m m1 : bimap L R) (it p : Ptr) :
      reachable m → m.erase_left it = some (m1, p) → reachable m1
  | erase_right (m m1 : bimap L R) (it p : Ptr) :
      reachable m → m.erase_right it = some (m1, p) → reachable m1
  | erase_left_key (m m1 : bimap L R) (k : L) (b : Bool) :
      reachable m → m.erase_left_key k = some (m1, b) → reachable m1
  | erase_right_key (m m1 : bimap L R) (k : R) (b : Bool) :
      reachable m → m.erase_right_key k = some (m1, b) → reachable m1
  | erase_left_range (m m1 : bimap L R) (first last p : Ptr) :
      reachable m → m.erase_left_range first last = some (m1, p) → reachable m1
  | erase_right_range (m m1 : bimap L R) (first last p : Ptr) :
      reachable m → m.erase_right_range first last = some (m1, p) → reachable m1
  | at_left_or_default (m m1 : bimap L R) (k : L) (v : R) :
      reachable m → m.at_left_or_default k = some (m1, v) → reachable m1
  | at_right_or_default (m m1 : bimap L R) (k : R) (v : L) :
      reachable m → m.at_right_or_default k = some (m1, v) → reachable m1
  | swap_this (m other : bimap L R) : reachable m → reachable other → reachable (m.swap other).1
  | swap_other (m other : bimap L R) : reachable m → reachable other → reachable (m.swap other).2

end bimap

/-! ### The balance primitive: sequences and heights -/

namespace bimap_impl
namespace tree_node
variable {α : Type}

@[simp] theorem get_height_nil : (nil : tree_node α).get_height = 0 := rfl
@[simp] theorem get_height_node (l r : tree_node α) (p : Ptr) (h i : Nat) (v : α) :
    (node l r p h i v).get_height = h := rfl
@[simp] theorem get_balance_nil : (nil : tree_node α).get_balance = 0 := rfl
@[simp] theorem get_balance_node (l r : tree_node α) (p : Ptr) (h i : Nat) (v : α) :
    (node l r p h i v).get_balance = (r.get_height : Int) - (l.get_height : Int) := rfl
@[simp] theorem set_parent_nil (q : Ptr) : set_parent q (nil : tree_node α) = nil := rfl
@[simp] theorem set_parent_node (q : Ptr) (l r : tree_node α) (p : Ptr) (h i : Nat) (v : α) :
    set_parent q (node l r p h i v) = node l r q h i v := rfl
@[simp] theorem upd_kids_node (l r : tree_node α) (p : Ptr) (h i : Nat) (v : α) :
    upd_kids (node l r p h i v)
      = node (set_parent (Ptr.node i) l) (set_parent (Ptr.node i) r) p h i v := rfl
@[simp] theorem upd_height_node (l r : tree_node α) (p : Ptr) (h i : Nat) (v : α) :
    upd_height (node l r p h i v) = node l r p (max l.get_height r.get_height + 1) i v := rfl
@[simp] theorem rotate_left_node (l rl rr : tree_node α) (p rp : Ptr) (h rh i ri : Nat)
    (v rv : α) :
    rotate_left (node l (node rl rr rp rh ri rv) p h i v)
      = node (node (set_parent (Ptr.node i) l) (set_parent (Ptr.node i) rl) (Ptr.node ri)
          (max l.get_height rl.get_height + 1) i v) (set_parent (Ptr.node ri) rr) rp
          (max (max l.get_height rl.get_height + 1) rr.get_height + 1) ri rv := by
  cases l <;> cases rl <;> cases rr <;> rfl
@[simp] theorem rotate_right_node (ll lr r : tree_node α) (p lp : Ptr) (h lh i li : Nat)
    (v lv : α) :
    rotate_right (node (node ll lr lp lh li lv) r p h i v)
      = node (set_parent (Ptr.node li) ll) (node (set_parent (Ptr.node i) lr)
          (set_parent (Ptr.node i) r) (Ptr.node li) (max lr.get_height r.get_height + 1) i v) lp
          (max ll.get_height (max lr.get_height r.get_height + 1) + 1) li lv := by
  cases ll <;> cases lr <;> cases r <;> rfl

@[simp] theorem get_height_set_parent (q : Ptr) (t : tree_node α) :
    (set_parent q t).get_height = t.get_height := by
  cases t <;> rfl


@[simp] theorem inorder_set_parent (q : Ptr) (t : tree_node α) :
    (set_parent q t).inorder = t.inorder := by
  cases t <;> rfl

@[simp] theorem inorder_upd_height (t : tree_node α) : (upd_height t).inorder = t.inorder := by
  cases t <;> rfl

@[simp] theorem inorder_upd_kids (t : tree_node α) : (upd_kids t).inorder = t.inorder := by
  cases t <;> simp [upd_kids, inorder]


theorem inorder_rotate_left (l rl rr : tree_node α) (p rp : Ptr) (h rh i ri : Nat) (v rv : α) :
    (rotate_left (node l (node rl rr rp rh ri rv) p h i v)).inorder
      = (node l (node rl rr rp rh ri rv) p h i v).inorder := by
  simp [rotate_left, upd_kids, upd_height, inorder]

theorem inorder_rotate_right (ll lr r : tree_node α) (p lp : Ptr) (h lh i li : Nat) (v lv : α) :
    (rotate_right (node (node ll lr lp lh li lv) r p h i v)).inorder
      = (node (node ll lr lp lh li lv) r p h i v).inorder := by
  simp [rotate_right, upd_kids, upd_height, inorder]

theorem inorder_balance (t : tree_node α) : (balance t).inorder = t.inorder := by
  cases t with
  | nil => rfl
  | node l r p h i v =>
    simp only [balance]
    split_ifs with h1 h2 h3 h4
    · -- double rotation to the left
      cases r with
      | nil => simp [get_balance] at h2
      | node rl rr rp rh ri rv =>
        cases rl with
        | nil => simp [get_balance, get_height] at h2; omega
        | node a b c d e f =>
          simp [rotate_right, rotate_left, upd_kids, upd_height, inorder]
    · cases r with
      | nil => simp [get_balance, get_height] at h1; omega
      | node rl rr rp rh ri rv => simp [rotate_left, upd_kids, upd_height, inorder]
    · cases l with
      | nil => simp [get_balance] at h4
      | node ll lr lp lh li lv =>
        cases lr with
        | nil => simp [get_balance, get_height] at h4; omega
        | node a b c d e f =>
          simp [rotate_right, rotate_left, upd_kids, upd_height, inorder]
    · cases l with
      | nil => simp [get_balance, get_height] at h3
      | node ll lr lp lh li lv => simp [rotate_right, upd_kids, upd_height, inorder]
    · rfl

@[simp] theorem avl_nil : (nil : tree_node α).avl := trivial

theorem avl_node (l r : tree_node α) (p : Ptr) (h i : Nat) (v : α) :
    (node l r p h i v).avl ↔ l.avl ∧ r.avl ∧ h = max l.get_height r.get_height + 1 ∧
      l.get_height ≤ r.get_height + 1 ∧ r.get_height ≤ l.get_height + 1 := by
  simp only [avl, get_balance_node]
  constructor
  · rintro ⟨a, b, c, d, e⟩
    exact ⟨a, b, c, by omega, by omega⟩
  · rintro ⟨a, b, c, d, e⟩
    exact ⟨a, b, c, by omega, by omega⟩

@[simp] theorem avl_set_parent (q : Ptr) (t : tree_node α) : (set_parent q t).avl ↔ t.avl := by
  cases t <;> simp [avl_node]

theorem avl_balance (l r : tree_node α) (p : Ptr) (h i : Nat) (v : α)
    (hl : l.avl) (hr : r.avl)
    (h1 : l.get_height ≤ r.get_height + 2) (h2 : r.get_height ≤ l.get_height + 2) :
    (balance (node l r p h i v)).avl ∧
    max l.get_height r.get_height ≤ (balance (node l r p h i v)).get_height ∧
    (balance (node l r p h i v)).get_height ≤ max l.get_height r.get_height + 1 ∧
    (l.get_height ≤ r.get_height + 1 → r.get_height ≤ l.get_height + 1 →
      balance (node l r p h i v) = node l r p (max l.get_height r.get_height + 1) i v) := by
  simp only [balance]
  split_ifs with c1 c2 c3 c4
  · cases r with
    | nil => simp at c2
    | node rl rr rp rh ri rv =>
      cases rl with
      | nil => simp at c2; omega
      | node a b c d e f =>
        simp only [avl_node, get_balance_node, get_height_node] at hr c1 c2 h1 h2
        obtain ⟨⟨ha, hb, e1, e2, e3⟩, hrr, e4, e5, e6⟩ := hr
        simp only [rotate_right_node, rotate_left_node, upd_kids_node, avl_node, get_height_node,
          get_height_set_parent, avl_set_parent, set_parent_node]
        refine ⟨⟨⟨hl, ha, ?_, ?_, ?_⟩, ⟨hb, hrr, ?_, ?_, ?_⟩, ?_, ?_, ?_⟩, ?_, ?_, ?_⟩ <;> first | trivial | omega
  · cases r with
    | nil => simp at c1; omega
    | node rl rr rp rh ri rv =>
      simp only [avl_node, get_balance_node, get_height_node] at hr c1 c2 h1 h2
      obtain ⟨hrl, hrr, e4, e5, e6⟩ := hr
      simp only [rotate_left_node, avl_node, get_height_node,
          get_height_set_parent, avl_set_parent]
      refine ⟨⟨⟨hl, hrl, ?_, ?_, ?_⟩, hrr, ?_, ?_, ?_⟩, ?_, ?_, ?_⟩ <;> first | trivial | omega
  · cases l with
    | nil => simp at c4
    | node ll lr lp lh li lv =>
      cases lr with
      | nil => simp at c4; omega
      | node a b c d e f =>
        simp only [avl_node, get_balance_node, get_height_node] at hl c1 c3 c4 h1 h2
        obtain ⟨hll, ⟨ha, hb, e1, e2, e3⟩, e4, e5, e6⟩ := hl
        simp only [rotate_right_node, rotate_left_node, upd_kids_node, avl_node, get_height_node,
          get_height_set_parent, avl_set_parent, set_parent_node]
        refine ⟨⟨⟨hll, ha, ?_, ?_, ?_⟩, ⟨hb, hr, ?_, ?_, ?_⟩, ?_, ?_, ?_⟩, ?_, ?_, ?_⟩ <;> first | trivial | omega
  · cases l with
    | nil => simp at c3
    | node ll lr lp lh li lv =>
      simp only [avl_node, get_balance_node, get_height_node] at hl c1 c3 c4 h1 h2
      obtain ⟨hll, hlr, e4, e5, e6⟩ := hl
      simp only [rotate_right_node, avl_node, get_height_node,
          get_height_set_parent, avl_set_parent]
      refine ⟨⟨hll, ⟨hlr, hr, ?_, ?_, ?_⟩, ?_, ?_, ?_⟩, ?_, ?_, ?_⟩ <;> first | trivial | omega
  · simp only [get_balance_node] at c1 c3
    simp only [avl_node, get_height_node]
    refine ⟨⟨hl, hr, ?_, ?_, ?_⟩, ?_, ?_, ?_⟩ <;> first | trivial | omega | (intros; trivial)

end tree_node
end bimap_impl

/-! ### The balance primitive: parent links -/

namespace bimap_impl
namespace tree_node
variable {α : Type}

@[simp] theorem parent_is_nil (q : Ptr) : (nil : tree_node α).parent_is q := trivial
@[simp] theorem parent_is_node (q : Ptr) (l r : tree_node α) (p : Ptr) (h i : Nat) (v : α) :
    (node l r p h i v).parent_is q ↔ p = q := Iff.rfl
@[simp] theorem links_ok_nil : (nil : tree_node α).links_ok := trivial
@[simp] theorem links_ok_node (l r : tree_node α) (p : Ptr) (h i : Nat) (v : α) :
    (node l r p h i v).links_ok ↔
      l.parent_is (Ptr.node i) ∧ r.parent_is (Ptr.node i) ∧ l.links_ok ∧ r.links_ok := Iff.rfl

@[simp] theorem parent_is_set_parent (q : Ptr) (t : tree_node α) :
    (set_parent q t).parent_is q := by
  cases t <;> simp

@[simp] theorem links_ok_set_parent (q : Ptr) (t : tree_node α) :
    (set_parent q t).links_ok ↔ t.links_ok := by
  cases t <;> simp

theorem set_parent_eq_self (q : Ptr) (t : tree_node α) (h : t.parent_is q) :
    set_parent q t = t := by
  cases t with
  | nil => rfl
  | node l r p h i v => simp at h; simp [h]

theorem links_ok_balance (t : tree_node α) (ht : t.links_ok) : (balance t).links_ok := by
  cases t with
  | nil => simp [balance]
  | node l r p h i v =>
    simp only [balance]
    simp only [links_ok_node] at ht
    obtain ⟨pl, pr, hl, hr⟩ := ht
    split_ifs with c1 c2 c3 c4
    · cases r with
      | nil => simp at c2
      | node rl rr rp rh ri rv =>
        cases rl with
        | nil => simp at c2; omega
        | node a b c d e f =>
          simp only [links_ok_node] at hr
          simp [hl, hr]
    · cases r with
      | nil => simp at c1; omega
      | node rl rr rp rh ri rv =>
        simp only [links_ok_node] at hr
        simp [hl, hr]
    · cases l with
      | nil => simp at c4
      | node ll lr lp lh li lv =>
        cases lr with
        | nil => simp at c4; omega
        | node a b c d e f =>
          simp only [links_ok_node] at hl
          simp [hl, hr]
    · cases l with
      | nil => simp at c3
      | node ll lr lp lh li lv =>
        simp only [links_ok_node] at hl
        simp [hl, hr]
    · simp [pl, pr, hl, hr]

theorem links_ok_balance_upd_kids (l r : tree_node α) (p : Ptr) (h i : Nat) (v : α)
    (hl : l.links_ok) (hr : r.links_ok) :
    (balance (upd_kids (node l r p h i v))).links_ok := by
  apply links_ok_balance
  simp [hl, hr]

end tree_node
end bimap_impl

/-! ### Ordered insertion -/

namespace bimap_impl
namespace tree_node
variable {α : Type}

@[simp] theorem inorder_nil : (nil : tree_node α).inorder = [] := rfl
@[simp] theorem inorder_node (l r : tree_node α) (p : Ptr) (h i : Nat) (v : α) :
    (node l r p h i v).inorder = l.inorder ++ (i, v) :: r.inorder := rfl

theorem sorted_node (cmp : α → α → Bool) (l r : tree_node α) (p : Ptr) (h i : Nat) (v : α) :
    (node l r p h i v).sorted cmp ↔
      l.sorted cmp ∧ r.sorted cmp ∧ (∀ a ∈ l.inorder, cmp a.2 v = true) ∧
      (∀ b ∈ r.inorder, cmp v b.2 = true) ∧
      (∀ a ∈ l.inorder, ∀ b ∈ r.inorder, cmp a.2 b.2 = true) := by
  simp only [sorted, inorder_node, List.pairwise_append, List.pairwise_cons, List.mem_cons]
  constructor
  · rintro ⟨h1, ⟨h2, h3⟩, h4⟩
    exact ⟨h1, h3, fun a ha => h4 a ha _ (Or.inl rfl), h2,
      fun a ha b hb => h4 a ha b (Or.inr hb)⟩
  · rintro ⟨h1, h2, h3, h4, h5⟩
    refine ⟨h1, ⟨h4, h2⟩, ?_⟩
    intro a ha b hb
    rcases hb with rfl | hb
    · exact h3 a ha
    · exact h5 a ha b hb

/-- What `insert_impl` does to the in-order sequence of an ordered subtree. -/
theorem inorder_insert_impl (cmp : α → α → Bool) (hw : strict_weak cmp) (i : Nat) (x : α)
    (t : tree_node α) (hs : t.sorted cmp) :
    (∃ l1 l2, t.inorder = l1 ++ l2 ∧ (insert_impl cmp i x t).inorder = l1 ++ (i, x) :: l2 ∧
        (∀ a ∈ l1, cmp a.2 x = true) ∧ (∀ b ∈ l2, cmp x b.2 = true)) ∨
    ((∃ a ∈ t.inorder, equiv cmp x a.2) ∧ (insert_impl cmp i x t).inorder = t.inorder) := by
  induction t with
  | nil =>
    left
    exact ⟨[], [], rfl, rfl, by simp, by simp⟩
  | node l r p h j v ihl ihr =>
    rw [sorted_node] at hs
    obtain ⟨sl, sr, hlv, hvr, hlr⟩ := hs
    simp only [insert_impl]
    split_ifs with c1 c2
    · rw [inorder_balance, inorder_upd_kids, inorder_node]
      rcases ihl sl with ⟨l1, l2, e1, e2, h1, h2⟩ | ⟨⟨a, ha, hq⟩, e⟩
      · left
        refine ⟨l1, l2 ++ (j, v) :: r.inorder, by simp [e1], by simp [e2], h1, ?_⟩
        intro b hb
        simp only [List.mem_append, List.mem_cons] at hb
        rcases hb with hb | rfl | hb
        · exact h2 b hb
        · exact c1
        · exact hw.trans _ _ _ c1 (hvr b hb)
      · right
        exact ⟨⟨a, by simp [ha], hq⟩, by simp [e]⟩
    · rw [inorder_balance, inorder_upd_kids, inorder_node]
      rcases ihr sr with ⟨l1, l2, e1, e2, h1, h2⟩ | ⟨⟨a, ha, hq⟩, e⟩
      · left
        refine ⟨l.inorder ++ (j, v) :: l1, l2, by simp [e1], by simp [e2], ?_, h2⟩
        intro b hb
        simp only [List.mem_append, List.mem_cons] at hb
        rcases hb with hb | rfl | hb
        · exact hw.trans _ _ _ (hlv b hb) c2
        · exact c2
        · exact h1 b hb
      · right
        exact ⟨⟨a, by simp [ha], hq⟩, by simp [e]⟩
    · right
      refine ⟨⟨(j, v), by simp, ?_, ?_⟩, inorder_balance _⟩
      · simpa using c1
      · simpa using c2

theorem avl_insert_impl (cmp : α → α → Bool) (i : Nat) (x : α) (t : tree_node α)
    (ht : t.avl) :
    (insert_impl cmp i x t).avl ∧ t.get_height ≤ (insert_impl cmp i x t).get_height ∧
      (insert_impl cmp i x t).get_height ≤ t.get_height + 1 := by
  induction t with
  | nil => simp [insert_impl, fresh, avl_node]
  | node l r p h j v ihl ihr =>
    rw [avl_node] at ht
    obtain ⟨al, ar, eh, b1, b2⟩ := ht
    obtain ⟨il, il1, il2⟩ := ihl al
    obtain ⟨ir, ir1, ir2⟩ := ihr ar
    simp only [insert_impl]
    split_ifs with c1 c2
    · have hb := avl_balance (set_parent (Ptr.node j) (insert_impl cmp i x l))
        (set_parent (Ptr.node j) r) p h j v (by simpa using il) (by simpa using ar)
        (by simp only [get_height_set_parent]; omega)
        (by simp only [get_height_set_parent]; omega)
      simp only [get_height_set_parent] at hb
      obtain ⟨hb1, hb2, hb3, hb4⟩ := hb
      simp only [upd_kids_node, get_height_node]
      refine ⟨hb1, ?_, by omega⟩
      by_cases hc : (insert_impl cmp i x l).get_height ≤ r.get_height + 1
      · rw [hb4 hc (by omega)]
        simp only [get_height_node]
        omega
      · omega
    · have hb := avl_balance (set_parent (Ptr.node j) l)
        (set_parent (Ptr.node j) (insert_impl cmp i x r)) p h j v (by simpa using al)
        (by simpa using ir)
        (by simp only [get_height_set_parent]; omega)
        (by simp only [get_height_set_parent]; omega)
      simp only [get_height_set_parent] at hb
      obtain ⟨hb1, hb2, hb3, hb4⟩ := hb
      simp only [upd_kids_node, get_height_node]
      refine ⟨hb1, ?_, by omega⟩
      by_cases hc : (insert_impl cmp i x r).get_height ≤ l.get_height + 1
      · rw [hb4 (by omega) hc]
        simp only [get_height_node]
        omega
      · omega
    · obtain ⟨hb1, hb2, hb3, hb4⟩ := avl_balance l r p h j v al ar (by omega) (by omega)
      rw [hb4 b1 b2] at hb1 ⊢
      simp only [get_height_node]
      exact ⟨hb1, by omega, by omega⟩

theorem links_ok_insert_impl (cmp : α → α → Bool) (i : Nat) (x : α) (t : tree_node α)
    (ht : t.links_ok) : (insert_impl cmp i x t).links_ok := by
  induction t with
  | nil => simp [insert_impl, fresh]
  | node l r p h j v ihl ihr =>
    have ht1 := ht
    simp only [links_ok_node] at ht1
    obtain ⟨pl, pr, hl, hr⟩ := ht1
    simp only [insert_impl]
    split_ifs with c1 c2
    · exact links_ok_balance_upd_kids _ _ _ _ _ _ (ihl hl) hr
    · exact links_ok_balance_upd_kids _ _ _ _ _ _ hl (ihr hr)
    · exact links_ok_balance _ ht

end tree_node
end bimap_impl

/-! ### Detaching the minimum and removal -/

namespace bimap_impl

theorem equiv_symm {α : Type} {cmp : α → α → Bool} {a b : α} (h : equiv cmp a b) :
    equiv cmp b a :=
  ⟨h.2, h.1⟩

theorem equiv_refl {α : Type} {cmp : α → α → Bool} (hw : strict_weak cmp) (a : α) :
    equiv cmp a a :=
  ⟨hw.irrefl a, hw.irrefl a⟩

theorem strict_weak.asymm {α : Type} {cmp : α → α → Bool} (hw : strict_weak cmp) {a b : α}
    (h : cmp a b = true) : cmp b a = false := by
  cases hba : cmp b a with
  | false => rfl
  | true =>
    have := hw.trans a b a h hba
    rw [hw.irrefl a] at this
    exact absurd this (by decide)

namespace tree_node
variable {α : Type}

theorem get_min_spec (l r : tree_node α) (p : Ptr) (h i : Nat) (v : α) :
    ∃ mr mp mh mi mv, get_min (node l r p h i v) = node nil mr mp mh mi mv ∧
      (node l r p h i v).inorder = (mi, mv) :: (remove_min (node l r p h i v)).inorder := by
  induction l generalizing r p h i v with
  | nil => exact ⟨r, p, h, i, v, rfl, rfl⟩
  | node ll lr lp lh li lv ihl _ =>
    obtain ⟨mr, mp, mh, mi, mv, e1, e2⟩ := ihl lr lp lh li lv
    refine ⟨mr, mp, mh, mi, mv, ?_, ?_⟩
    · simpa only [get_min] using e1
    · simp only [remove_min, inorder_balance, inorder_upd_kids]
      rw [inorder_node, e2, inorder_node]
      rfl

theorem avl_remove_min (l r : tree_node α) (p : Ptr) (h i : Nat) (v : α)
    (ht : (node l r p h i v).avl) :
    (remove_min (node l r p h i v)).avl ∧
      (remove_min (node l r p h i v)).get_height ≤ h ∧
      h ≤ (remove_min (node l r p h i v)).get_height + 1 := by
  induction l generalizing r p h i v with
  | nil =>
    rw [avl_node] at ht
    obtain ⟨_, ar, eh, b1, b2⟩ := ht
    simp only [remove_min]
    simp only [get_height_nil] at eh b1 b2
    exact ⟨ar, by omega, by omega⟩
  | node ll lr lp lh li lv ihl _ =>
    rw [avl_node] at ht
    obtain ⟨al, ar, eh, b1, b2⟩ := ht
    obtain ⟨il, il1, il2⟩ := ihl lr lp lh li lv al
    simp only [get_height_node] at eh b1 b2
    have hb := avl_balance (set_parent (Ptr.node i) (remove_min (node ll lr lp lh li lv)))
        (set_parent (Ptr.node i) r) p h i v (by simpa using il) (by simpa using ar)
        (by simp only [get_height_set_parent]; omega)
        (by simp only [get_height_set_parent]; omega)
    simp only [get_height_set_parent] at hb
    obtain ⟨hb1, hb2, hb3, hb4⟩ := hb
    simp only [remove_min, upd_kids_node]
    refine ⟨hb1, by omega, ?_⟩
    by_cases hc : r.get_height ≤ (remove_min (node ll lr lp lh li lv)).get_height + 1
    · rw [hb4 (by omega) hc]
      simp only [get_height_node]
      omega
    · omega

theorem links_ok_remove_min (t : tree_node α) (ht : t.links_ok) : (remove_min t).links_ok := by
  induction t with
  | nil => simp [remove_min]
  | node l r p h i v ihl _ =>
    have ht1 := ht
    simp only [links_ok_node] at ht1
    obtain ⟨pl, pr, hl, hr⟩ := ht1
    cases l with
    | nil => simpa only [remove_min] using hr
    | node ll lr lp lh li lv =>
      simp only [remove_min]
      exact links_ok_balance_upd_kids _ _ _ _ _ _ (ihl hl) hr

/-- What `remove_impl` does to the in-order sequence of an ordered subtree. -/
theorem inorder_remove_impl (cmp : α → α → Bool) (hw : strict_weak cmp) (x : α)
    (t : tree_node α) (hs : t.sorted cmp) :
    (∃ l1 a l2, t.inorder = l1 ++ a :: l2 ∧ equiv cmp x a.2 ∧
        (remove_impl cmp x t).inorder = l1 ++ l2) ∨
    ((∀ a ∈ t.inorder, ¬ equiv cmp x a.2) ∧ (remove_impl cmp x t).inorder = t.inorder) := by
  induction t with
  | nil =>
    right
    exact ⟨by simp, rfl⟩
  | node l r p h j v ihl ihr =>
    rw [sorted_node] at hs
    obtain ⟨sl, sr, hlv, hvr, hlr⟩ := hs
    simp only [remove_impl]
    split_ifs with c1 c2
    · rw [inorder_balance, inorder_upd_kids, inorder_node]
      rcases ihl sl with ⟨l1, a, l2, e1, hq, e2⟩ | ⟨hno, e⟩
      · left
        exact ⟨l1, a, l2 ++ (j, v) :: r.inorder, by simp [e1], hq, by simp [e2]⟩
      · right
        refine ⟨?_, by simp [e]⟩
        intro a ha hq
        simp only [inorder_node, List.mem_append, List.mem_cons] at ha
        rcases ha with ha | rfl | ha
        · exact hno a ha hq
        · rw [hq.1] at c1
          exact absurd c1 (by decide)
        · have := hw.trans _ _ _ c1 (hvr a ha)
          rw [hq.1] at this
          exact absurd this (by decide)
    · rw [inorder_balance, inorder_upd_kids, inorder_node]
      rcases ihr sr with ⟨l1, a, l2, e1, hq, e2⟩ | ⟨hno, e⟩
      · left
        exact ⟨l.inorder ++ (j, v) :: l1, a, l2, by simp [e1], hq, by simp [e2]⟩
      · right
        refine ⟨?_, by simp [e]⟩
        intro a ha hq
        simp only [inorder_node, List.mem_append, List.mem_cons] at ha
        rcases ha with ha | rfl | ha
        · have := hw.trans _ _ _ (hlv a ha) c2
          rw [hq.2] at this
          exact absurd this (by decide)
        · rw [hq.2] at c2
          exact absurd c2 (by decide)
        · exact hno a ha hq
    · left
      refine ⟨l.inorder, (j, v), r.inorder, rfl, ⟨by simpa using c1, by simpa using c2⟩, ?_⟩
      cases r with
      | nil => simp
      | node rl rr rp rh ri rv =>
        obtain ⟨mr, mp, mh, mi, mv, e1, e2⟩ := get_min_spec rl rr rp rh ri rv
        simp only [e1, inorder_balance, inorder_upd_kids]
        rw [inorder_node, e2]

theorem avl_remove_impl (cmp : α → α → Bool) (x : α) (t : tree_node α) (ht : t.avl) :
    (remove_impl cmp x t).avl ∧ (remove_impl cmp x t).get_height ≤ t.get_height ∧
      t.get_height ≤ (remove_impl cmp x t).get_height + 1 := by
  induction t with
  | nil => simp [remove_impl]
  | node l r p h j v ihl ihr =>
    rw [avl_node] at ht
    obtain ⟨al, ar, eh, b1, b2⟩ := ht
    obtain ⟨il, il1, il2⟩ := ihl al
    obtain ⟨ir, ir1, ir2⟩ := ihr ar
    simp only [remove_impl]
    split_ifs with c1 c2
    · have hb := avl_balance (set_parent (Ptr.node j) (remove_impl cmp x l))
        (set_parent (Ptr.node j) r) p h j v (by simpa using il) (by simpa using ar)
        (by simp only [get_height_set_parent]; omega)
        (by simp only [get_height_set_parent]; omega)
      simp only [get_height_set_parent] at hb
      obtain ⟨hb1, hb2, hb3, hb4⟩ := hb
      simp only [upd_kids_node, get_height_node]
      refine ⟨hb1, by omega, ?_⟩
      by_cases hc : r.get_height ≤ (remove_impl cmp x l).get_height + 1
      · rw [hb4 (by omega) hc]
        simp only [get_height_node]
        omega
      · omega
    · have hb := avl_balance (set_parent (Ptr.node j) l)
        (set_parent (Ptr.node j) (remove_impl cmp x r)) p h j v (by simpa using al)
        (by simpa using ir)
        (by simp only [get_height_set_parent]; omega)
        (by simp only [get_height_set_parent]; omega)
      simp only [get_height_set_parent] at hb
      obtain ⟨hb1, hb2, hb3, hb4⟩ := hb
      simp only [upd_kids_node, get_height_node]
      refine ⟨hb1, by omega, ?_⟩
      by_cases hc : l.get_height ≤ (remove_impl cmp x r).get_height + 1
      · rw [hb4 hc (by omega)]
        simp only [get_height_node]
        omega
      · omega
    · cases r with
      | nil =>
        simp only [get_height_nil, get_height_node] at eh b1 b2 ⊢
        exact ⟨al, by omega, by omega⟩
      | node rl rr rp rh ri rv =>
        obtain ⟨mr, mp, mh, mi, mv, e1, e2⟩ := get_min_spec rl rr rp rh ri rv
        obtain ⟨m1, m2, m3⟩ := avl_remove_min rl rr rp rh ri rv ar
        simp only [get_height_node] at eh b1 b2
        have hb := avl_balance (set_parent (Ptr.node mi) l)
          (set_parent (Ptr.node mi) (remove_min (node rl rr rp rh ri rv))) p mh mi mv
          (by simpa using al) (by simpa using m1)
          (by simp only [get_height_set_parent]; omega)
          (by simp only [get_height_set_parent]; omega)
        simp only [get_height_set_parent] at hb
        obtain ⟨hb1, hb2, hb3, hb4⟩ := hb
        simp only [e1, upd_kids_node, get_height_node]
        refine ⟨hb1, by omega, ?_⟩
        by_cases hc : l.get_height ≤ (remove_min (node rl rr rp rh ri rv)).get_height + 1
        · rw [hb4 hc (by omega)]
          simp only [get_height_node]
          omega
        · omega

theorem links_ok_remove_impl (cmp : α → α → Bool) (x : α) (t : tree_node α)
    (ht : t.links_ok) : (remove_impl cmp x t).links_ok := by
  induction t with
  | nil => simp [remove_impl]
  | node l r p h j v ihl ihr =>
    have ht1 := ht
    simp only [links_ok_node] at ht1
    obtain ⟨pl, pr, hl, hr⟩ := ht1
    simp only [remove_impl]
    split_ifs with c1 c2
    · exact links_ok_balance_upd_kids _ _ _ _ _ _ (ihl hl) hr
    · exact links_ok_balance_upd_kids _ _ _ _ _ _ hl (ihr hr)
    · cases r with
      | nil => exact hl
      | node rl rr rp rh ri rv =>
        obtain ⟨mr, mp, mh, mi, mv, e1, e2⟩ := get_min_spec rl rr rp rh ri rv
        simp only [e1]
        exact links_ok_balance_upd_kids _ _ _ _ _ _ hl (links_ok_remove_min _ hr)

end tree_node
end bimap_impl

/-! ### Identities and dereferencing -/

namespace bimap_impl
namespace tree_node
variable {α : Type}

@[simp] theorem ids_nil : (nil : tree_node α).ids = [] := rfl
@[simp] theorem ids_node (l r : tree_node α) (p : Ptr) (h i : Nat) (v : α) :
    (node l r p h i v).ids = l.ids ++ i :: r.ids := by
  simp [ids]

theorem mem_ids_of_mem {t : tree_node α} {i : Nat} {v : α} (h : (i, v) ∈ t.inorder) :
    i ∈ t.ids :=
  List.mem_map.2 ⟨(i, v), h, rfl⟩

theorem exists_of_mem_ids {t : tree_node α} {i : Nat} (h : i ∈ t.ids) :
    ∃ v, (i, v) ∈ t.inorder := by
  obtain ⟨⟨j, v⟩, hm, rfl⟩ := List.mem_map.1 h
  exact ⟨v, hm⟩

@[simp] theorem lookup_nil (i : Nat) : lookup i (nil : tree_node α) = nil := rfl

theorem lookup_self (l r : tree_node α) (p : Ptr) (h i : Nat) (v : α) :
    lookup i (node l r p h i v) = node l r p h i v := by
  simp [lookup]

theorem lookup_node_right (l r : tree_node α) (p : Ptr) (h i j : Nat) (v : α) (hne : j ≠ i)
    (hl : lookup i l = nil) : lookup i (node l r p h j v) = lookup i r := by
  simp only [lookup, if_neg hne, hl]

theorem lookup_node_left (l r : tree_node α) (p : Ptr) (h i j : Nat) (v : α) (hne : j ≠ i)
    (hl : lookup i l ≠ nil) : lookup i (node l r p h j v) = lookup i l := by
  simp only [lookup, if_neg hne]
  cases hc : lookup i l with
  | nil => exact absurd hc hl
  | node a b c d e f => rfl

theorem lookup_eq_nil {t : tree_node α} {i : Nat} (h : i ∉ t.ids) : lookup i t = nil := by
  induction t with
  | nil => rfl
  | node l r p hh j v ihl ihr =>
    simp only [ids_node, List.mem_append, List.mem_cons, not_or] at h
    obtain ⟨h1, h2, h3⟩ := h
    rw [lookup_node_right _ _ _ _ _ _ _ (Ne.symm h2) (ihl h1), ihr h3]

theorem mem_ids_of_lookup {t : tree_node α} {i : Nat} (h : lookup i t ≠ nil) : i ∈ t.ids := by
  by_contra hc
  exact h (lookup_eq_nil hc)

theorem lookup_subtree {T : tree_node α} (hn : T.ids.Nodup) (l r : tree_node α) (p : Ptr)
    (h i : Nat) (v : α) (hs : subtree (node l r p h i v) T) :
    lookup i T = node l r p h i v := by
  induction hs with
  | refl => exact lookup_self _ _ _ _ _ _
  | left L R' P H J V hsub ih =>
    simp only [ids_node, List.nodup_append, List.nodup_cons] at hn
    obtain ⟨n1, ⟨n2, n3⟩, n4⟩ := hn
    have e := ih n1
    have hnn : lookup i L ≠ nil := by rw [e]; simp
    have hi : i ∈ L.ids := mem_ids_of_lookup hnn
    have hne : J ≠ i := by
      intro hJ
      subst hJ
      exact n4 hi (by simp)
    rw [lookup_node_left _ _ _ _ _ _ _ hne hnn, e]
  | right L R' P H J V hsub ih =>
    simp only [ids_node, List.nodup_append, List.nodup_cons] at hn
    obtain ⟨n1, ⟨n2, n3⟩, n4⟩ := hn
    have e := ih n3
    have hnn : lookup i R' ≠ nil := by rw [e]; simp
    have hi : i ∈ R'.ids := mem_ids_of_lookup hnn
    have hne : J ≠ i := by
      intro hJ
      subst hJ
      exact n2 hi
    have hl : lookup i L = nil := lookup_eq_nil (fun hc => n4 hc (by simp [hi]))
    rw [lookup_node_right _ _ _ _ _ _ _ hne hl, e]

theorem subtree_of_mem {T : tree_node α} {i : Nat} {v : α} (h : (i, v) ∈ T.inorder) :
    ∃ l r p hh, subtree (node l r p hh i v) T := by
  induction T with
  | nil => simp at h
  | node L R' P H J V ihl ihr =>
    simp only [inorder_node, List.mem_append, List.mem_cons] at h
    rcases h with h | h | h
    · obtain ⟨l, r, p, hh, hs⟩ := ihl h
      exact ⟨l, r, p, hh, subtree.left _ _ _ _ _ _ hs⟩
    · cases h
      exact ⟨L, R', P, H, subtree.refl⟩
    · obtain ⟨l, r, p, hh, hs⟩ := ihr h
      exact ⟨l, r, p, hh, subtree.right _ _ _ _ _ _ hs⟩

theorem lookup_of_mem {T : tree_node α} (hn : T.ids.Nodup) {i : Nat} {v : α}
    (h : (i, v) ∈ T.inorder) : ∃ l r p hh, lookup i T = node l r p hh i v := by
  obtain ⟨l, r, p, hh, hs⟩ := subtree_of_mem h
  exact ⟨l, r, p, hh, lookup_subtree hn _ _ _ _ _ _ hs⟩

theorem mem_of_lookup {T : tree_node α} {i j : Nat} {l r : tree_node α} {p : Ptr} {hh : Nat}
    {v : α} (h : lookup i T = node l r p hh j v) : j = i ∧ (i, v) ∈ T.inorder := by
  induction T with
  | nil => simp at h
  | node L R' P H J V ihl ihr =>
    by_cases hJ : J = i
    · subst hJ
      rw [lookup_self] at h
      cases h
      exact ⟨rfl, by simp⟩
    · by_cases c : lookup i L = nil
      · rw [lookup_node_right _ _ _ _ _ _ _ hJ c] at h
        obtain ⟨e, hm⟩ := ihr h
        exact ⟨e, by simp [hm]⟩
      · rw [lookup_node_left _ _ _ _ _ _ _ hJ c] at h
        obtain ⟨e, hm⟩ := ihl h
        exact ⟨e, by simp [hm]⟩

theorem subtree_left_of {T l r : tree_node α} {p : Ptr} {h i : Nat} {v : α}
    (hs : subtree (node l r p h i v) T) : subtree l T := by
  induction hs with
  | refl => exact subtree.left _ _ _ _ _ _ subtree.refl
  | left L R' P H J V _ ih => exact subtree.left _ _ _ _ _ _ ih
  | right L R' P H J V _ ih => exact subtree.right _ _ _ _ _ _ ih

theorem subtree_right_of {T l r : tree_node α} {p : Ptr} {h i : Nat} {v : α}
    (hs : subtree (node l r p h i v) T) : subtree r T := by
  induction hs with
  | refl => exact subtree.right _ _ _ _ _ _ subtree.refl
  | left L R' P H J V _ ih => exact subtree.left _ _ _ _ _ _ ih
  | right L R' P H J V _ ih => exact subtree.right _ _ _ _ _ _ ih

theorem subtree_nodup {s T : tree_node α} (hs : subtree s T) (hn : T.ids.Nodup) :
    s.ids.Nodup := by
  induction hs with
  | refl => exact hn
  | left L R' P H J V _ ih =>
    simp only [ids_node, List.nodup_append, List.nodup_cons] at hn
    exact ih hn.1
  | right L R' P H J V _ ih =>
    simp only [ids_node, List.nodup_append, List.nodup_cons] at hn
    exact ih hn.2.1.2

end tree_node
end bimap_impl

/-! ### The in-order successor through parent links -/

namespace bimap_impl

theorem append_cons_split {β : Type} {A B l1 l2 : List β} {m y : β}
    (h : A ++ m :: B = l1 ++ y :: l2) :
    (∃ tl, A = l1 ++ y :: tl ∧ l2 = tl ++ m :: B) ∨ (l1 = A ∧ y = m ∧ l2 = B) ∨
      (∃ tl, B = tl ++ y :: l2 ∧ l1 = A ++ m :: tl) := by
  rcases List.append_eq_append_iff.1 h with ⟨a', e1, e2⟩ | ⟨c', e1, e2⟩
  · cases a' with
    | nil =>
      simp only [List.nil_append, List.cons.injEq] at e2
      right; left
      exact ⟨by simp [e1], e2.1.symm, e2.2.symm⟩
    | cons hd tl =>
      simp only [List.cons_append, List.cons.injEq] at e2
      right; right
      exact ⟨tl, e2.2, by simp [e1, e2.1]⟩
  · cases c' with
    | nil =>
      simp only [List.nil_append, List.cons.injEq] at e2
      right; left
      exact ⟨by simp [e1], e2.1, e2.2⟩
    | cons hd tl =>
      simp only [List.cons_append, List.cons.injEq] at e2
      left
      exact ⟨tl, by simp [e1, e2.1], e2.2⟩

@[simp] theorem head_ptr_nil {α : Type} (up : Ptr) : head_ptr up ([] : List (Nat × α)) = up := rfl
@[simp] theorem head_ptr_cons {α : Type} (up : Ptr) (a : Nat × α) (l : List (Nat × α)) :
    head_ptr up (a :: l) = Ptr.node a.1 := rfl

theorem head_ptr_append_cons {α : Type} (up : Ptr) (l1 l2 : List (Nat × α)) (a : Nat × α) :
    head_ptr up (l1 ++ a :: l2) = head_ptr (Ptr.node a.1) l1 := by
  cases l1 <;> rfl

namespace tree_node
variable {α : Type}

@[simp] theorem ptr_nil : (nil : tree_node α).ptr = Ptr.null := rfl
@[simp] theorem ptr_node (l r : tree_node α) (p : Ptr) (h i : Nat) (v : α) :
    (node l r p h i v).ptr = Ptr.node i := rfl
@[simp] theorem size_nil : (nil : tree_node α).size = 0 := rfl
@[simp] theorem size_node (l r : tree_node α) (p : Ptr) (h i : Nat) (v : α) :
    (node l r p h i v).size = l.size + r.size + 1 := rfl

theorem get_min_ptr (l r : tree_node α) (p : Ptr) (h i : Nat) (v : α) (up : Ptr) :
    (get_min (node l r p h i v)).ptr = head_ptr up (node l r p h i v).inorder := by
  obtain ⟨mr, mp, mh, mi, mv, e1, e2⟩ := get_min_spec l r p h i v
  rw [e1, e2]
  rfl

end tree_node

namespace tree
variable {α : Type}

theorem deref_node (t : tree α) (i : Nat) (l r : tree_node α) (p : Ptr) (h : Nat) (v : α)
    (e : tree_node.lookup i t.root = tree_node.node l r p h i v) :
    t.deref (Ptr.node i) = some ⟨l.ptr, r.ptr, p, h⟩ := by
  simp [deref, e, tree_node.base?]

theorem deref_fake (t : tree α) :
    t.deref (Ptr.fake t.fake_addr) = some ⟨t.root.ptr, t.fake_right, Ptr.null, 1⟩ := by
  simp [deref]

theorem next_up_succ (t : tree α) (k : Nat) (point parent : Ptr) (pn : tree_base_node)
    (hp : parent ≠ Ptr.null) (hd : t.deref parent = some pn) :
    next_up t (k + 1) point parent =
      if point = pn.right then next_up t k parent pn.parent else some parent := by
  simp [next_up, hp, hd]

open tree_node in
theorem next_up_spec (t : tree α) (hn : t.root.ids.Nodup) (s : tree_node α) :
    ∀ (q up : Ptr) (n : Nat), subtree s t.root → s.parent_is q → s.links_ok →
      (∀ k, n ≤ k → s ≠ nil → next_up t k s.ptr q = some up) →
      ∀ l1 x xv l2, s.inorder = l1 ++ (x, xv) :: l2 →
        ∀ xl xr xp xh, lookup x t.root = node xl xr xp xh x xv →
          (xr ≠ nil → (get_min xr).ptr = head_ptr up l2) ∧
          (xr = nil → ∀ k, n + s.size ≤ k →
            next_up t k (Ptr.node x) xp = some (head_ptr up l2)) := by
  induction s with
  | nil =>
    intro q up n _ _ _ _ l1 x xv l2 hdec
    simp at hdec
  | node l r p h i v ihl ihr =>
    intro q up n hsub hp hl hA l1 x xv l2 hdec xl xr xp xh hlook
    have hself : lookup i t.root = node l r p h i v := lookup_subtree hn _ _ _ _ _ _ hsub
    have dself := deref_node t i l r p h v hself
    simp only [parent_is_node] at hp
    subst hp
    simp only [links_ok_node] at hl
    obtain ⟨pl, pr, ll, lr⟩ := hl
    have hnd := subtree_nodup hsub hn
    simp only [ids_node, List.nodup_append, List.nodup_cons] at hnd
    obtain ⟨n1, ⟨n2, n3⟩, n4⟩ := hnd
    have hAl : ∀ k, 1 ≤ k → l ≠ nil → next_up t k l.ptr (Ptr.node i) = some (Ptr.node i) := by
      intro k hk hne
      obtain ⟨k', rfl⟩ : ∃ k', k = k' + 1 := ⟨k - 1, by omega⟩
      rw [next_up_succ t k' _ _ _ (by simp) dself]
      cases l with
      | nil => exact absurd rfl hne
      | node a b c d e f =>
        cases r with
        | nil => simp
        | node a' b' c' d' e' f' =>
          have : e ≠ e' := by
            intro he
            subst he
            exact @n4 e (by simp) (by simp)
          simp [this]
    have hAr : ∀ k, n + 1 ≤ k → r ≠ nil → next_up t k r.ptr (Ptr.node i) = some up := by
      intro k hk hne
      obtain ⟨k', rfl⟩ : ∃ k', k = k' + 1 := ⟨k - 1, by omega⟩
      rw [next_up_succ t k' _ _ _ (by simp) dself]
      simp only [if_true]
      exact hA k' (by omega) (by simp)
    rw [inorder_node] at hdec
    rcases append_cons_split hdec with ⟨tl, e1, e2⟩ | ⟨e1, e2, e3⟩ | ⟨tl, e1, e2⟩
    · obtain ⟨g1, g2⟩ := ihl (Ptr.node i) (Ptr.node i) 1 (subtree_left_of hsub) pl ll hAl
        l1 x xv tl e1 xl xr xp xh hlook
      rw [e2, head_ptr_append_cons]
      refine ⟨g1, fun hx k hk => g2 hx k ?_⟩
      simp only [size_node] at hk
      omega
    · cases e2
      rw [hself] at hlook
      cases hlook
      subst e3
      constructor
      · intro hx
        cases r with
        | nil => exact absurd rfl hx
        | node a b c d e f => exact get_min_ptr _ _ _ _ _ _ _
      · intro hx k hk
        subst hx
        simp only [inorder_nil, head_ptr_nil]
        exact hA k (by omega) (by simp)
    · obtain ⟨g1, g2⟩ := ihr (Ptr.node i) up (n + 1) (subtree_right_of hsub) pr lr hAr
        tl x xv l2 e1 xl xr xp xh hlook
      refine ⟨g1, fun hx k hk => g2 hx k ?_⟩
      simp only [size_node] at hk
      omega

open tree_node in
/-- `tree::next` at a node returns its in-order successor, and the sentinel
at the last node. -/
theorem next_spec (t : tree α) (hn : t.root.ids.Nodup) (hp : t.root.parent_is (Ptr.fake t.fake_addr))
    (hl : t.root.links_ok) (hf : ∀ j, t.fake_right ≠ Ptr.node j)
    (l1 l2 : List (Nat × α)) (x : Nat) (xv : α) (hdec : t.root.inorder = l1 ++ (x, xv) :: l2) :
    t.next (Ptr.node x) = some (head_ptr (Ptr.fake t.fake_addr) l2) := by
  have hm : (x, xv) ∈ t.root.inorder := by simp [hdec]
  obtain ⟨xl, xr, xp, xh, hlook⟩ := lookup_of_mem hn hm
  have hA : ∀ k, 1 ≤ k → t.root ≠ nil →
      next_up t k t.root.ptr (Ptr.fake t.fake_addr) = some (Ptr.fake t.fake_addr) := by
    intro k hk hne
    obtain ⟨k', rfl⟩ : ∃ k', k = k' + 1 := ⟨k - 1, by omega⟩
    rw [next_up_succ t k' _ _ _ (by simp) (deref_fake t)]
    cases hr : t.root with
    | nil => exact absurd hr hne
    | node a b c d e f =>
      have := hf e
      simp [Ne.symm this]
  obtain ⟨g1, g2⟩ := next_up_spec t hn t.root (Ptr.fake t.fake_addr) (Ptr.fake t.fake_addr) 1
    subtree.refl hp hl hA l1 x xv l2 hdec xl xr xp xh hlook
  simp only [next, hlook]
  cases xr with
  | nil => exact g2 rfl _ (by omega)
  | node a b c d e f => simpa using g1 (by simp)

end tree
end bimap_impl

/-! ### Searching an ordered subtree -/

namespace bimap_impl

theorem sorted_split_unique {α : Type} {cmp : α → α → Bool} {l1 l2 k1 k2 : List (Nat × α)}
    {a b : Nat × α}
    (hs : (l1 ++ a :: l2).Pairwise (fun u w => cmp u.2 w.2 = true))
    (he : l1 ++ a :: l2 = k1 ++ b :: k2) (hq : equiv cmp a.2 b.2) :
    l1 = k1 ∧ a = b ∧ l2 = k2 := by
  rcases append_cons_split he with ⟨tl, e1, e2⟩ | ⟨e1, e2, e3⟩ | ⟨tl, e1, e2⟩
  · exfalso
    rw [e1] at hs
    simp only [List.append_assoc, List.cons_append, List.pairwise_append, List.pairwise_cons,
      List.mem_append, List.mem_cons] at hs
    have := hs.2.1.1 a (Or.inr (Or.inl rfl))
    rw [hq.2] at this
    exact absurd this (by decide)
  · exact ⟨e1.symm, e2.symm, e3.symm⟩
  · exfalso
    rw [e1] at hs
    simp only [List.pairwise_append, List.pairwise_cons, List.mem_append, List.mem_cons] at hs
    have := hs.2.1.1 b (Or.inr (Or.inl rfl))
    rw [hq.1] at this
    exact absurd this (by decide)

theorem head_ptr_dropWhile_stop {α : Type} (f : Nat × α → Bool) (up : Ptr)
    (L M : List (Nat × α)) (a : Nat × α) (ha : f a = false) :
    head_ptr up ((L ++ a :: M).dropWhile f) = head_ptr (Ptr.node a.1) (L.dropWhile f) := by
  induction L with
  | nil => simp [List.dropWhile, ha]
  | cons b L ih =>
    cases hb : f b with
    | true => simpa [List.dropWhile, hb] using ih
    | false => simp [List.dropWhile, hb]

theorem dropWhile_append_all {β : Type} (f : β → Bool) (L M : List β)
    (h : ∀ b ∈ L, f b = true) : (L ++ M).dropWhile f = M.dropWhile f := by
  induction L with
  | nil => rfl
  | cons b L ih =>
    have hb := h b (by simp)
    simp only [List.cons_append, List.dropWhile, hb]
    exact ih (fun c hc => h c (by simp [hc]))

namespace tree_node
variable {α : Type}

theorem size_eq_length (t : tree_node α) : t.size = t.inorder.length := by
  induction t with
  | nil => rfl
  | node l r p h i v ihl ihr =>
    simp only [size_node, inorder_node, List.length_append, List.length_cons, ihl, ihr]
    omega

theorem le_max_id {t : tree_node α} {i : Nat} (h : i ∈ t.ids) : i ≤ t.max_id := by
  induction t with
  | nil => simp at h
  | node l r p hh j v ihl ihr =>
    simp only [ids_node, List.mem_append, List.mem_cons] at h
    simp only [max_id]
    rcases h with h | h | h
    · have := ihl h
      omega
    · omega
    · have := ihr h
      omega

/-- `find` on an ordered subtree: `nullptr` exactly when no value is
equivalent to the key, otherwise a node of the subtree with an equivalent
value. -/
theorem find_spec (cmp : α → α → Bool) (hw : strict_weak cmp) (key : α) (t : tree_node α)
    (hs : t.sorted cmp) :
    (find cmp key t = nil ∧ ∀ a ∈ t.inorder, ¬ equiv cmp key a.2) ∨
    (∃ l r p h i v, find cmp key t = node l r p h i v ∧ (i, v) ∈ t.inorder ∧
      equiv cmp key v) := by
  induction t with
  | nil =>
    left
    exact ⟨rfl, by simp⟩
  | node l r p h j v ihl ihr =>
    rw [sorted_node] at hs
    obtain ⟨sl, sr, hlv, hvr, hlr⟩ := hs
    simp only [find]
    split_ifs with c1 c2
    · rcases ihl sl with ⟨e, hno⟩ | ⟨a, b, c, d, i, w, e, hm, hq⟩
      · left
        refine ⟨e, ?_⟩
        intro a ha hq
        simp only [inorder_node, List.mem_append, List.mem_cons] at ha
        rcases ha with ha | rfl | ha
        · exact hno a ha hq
        · rw [hq.1] at c1
          exact absurd c1 (by decide)
        · have := hw.trans _ _ _ c1 (hvr a ha)
          rw [hq.1] at this
          exact absurd this (by decide)
      · right
        exact ⟨a, b, c, d, i, w, e, by simp [hm], hq⟩
    · rcases ihr sr with ⟨e, hno⟩ | ⟨a, b, c, d, i, w, e, hm, hq⟩
      · left
        refine ⟨e, ?_⟩
        intro a ha hq
        simp only [inorder_node, List.mem_append, List.mem_cons] at ha
        rcases ha with ha | rfl | ha
        · have := hw.trans _ _ _ (hlv a ha) c2
          rw [hq.2] at this
          exact absurd this (by decide)
        · rw [hq.2] at c2
          exact absurd c2 (by decide)
        · exact hno a ha hq
      · right
        exact ⟨a, b, c, d, i, w, e, by simp [hm], hq⟩
    · right
      exact ⟨l, r, p, h, j, v, rfl, by simp, by simpa using c1, by simpa using c2⟩

/-- `lower_bound` on an ordered subtree: the first node whose value is not
less than the key, or the incoming `result`. -/
theorem lower_bound_spec (cmp : α → α → Bool) (hw : strict_weak cmp) (key : α)
    (t : tree_node α) (hs : t.sorted cmp) (res : Ptr) :
    lower_bound cmp key res t = head_ptr res (t.inorder.dropWhile (fun a => cmp a.2 key)) := by
  induction t generalizing res with
  | nil => rfl
  | node l r p h j v ihl ihr =>
    rw [sorted_node] at hs
    obtain ⟨sl, sr, hlv, hvr, hlr⟩ := hs
    simp only [lower_bound, inorder_node]
    cases c : cmp v key with
    | false =>
      simp only [Bool.not_false, if_true]
      rw [ihl sl, head_ptr_dropWhile_stop (fun a => cmp a.2 key) res l.inorder r.inorder (j, v) c]
    | true =>
      simp only [Bool.not_true, Bool.false_eq_true, if_false]
      rw [ihr sr, dropWhile_append_all (fun a => cmp a.2 key) l.inorder _
        (fun b hb => hw.trans _ _ _ (hlv b hb) c)]
      simp [List.dropWhile, c]

end tree_node
end bimap_impl

/-! ### The invariant of one tree under `insert` and `remove` -/

namespace bimap_impl
namespace tree
variable {α : Type}

@[simp] theorem insert_fake_addr (t : tree α) (i : Nat) (x : α) :
    (t.insert i x).fake_addr = t.fake_addr := rfl
@[simp] theorem insert_fake_right (t : tree α) (i : Nat) (x : α) :
    (t.insert i x).fake_right = t.fake_right := rfl
@[simp] theorem insert_compare (t : tree α) (i : Nat) (x : α) :
    (t.insert i x).compare = t.compare := rfl

open tree_node in
theorem insert_spec (t : tree α) (hi : t.inv) (i : Nat) (x : α) (hfresh : i ∉ t.root.ids)
    (habs : ∀ a ∈ t.root.inorder, ¬ equiv t.compare x a.2) :
    ∃ l1 l2, t.root.inorder = l1 ++ l2 ∧ (t.insert i x).root.inorder = l1 ++ (i, x) :: l2 ∧
      (t.insert i x).inv := by
  rcases inorder_insert_impl t.compare hi.order i x t.root hi.sorted with
    ⟨l1, l2, e1, e2, h1, h2⟩ | ⟨⟨a, ha, hq⟩, _⟩
  · refine ⟨l1, l2, e1, by simp [insert, e2], ?_⟩
    have hso := hi.sorted
    have hnd := hi.nodup
    simp only [sorted, ids, e1, List.pairwise_append, List.map_append, List.nodup_append]
      at hso hnd hfresh
    refine ⟨hi.order, ?_, ?_, ?_, ?_, ?_⟩
    · simp only [sorted, insert, inorder_set_parent, e2, List.pairwise_append,
        List.pairwise_cons, List.mem_cons]
      refine ⟨hso.1, ⟨h2, hso.2.1⟩, ?_⟩
      intro a ha b hb
      rcases hb with rfl | hb
      · exact h1 a ha
      · exact hso.2.2 a ha b hb
    · simpa [insert] using (avl_insert_impl t.compare i x t.root hi.avl).1
    · simp [insert]
    · simpa [insert] using links_ok_insert_impl t.compare i x t.root hi.links
    · simp only [ids, insert, inorder_set_parent, e2, List.map_append, List.map_cons,
        List.nodup_append, List.nodup_cons]
      simp only [List.mem_append, not_or] at hfresh
      refine ⟨hnd.1, ⟨hfresh.2, hnd.2.1⟩, ?_⟩
      intro a ha hb
      rcases List.mem_cons.1 hb with rfl | hb
      · exact hfresh.1 ha
      · exact hnd.2.2 ha hb
  · exact absurd hq (habs a ha)

open tree_node in
/-- `tree::remove` at a node of the tree: the node leaves the in-order
sequence, the successor is returned and the invariant is kept. -/
theorem remove_node_spec (t : tree α) (hi : t.inv) (hf : ∀ j, t.fake_right ≠ Ptr.node j)
    (l1 l2 : List (Nat × α)) (x : Nat) (xv : α) (hdec : t.root.inorder = l1 ++ (x, xv) :: l2) :
    ∃ t1, t.remove (Ptr.node x) = some (t1, head_ptr (Ptr.fake t.fake_addr) l2) ∧
      t1.root.inorder = l1 ++ l2 ∧ t1.inv ∧ t1.fake_addr = t.fake_addr ∧
      t1.fake_right = t.fake_right ∧ t1.compare = t.compare := by
  have hm : (x, xv) ∈ t.root.inorder := by simp [hdec]
  obtain ⟨xl, xr, xp, xh, hlook⟩ := lookup_of_mem hi.nodup hm
  have hnext := next_spec t hi.nodup hi.root_parent hi.links hf l1 l2 x xv hdec
  have hso := hi.sorted
  have hnd := hi.nodup
  have e2 : (remove_impl t.compare xv t.root).inorder = l1 ++ l2 := by
    rcases inorder_remove_impl t.compare hi.order xv t.root hi.sorted with
      ⟨k1, a, k2, e1, hq, e2⟩ | ⟨hno, _⟩
    · have hs2 : (k1 ++ a :: k2).Pairwise (fun u w => t.compare u.2 w.2 = true) := by
        rw [← e1]
        exact hi.sorted
      obtain ⟨g1, g2, g3⟩ := sorted_split_unique hs2 (e1.symm.trans hdec) (equiv_symm hq)
      rw [e2, g1, g3]
    · exact absurd (equiv_refl hi.order xv) (hno (x, xv) hm)
  refine ⟨{ t with root := (set_parent (Ptr.fake t.fake_addr)
      (remove_impl t.compare xv t.root)) }, ?_, ?_, ?_, rfl, rfl, rfl⟩
  · simp only [remove, value_at, hlook, value?, hnext]
  · simp [e2]
  · simp only [sorted, ids, hdec, List.pairwise_append, List.map_append, List.nodup_append,
      List.pairwise_cons, List.map_cons, List.nodup_cons, List.mem_cons] at hso hnd
    refine ⟨hi.order, ?_, ?_, ?_, ?_, ?_⟩
    · simp only [sorted, inorder_set_parent, e2, List.pairwise_append]
      exact ⟨hso.1, hso.2.1.2, fun a ha b hb => hso.2.2 a ha b (Or.inr hb)⟩
    · simpa using (avl_remove_impl t.compare xv t.root hi.avl).1
    · simp
    · simpa using links_ok_remove_impl t.compare xv t.root hi.links
    · simp only [ids, inorder_set_parent, e2, List.map_append, List.nodup_append]
      refine ⟨hnd.1, hnd.2.1.2, ?_⟩
      intro a ha hb
      exact hnd.2.2 ha (List.mem_cons_of_mem _ hb)

open tree_node in
/-- `tree::remove` only returns for a node of the tree. -/
theorem remove_node_some (t : tree α) (src : Ptr) (t1 : tree α) (p : Ptr)
    (h : t.remove src = some (t1, p)) :
    ∃ x xv, src = Ptr.node x ∧ (x, xv) ∈ t.root.inorder := by
  cases src with
  | null => simp [remove, value_at] at h
  | fake a => simp [remove, value_at] at h
  | node x =>
    cases hl : lookup x t.root with
    | nil => simp [remove, value_at, hl, value?] at h
    | node a b c d e f =>
      obtain ⟨e1, e2⟩ := mem_of_lookup hl
      exact ⟨x, f, rfl, e2⟩

end tree
end bimap_impl

/-! ### The invariant of the map under `insert` and `remove` -/

namespace bimap_impl
namespace tree_node
variable {α : Type}

theorem mem_ids_insert {t t1 : tree_node α} {l1 l2 : List (Nat × α)} {n : Nat} {x : α}
    (e1 : t.inorder = l1 ++ l2) (e2 : t1.inorder = l1 ++ (n, x) :: l2) (i : Nat) :
    i ∈ t1.ids ↔ i = n ∨ i ∈ t.ids := by
  simp only [ids, e1, e2, List.map_append, List.map_cons, List.mem_append, List.mem_cons]
  tauto

theorem mem_ids_remove {t t1 : tree_node α} {l1 l2 : List (Nat × α)} {n : Nat} {x : α}
    (hn : t.ids.Nodup) (e1 : t.inorder = l1 ++ (n, x) :: l2) (e2 : t1.inorder = l1 ++ l2)
    (i : Nat) : i ∈ t1.ids ↔ i ≠ n ∧ i ∈ t.ids := by
  simp only [ids, e1, e2, List.map_append, List.map_cons, List.mem_append, List.mem_cons,
    List.nodup_append, List.nodup_cons] at hn ⊢
  obtain ⟨n1, ⟨n2, n3⟩, n4⟩ := hn
  constructor
  · rintro (h | h)
    · refine ⟨?_, Or.inl h⟩
      rintro rfl
      exact n4 h (by simp)
    · refine ⟨?_, Or.inr (Or.inr h)⟩
      rintro rfl
      exact n2 h
  · rintro ⟨h1, h | h | h⟩
    · exact Or.inl h
    · exact absurd h h1
    · exact Or.inr h

end tree_node
end bimap_impl

namespace bimap
variable {L R : Type}

theorem same_frame_refl (m : bimap L R) : same_frame m m :=
  ⟨rfl, rfl, rfl, rfl⟩

theorem same_frame_trans {m m1 m2 : bimap L R} (h1 : same_frame m m1) (h2 : same_frame m1 m2) :
    same_frame m m2 :=
  ⟨h2.1.trans h1.1, h2.2.1.trans h1.2.1, h2.2.2.1.trans h1.2.2.1, h2.2.2.2.trans h1.2.2.2⟩

theorem init_inv (la ra : Nat) (cl : L → L → Bool) (cr : R → R → Bool)
    (hl : strict_weak cl) (hr : strict_weak cr) : (init la ra cl cr).inv :=
  ⟨⟨hl, List.Pairwise.nil, trivial, trivial, trivial, List.nodup_nil⟩,
   ⟨hr, List.Pairwise.nil, trivial, trivial, trivial, List.nodup_nil⟩,
   fun _ => Iff.rfl, rfl, rfl, rfl, rfl⟩

theorem alloc_fresh_left (m : bimap L R) : m.alloc ∉ m.left_tree.root.ids := by
  intro h
  have := tree_node.le_max_id h
  simp only [alloc] at this
  omega

theorem alloc_fresh_right (m : bimap L R) : m.alloc ∉ m.right_tree.root.ids := by
  intro h
  have := tree_node.le_max_id h
  simp only [alloc] at this
  omega

/-- An insert that meets an equivalent left or right key changes nothing and
returns `end_left()`. -/
theorem insert_present (m : bimap L R) (hi : m.inv) (l : L) (r : R)
    (h : (∃ a ∈ m.left_seq, equiv m.left_tree.compare l a.2) ∨
         (∃ b ∈ m.right_seq, equiv m.right_tree.compare r b.2)) :
    m.insert l r = (m, m.end_left) := by
  simp only [insert, insert_impl, tree.find]
  rcases tree_node.find_spec _ hi.left.order l _ hi.left.sorted with
    ⟨e1, hno1⟩ | ⟨a1, b1, c1, d1, i1, v1, e1, _, _⟩
  · rcases tree_node.find_spec _ hi.right.order r _ hi.right.sorted with
      ⟨e2, hno2⟩ | ⟨a2, b2, c2, d2, i2, v2, e2, _, _⟩
    · rcases h with ⟨a, ha, hq⟩ | ⟨b, hb, hq⟩
      · exact absurd hq (hno1 a ha)
      · exact absurd hq (hno2 b hb)
    · rw [e1, e2]
  · rw [e1]

/-- An insert of a pair whose keys are both new. -/
theorem insert_absent (m : bimap L R) (hi : m.inv) (l : L) (r : R)
    (hl : ∀ a ∈ m.left_seq, ¬ equiv m.left_tree.compare l a.2)
    (hr : ∀ b ∈ m.right_seq, ¬ equiv m.right_tree.compare r b.2) :
    ∃ l1 l2 r1 r2, m.left_seq = l1 ++ l2 ∧ m.right_seq = r1 ++ r2 ∧
      (m.insert l r).2 = Ptr.node m.alloc ∧
      (m.insert l r).1.left_seq = l1 ++ (m.alloc, l) :: l2 ∧
      (m.insert l r).1.right_seq = r1 ++ (m.alloc, r) :: r2 ∧
      (m.insert l r).1.inv ∧ (m.insert l r).1.tree_size = m.tree_size + 1 ∧
      same_frame m (m.insert l r).1 := by
  have e1 : tree_node.find m.left_tree.compare l m.left_tree.root = tree_node.nil := by
    rcases tree_node.find_spec _ hi.left.order l _ hi.left.sorted with
      ⟨e1, _⟩ | ⟨a1, b1, c1, d1, i1, v1, _, hm, hq⟩
    · exact e1
    · exact absurd hq (hl _ hm)
  have e2 : tree_node.find m.right_tree.compare r m.right_tree.root = tree_node.nil := by
    rcases tree_node.find_spec _ hi.right.order r _ hi.right.sorted with
      ⟨e2, _⟩ | ⟨a1, b1, c1, d1, i1, v1, _, hm, hq⟩
    · exact e2
    · exact absurd hq (hr _ hm)
  obtain ⟨l1, l2, g1, g2, g3⟩ :=
    tree.insert_spec m.left_tree hi.left m.alloc l (alloc_fresh_left m) hl
  obtain ⟨r1, r2, k1, k2, k3⟩ :=
    tree.insert_spec m.right_tree hi.right m.alloc r (alloc_fresh_right m) hr
  have hins : m.insert l r =
      (⟨m.left_tree.insert m.alloc l, m.right_tree.insert m.alloc r, m.tree_size + 1⟩,
        Ptr.node m.alloc) := by
    simp only [insert, insert_impl, tree.find, e1, e2]
  rw [hins]
  refine ⟨l1, l2, r1, r2, g1, k1, rfl, g2, k2, ?_, rfl, ⟨rfl, rfl, rfl, rfl⟩⟩
  refine ⟨g3, k3, ?_, ?_, ?_, hi.link_left, hi.link_right⟩
  · intro i
    rw [tree_node.mem_ids_insert g1 g2, tree_node.mem_ids_insert k1 k2, hi.same_ids]
  · have := hi.size_left
    simp only [tree_node.size_eq_length, g1, g2, List.length_append, List.length_cons] at this ⊢
    omega
  · have := hi.size_right
    simp only [tree_node.size_eq_length, k1, k2, List.length_append, List.length_cons] at this ⊢
    omega

theorem link_not_node_left (m : bimap L R) (hi : m.inv) :
    ∀ j, m.left_tree.fake_right ≠ Ptr.node j := by
  intro j
  rw [hi.link_left]
  simp

theorem link_not_node_right (m : bimap L R) (hi : m.inv) :
    ∀ j, m.right_tree.fake_right ≠ Ptr.node j := by
  intro j
  rw [hi.link_right]
  simp

theorem tree_size_pos (m : bimap L R) (hi : m.inv) {i : Nat} (h : i ∈ m.left_tree.root.ids) :
    0 < m.tree_size := by
  rw [← hi.size_left, tree_node.size_eq_length]
  obtain ⟨v, hv⟩ := tree_node.exists_of_mem_ids h
  exact List.length_pos_of_mem hv

/-- Removing the entry `i`: both faces leave their sequences, the successors
on both sides are returned. -/
theorem remove_spec (m : bimap L R) (hi : m.inv) (i : Nat) (l : L) (r : R)
    (l1 l2 : List (Nat × L)) (r1 r2 : List (Nat × R))
    (hl : m.left_seq = l1 ++ (i, l) :: l2) (hr : m.right_seq = r1 ++ (i, r) :: r2) :
    ∃ m1, m.remove (Ptr.node i) =
        some (m1, head_ptr m.end_left l2, head_ptr m.end_right r2) ∧
      m1.left_seq = l1 ++ l2 ∧ m1.right_seq = r1 ++ r2 ∧ m1.inv ∧
      m1.tree_size + 1 = m.tree_size ∧ same_frame m m1 := by
  obtain ⟨lt, g1, g2, g3, g4, g5, g6⟩ :=
    tree.remove_node_spec m.left_tree hi.left (link_not_node_left m hi) l1 l2 i l hl
  obtain ⟨rt, k1, k2, k3, k4, k5, k6⟩ :=
    tree.remove_node_spec m.right_tree hi.right (link_not_node_right m hi) r1 r2 i r hr
  have hmem : (i, l) ∈ m.left_tree.root.inorder := by
    have e : m.left_tree.root.inorder = l1 ++ (i, l) :: l2 := hl
    simp [e]
  have hpos : 0 < m.tree_size := tree_size_pos m hi (tree_node.mem_ids_of_mem hmem)
  have hdec : dec_size m.tree_size = m.tree_size - 1 := by
    simp only [dec_size]
    rw [if_neg (by omega)]
  refine ⟨⟨lt, rt, dec_size m.tree_size⟩, ?_, g2, k2, ?_, ?_, ⟨g4, k4, g6, k6⟩⟩
  · simp only [remove, g1, k1, end_left, end_right, tree.get_end]
  · refine ⟨g3, k3, ?_, ?_, ?_, ?_, ?_⟩
    · intro j
      show j ∈ lt.root.ids ↔ j ∈ rt.root.ids
      rw [tree_node.mem_ids_remove hi.left.nodup hl g2,
        tree_node.mem_ids_remove hi.right.nodup hr k2, hi.same_ids]
    · have := hi.size_left
      have e : m.left_tree.root.inorder = l1 ++ (i, l) :: l2 := hl
      show lt.root.size = dec_size m.tree_size
      simp only [tree_node.size_eq_length, e, g2, List.length_append, List.length_cons] at this ⊢
      omega
    · have := hi.size_right
      have e : m.right_tree.root.inorder = r1 ++ (i, r) :: r2 := hr
      show rt.root.size = dec_size m.tree_size
      simp only [tree_node.size_eq_length, e, k2, List.length_append, List.length_cons] at this ⊢
      omega
    · show lt.fake_right = Ptr.fake rt.fake_addr
      rw [g5, k4, hi.link_left]
    · show rt.fake_right = Ptr.fake lt.fake_addr
      rw [k5, g4, hi.link_right]
  · show dec_size m.tree_size + 1 = m.tree_size
    omega

/-- `remove` only returns for an entry of the map. -/
theorem remove_some (m : bimap L R) (hi : m.inv) (p : Ptr) (res : bimap L R × Ptr × Ptr)
    (h : m.remove p = some res) :
    ∃ i l r l1 l2 r1 r2, p = Ptr.node i ∧ m.left_seq = l1 ++ (i, l) :: l2 ∧
      m.right_seq = r1 ++ (i, r) :: r2 := by
  cases hlr : m.left_tree.remove p with
  | none => simp [remove, hlr] at h
  | some res1 =>
    obtain ⟨lt, q⟩ := res1
    obtain ⟨i, l, rfl, hm⟩ := tree.remove_node_some _ _ _ _ hlr
    have hir : i ∈ m.right_tree.root.ids :=
      (hi.same_ids i).1 (tree_node.mem_ids_of_mem hm)
    obtain ⟨r, hr⟩ := tree_node.exists_of_mem_ids hir
    obtain ⟨l1, l2, e1⟩ := List.append_of_mem hm
    obtain ⟨r1, r2, e2⟩ := List.append_of_mem hr
    exact ⟨i, l, r, l1, l2, r1, r2, rfl, e1, e2⟩

end bimap

/-! ### Every reachable state satisfies the invariant -/

namespace bimap_impl
namespace tree
variable {α : Type}

theorem swap_tree_inv (t other : tree α) (h1 : t.inv) (h2 : other.inv) :
    (t.swap other).1.inv ∧ (t.swap other).2.inv := by
  constructor
  · exact ⟨h2.order, by simpa [swap, tree_node.sorted] using h2.sorted,
      by simpa [swap] using h2.avl, by simp [swap], by simpa [swap] using h2.links,
      by simpa [swap, tree_node.ids] using h2.nodup⟩
  · exact ⟨h1.order, by simpa [swap, tree_node.sorted] using h1.sorted,
      by simpa [swap] using h1.avl, by simp [swap], by simpa [swap] using h1.links,
      by simpa [swap, tree_node.ids] using h1.nodup⟩

end tree
end bimap_impl

namespace bimap
variable {L R : Type}

theorem insert_inv (m : bimap L R) (hi : m.inv) (l : L) (r : R) :
    (m.insert l r).1.inv ∧ same_frame m (m.insert l r).1 := by
  by_cases h : (∃ a ∈ m.left_seq, equiv m.left_tree.compare l a.2) ∨
      (∃ b ∈ m.right_seq, equiv m.right_tree.compare r b.2)
  · rw [insert_present m hi l r h]
    exact ⟨hi, same_frame_refl m⟩
  · simp only [not_or, not_exists, not_and] at h
    obtain ⟨l1, l2, r1, r2, _, _, _, _, _, g, _, f⟩ := insert_absent m hi l r h.1 h.2
    exact ⟨g, f⟩

theorem remove_inv (m : bimap L R) (hi : m.inv) (p : Ptr) (res : bimap L R × Ptr × Ptr)
    (h : m.remove p = some res) : res.1.inv ∧ same_frame m res.1 := by
  obtain ⟨i, l, r, l1, l2, r1, r2, rfl, e1, e2⟩ := remove_some m hi p res h
  obtain ⟨m1, g1, _, _, g4, _, g6⟩ := remove_spec m hi i l r l1 l2 r1 r2 e1 e2
  rw [g1] at h
  cases h
  exact ⟨g4, g6⟩

theorem erase_left_inv (m : bimap L R) (hi : m.inv) (it : Ptr) (res : bimap L R × Ptr)
    (h : m.erase_left it = some res) : res.1.inv ∧ same_frame m res.1 := by
  cases hr : m.remove it with
  | none => simp [erase_left, hr] at h
  | some r =>
    obtain ⟨m1, a, b⟩ := r
    simp only [erase_left, hr, Option.some.injEq] at h
    subst h
    exact remove_inv m hi it _ hr

theorem erase_right_inv (m : bimap L R) (hi : m.inv) (it : Ptr) (res : bimap L R × Ptr)
    (h : m.erase_right it = some res) : res.1.inv ∧ same_frame m res.1 := by
  cases hr : m.remove it with
  | none => simp [erase_right, hr] at h
  | some r =>
    obtain ⟨m1, a, b⟩ := r
    simp only [erase_right, hr, Option.some.injEq] at h
    subst h
    exact remove_inv m hi it _ hr

theorem erase_left_key_inv (m : bimap L R) (hi : m.inv) (k : L) (res : bimap L R × Bool)
    (h : m.erase_left_key k = some res) : res.1.inv ∧ same_frame m res.1 := by
  simp only [erase_left_key] at h
  split at h
  · cases h
    exact ⟨hi, same_frame_refl m⟩
  · rename_i i _ _
    cases hr : m.remove (Ptr.node i) with
    | none => simp [hr] at h
    | some r =>
      obtain ⟨m1, a, b⟩ := r
      simp only [hr, Option.some.injEq] at h
      subst h
      exact remove_inv m hi _ _ hr

theorem erase_right_key_inv (m : bimap L R) (hi : m.inv) (k : R) (res : bimap L R × Bool)
    (h : m.erase_right_key k = some res) : res.1.inv ∧ same_frame m res.1 := by
  simp only [erase_right_key] at h
  split at h
  · cases h
    exact ⟨hi, same_frame_refl m⟩
  · rename_i i _ _
    cases hr : m.remove (Ptr.node i) with
    | none => simp [hr] at h
    | some r =>
      obtain ⟨m1, a, b⟩ := r
      simp only [hr, Option.some.injEq] at h
      subst h
      exact remove_inv m hi _ _ hr

theorem erase_left_loop_inv (fuel : Nat) (m : bimap L R) (hi : m.inv) (first iter last : Ptr)
    (res : bimap L R × Ptr) (h : erase_left_loop fuel m first iter last = some res) :
    res.1.inv ∧ same_frame m res.1 := by
  induction fuel generalizing m first iter with
  | zero => simp [erase_left_loop] at h
  | succ n ih =>
    simp only [erase_left_loop] at h
    split_ifs at h with c
    · cases h
      exact ⟨hi, same_frame_refl m⟩
    · cases h1 : m.next_left first with
      | none => simp [h1] at h
      | some first1 =>
        cases h2 : m.next_left iter with
        | none => simp [h1, h2] at h
        | some iter1 =>
          cases h3 : m.erase_left iter with
          | none => simp [h1, h2, h3] at h
          | some r =>
            obtain ⟨m1, q⟩ := r
            simp only [h1, h2, h3] at h
            obtain ⟨g1, g2⟩ := erase_left_inv m hi iter _ h3
            obtain ⟨g3, g4⟩ := ih m1 g1 first1 iter1 h
            exact ⟨g3, same_frame_trans g2 g4⟩

theorem erase_right_loop_inv (fuel : Nat) (m : bimap L R) (hi : m.inv) (first iter last : Ptr)
    (res : bimap L R × Ptr) (h : erase_right_loop fuel m first iter last = some res) :
    res.1.inv ∧ same_frame m res.1 := by
  induction fuel generalizing m first iter with
  | zero => simp [erase_right_loop] at h
  | succ n ih =>
    simp only [erase_right_loop] at h
    split_ifs at h with c
    · cases h
      exact ⟨hi, same_frame_refl m⟩
    · cases h1 : m.next_right first with
      | none => simp [h1] at h
      | some first1 =>
        cases h2 : m.next_right iter with
        | none => simp [h1, h2] at h
        | some iter1 =>
          cases h3 : m.erase_right iter with
          | none => simp [h1, h2, h3] at h
          | some r =>
            obtain ⟨m1, q⟩ := r
            simp only [h1, h2, h3] at h
            obtain ⟨g1, g2⟩ := erase_right_inv m hi iter _ h3
            obtain ⟨g3, g4⟩ := ih m1 g1 first1 iter1 h
            exact ⟨g3, same_frame_trans g2 g4⟩

theorem at_left_or_default_inv [Inhabited R] (m : bimap L R) (hi : m.inv) (k : L)
    (res : bimap L R × R) (h : m.at_left_or_default k = some res) :
    res.1.inv ∧ same_frame m res.1 := by
  simp only [at_left_or_default] at h
  split at h
  · split at h
    · exact absurd h (by simp)
    · rename_i m1 hev
      have hm1 : m1.inv ∧ same_frame m m1 := by
        split at hev
        · cases hev
          exact ⟨hi, same_frame_refl m⟩
        · rename_i j _ _
          cases he : m.erase_right (Ptr.node j) with
          | none => simp [he] at hev
          | some r =>
            simp only [he, Option.map_some', Option.some.injEq] at hev
            subst hev
            exact erase_right_inv m hi _ _ he
      obtain ⟨g1, g2⟩ := insert_inv m1 hm1.1 k default
      split at h
      · exact absurd h (by simp)
      · rename_i rit _
        cases hd : (m1.insert k default).1.deref_right rit with
        | none => simp [hd] at h
        | some v =>
          simp only [hd, Option.map_some', Option.some.injEq] at h
          subst h
          exact ⟨g1, same_frame_trans hm1.2 g2⟩
  · rename_i i _ _
    cases hv : m.right_tree.value_at (Ptr.node i) with
    | none => simp [hv] at h
    | some v =>
      simp only [hv, Option.map_some', Option.some.injEq] at h
      subst h
      exact ⟨hi, same_frame_refl m⟩

theorem at_right_or_default_inv [Inhabited L] (m : bimap L R) (hi : m.inv) (k : R)
    (res : bimap L R × L) (h : m.at_right_or_default k = some res) :
    res.1.inv ∧ same_frame m res.1 := by
  simp only [at_right_or_default] at h
  split at h
  · split at h
    · exact absurd h (by simp)
    · rename_i m1 hev
      have hm1 : m1.inv ∧ same_frame m m1 := by
        split at hev
        · cases hev
          exact ⟨hi, same_frame_refl m⟩
        · rename_i j _ _
          cases he : m.erase_left (Ptr.node j) with
          | none => simp [he] at hev
          | some r =>
            simp only [he, Option.map_some', Option.some.injEq] at hev
            subst hev
            exact erase_left_inv m hi _ _ he
      obtain ⟨g1, g2⟩ := insert_inv m1 hm1.1 default k
      cases hd : (m1.insert default k).1.deref_left (m1.insert default k).2 with
      | none => simp [hd] at h
      | some v =>
        simp only [hd, Option.map_some', Option.some.injEq] at h
        subst h
        exact ⟨g1, same_frame_trans hm1.2 g2⟩
  · rename_i i _ _
    cases hv : m.left_tree.value_at (Ptr.node i) with
    | none => simp [hv] at h
    | some v =>
      simp only [hv, Option.map_some', Option.some.injEq] at h
      subst h
      exact ⟨hi, same_frame_refl m⟩

theorem swap_inv (m other : bimap L R) (h1 : m.inv) (h2 : other.inv) :
    (m.swap other).1.inv ∧ (m.swap other).2.inv := by
  obtain ⟨a1, a2⟩ := tree.swap_tree_inv m.left_tree other.left_tree h1.left h2.left
  obtain ⟨b1, b2⟩ := tree.swap_tree_inv m.right_tree other.right_tree h1.right h2.right
  constructor
  · refine ⟨a1, b1, ?_, ?_, ?_, h1.link_left, h1.link_right⟩
    · simpa [swap, tree.swap, tree_node.ids] using h2.same_ids
    · simpa [swap, tree.swap, tree_node.size_eq_length] using h2.size_left
    · simpa [swap, tree.swap, tree_node.size_eq_length] using h2.size_right
  · refine ⟨a2, b2, ?_, ?_, ?_, h2.link_left, h2.link_right⟩
    · simpa [swap, tree.swap, tree_node.ids] using h1.same_ids
    · simpa [swap, tree.swap, tree_node.size_eq_length] using h1.size_left
    · simpa [swap, tree.swap, tree_node.size_eq_length] using h1.size_right

/-- Every reachable map satisfies the invariant. -/
theorem reachable_inv [Inhabited L] [Inhabited R] (m : bimap L R) (h : reachable m) : m.inv := by
  induction h with
  | init la ra cl cr hl hr => exact init_inv la ra cl cr hl hr
  | insert m l r _ ih => exact (insert_inv m ih l r).1
  | erase_left m m1 it p _ he ih => exact (erase_left_inv m ih it _ he).1
  | erase_right m m1 it p _ he ih => exact (erase_right_inv m ih it _ he).1
  | erase_left_key m m1 k b _ he ih => exact (erase_left_key_inv m ih k _ he).1
  | erase_right_key m m1 k b _ he ih => exact (erase_right_key_inv m ih k _ he).1
  | erase_left_range m m1 first last p _ he ih =>
    exact (erase_left_loop_inv _ m ih first first last _ he).1
  | erase_right_range m m1 first last p _ he ih =>
    exact (erase_right_loop_inv _ m ih first first last _ he).1
  | at_left_or_default m m1 k v _ he ih => exact (at_left_or_default_inv m ih k _ he).1
  | at_right_or_default m m1 k v _ he ih => exact (at_right_or_default_inv m ih k _ he).1
  | swap_this m other _ _ ih1 ih2 => exact (swap_inv m other ih1 ih2).1
  | swap_other m other _ _ ih1 ih2 => exact (swap_inv m other ih1 ih2).2

end bimap

/-! ### Iterators and lookups on a map that satisfies the invariant -/

namespace bimap_impl

theorem strict_weak_lt {α : Type} [LinearOrder α] (d : ∀ a b : α, Decidable (a < b)) :
    strict_weak (fun a b : α => @decide (a < b) (d a b)) := by
  refine ⟨fun a => by simp, ?_, ?_⟩
  · intro a b c h1 h2
    simp only [decide_eq_true_eq] at h1 h2 ⊢
    exact lt_trans h1 h2
  · intro a b c h1 h2
    simp only [equiv, decide_eq_false_iff_not, not_lt] at h1 h2 ⊢
    exact ⟨le_trans h2.1 h1.1, le_trans h1.2 h2.2⟩

theorem sorted_mem_unique {α : Type} {cmp : α → α → Bool} {L : List (Nat × α)}
    (hs : L.Pairwise (fun u w => cmp u.2 w.2 = true)) {a b : Nat × α} (ha : a ∈ L) (hb : b ∈ L)
    (hq : equiv cmp a.2 b.2) : a = b := by
  obtain ⟨l1, l2, e1⟩ := List.append_of_mem ha
  obtain ⟨k1, k2, e2⟩ := List.append_of_mem hb
  rw [e1] at hs
  exact (sorted_split_unique hs (e1.symm.trans e2) hq).2.1

namespace tree_node
variable {α : Type}

theorem parent_ne_null (T : tree_node α) :
    ∀ (q : Ptr), q ≠ Ptr.null → T.parent_is q → T.links_ok →
      ∀ i l r p h j v, lookup i T = node l r p h j v → p ≠ Ptr.null := by
  induction T with
  | nil =>
    intro q _ _ _ i l r p h j v hl
    simp at hl
  | node L R' P H J V ihl ihr =>
    intro q hq hp hk i l r p h j v hl
    simp only [parent_is_node] at hp
    simp only [links_ok_node] at hk
    obtain ⟨pl, pr, kl, kr⟩ := hk
    by_cases hJ : J = i
    · subst hJ
      rw [lookup_self] at hl
      cases hl
      rw [hp]
      exact hq
    · by_cases c : lookup i L = nil
      · rw [lookup_node_right _ _ _ _ _ _ _ hJ c] at hl
        exact ihr (Ptr.node J) (by simp) pr kr i l r p h j v hl
      · rw [lookup_node_left _ _ _ _ _ _ _ hJ c] at hl
        exact ihl (Ptr.node J) (by simp) pl kl i l r p h j v hl

end tree_node

namespace tree
variable {α : Type}

theorem value_at_of_mem (t : tree α) (hn : t.root.ids.Nodup) {i : Nat} {v : α}
    (h : (i, v) ∈ t.root.inorder) : t.value_at (Ptr.node i) = some v := by
  obtain ⟨l, r, p, hh, e⟩ := tree_node.lookup_of_mem hn h
  simp [value_at, e, tree_node.value?]

theorem mem_of_value_at (t : tree α) {p : Ptr} {v : α} (h : t.value_at p = some v) :
    ∃ i, p = Ptr.node i ∧ (i, v) ∈ t.root.inorder := by
  cases p with
  | null => simp [value_at] at h
  | fake a => simp [value_at] at h
  | node i =>
    cases hl : tree_node.lookup i t.root with
    | nil => simp [value_at, hl, tree_node.value?] at h
    | node a b c d e f =>
      simp only [value_at, hl, tree_node.value?, Option.some.injEq] at h
      subst h
      exact ⟨i, rfl, (tree_node.mem_of_lookup hl).2⟩

/-- At a node of the tree `is_end()` is false. -/
theorem deref_node_not_end (t : tree α) (hi : t.inv) {i : Nat} (h : i ∈ t.root.ids) :
    ∃ n, t.deref (Ptr.node i) = some n ∧ n.is_end = false := by
  obtain ⟨v, hv⟩ := tree_node.exists_of_mem_ids h
  obtain ⟨l, r, p, hh, e⟩ := tree_node.lookup_of_mem hi.nodup hv
  refine ⟨_, deref_node t i l r p hh v e, ?_⟩
  have := tree_node.parent_ne_null t.root (Ptr.fake t.fake_addr) (by simp) hi.root_parent
    hi.links i l r p hh i v e
  simp [tree_base_node.is_end, this]

/-- `find` on a tree with an equivalent value returns that node. -/
theorem find_present (t : tree α) (hi : t.inv) (key : α) {i : Nat} {v : α}
    (hm : (i, v) ∈ t.root.inorder) (hq : equiv t.compare key v) :
    ∃ l r p h, t.find key = tree_node.node l r p h i v := by
  rcases tree_node.find_spec t.compare hi.order key t.root hi.sorted with
    ⟨_, hno⟩ | ⟨l, r, p, h, j, w, e, hm2, hq2⟩
  · exact absurd hq (hno _ hm)
  · have := sorted_mem_unique hi.sorted hm hm2
      (hi.order.equiv_trans _ _ _ (equiv_symm hq) hq2)
    cases this
    exact ⟨l, r, p, h, e⟩

/-- `find` on a tree without an equivalent value returns `nullptr`. -/
theorem find_absent (t : tree α) (hi : t.inv) (key : α)
    (hno : ∀ a ∈ t.root.inorder, ¬ equiv t.compare key a.2) :
    t.find key = tree_node.nil := by
  rcases tree_node.find_spec t.compare hi.order key t.root hi.sorted with
    ⟨e, _⟩ | ⟨l, r, p, h, j, w, _, hm2, hq2⟩
  · exact e
  · exact absurd hq2 (hno _ hm2)

end tree
end bimap_impl

namespace bimap
variable {L R : Type}

theorem deref_left_of_mem (m : bimap L R) (hi : m.inv) {i : Nat} {v : L}
    (h : (i, v) ∈ m.left_seq) : m.deref_left (Ptr.node i) = some v :=
  tree.value_at_of_mem m.left_tree hi.left.nodup h

theorem deref_right_of_mem (m : bimap L R) (hi : m.inv) {i : Nat} {v : R}
    (h : (i, v) ∈ m.right_seq) : m.deref_right (Ptr.node i) = some v :=
  tree.value_at_of_mem m.right_tree hi.right.nodup h

theorem flip_left_node (m : bimap L R) (hi : m.inv) {i : Nat}
    (h : i ∈ m.left_tree.root.ids) : m.flip_left (Ptr.node i) = some (Ptr.node i) := by
  obtain ⟨n, e1, e2⟩ := tree.deref_node_not_end m.left_tree hi.left h
  simp [flip_left, e1, e2]

theorem flip_right_node (m : bimap L R) (hi : m.inv) {i : Nat}
    (h : i ∈ m.right_tree.root.ids) : m.flip_right (Ptr.node i) = some (Ptr.node i) := by
  obtain ⟨n, e1, e2⟩ := tree.deref_node_not_end m.right_tree hi.right h
  simp [flip_right, e1, e2]

theorem flip_left_end (m : bimap L R) (hi : m.inv) :
    m.flip_left m.end_left = some m.end_right := by
  simp [flip_left, end_left, end_right, tree.get_end, tree.deref_fake, tree_base_node.is_end,
    tree_base_node.get_right, hi.link_left]

theorem flip_right_end (m : bimap L R) (hi : m.inv) :
    m.flip_right m.end_right = some m.end_left := by
  simp [flip_right, end_left, end_right, tree.get_end, tree.deref_fake, tree_base_node.is_end,
    tree_base_node.get_right, hi.link_right]

theorem find_left_present (m : bimap L R) (hi : m.inv) (k : L) {i : Nat} {v : L}
    (hm : (i, v) ∈ m.left_seq) (hq : equiv m.left_tree.compare k v) :
    m.find_left k = Ptr.node i := by
  obtain ⟨l, r, p, h, e⟩ := tree.find_present m.left_tree hi.left k hm hq
  simp [find_left, e]

theorem find_left_absent (m : bimap L R) (hi : m.inv) (k : L)
    (hno : ∀ a ∈ m.left_seq, ¬ equiv m.left_tree.compare k a.2) :
    m.find_left k = m.end_left := by
  simp [find_left, tree.find_absent m.left_tree hi.left k hno]

theorem find_right_present (m : bimap L R) (hi : m.inv) (k : R) {i : Nat} {v : R}
    (hm : (i, v) ∈ m.right_seq) (hq : equiv m.right_tree.compare k v) :
    m.find_right k = Ptr.node i := by
  obtain ⟨l, r, p, h, e⟩ := tree.find_present m.right_tree hi.right k hm hq
  simp [find_right, e]

theorem find_right_absent (m : bimap L R) (hi : m.inv) (k : R)
    (hno : ∀ a ∈ m.right_seq, ¬ equiv m.right_tree.compare k a.2) :
    m.find_right k = m.end_right := by
  simp [find_right, tree.find_absent m.right_tree hi.right k hno]

theorem end_left_ne_node (m : bimap L R) (i : Nat) : m.end_left ≠ Ptr.node i := by
  simp [end_left, tree.get_end]

theorem end_right_ne_node (m : bimap L R) (i : Nat) : m.end_right ≠ Ptr.node i := by
  simp [end_right, tree.get_end]

theorem end_left_same_frame {m m1 : bimap L R} (h : same_frame m m1) :
    m1.end_left = m.end_left := by
  simp [end_left, tree.get_end, h.1]

theorem end_right_same_frame {m m1 : bimap L R} (h : same_frame m m1) :
    m1.end_right = m.end_right := by
  simp [end_right, tree.get_end, h.2.1]

/-- In a map that satisfies the invariant every left face has a right face. -/
theorem right_of_left (m : bimap L R) (hi : m.inv) {i : Nat} {l : L} (h : (i, l) ∈ m.left_seq) :
    ∃ r, (i, r) ∈ m.right_seq :=
  tree_node.exists_of_mem_ids ((hi.same_ids i).1 (tree_node.mem_ids_of_mem h))

/-- In a map that satisfies the invariant every right face has a left face. -/
theorem left_of_right (m : bimap L R) (hi : m.inv) {i : Nat} {r : R}
    (h : (i, r) ∈ m.right_seq) : ∃ l, (i, l) ∈ m.left_seq :=
  tree_node.exists_of_mem_ids ((hi.same_ids i).2 (tree_node.mem_ids_of_mem h))

/-- The value stored under an identity is unique. -/
theorem seq_value_unique {α : Type} {t : tree_node α} (hn : t.ids.Nodup) {i : Nat} {a b : α}
    (ha : (i, a) ∈ t.inorder) (hb : (i, b) ∈ t.inorder) : a = b := by
  obtain ⟨l, r, p, h, e1⟩ := tree_node.lookup_of_mem hn ha
  obtain ⟨l', r', p', h', e2⟩ := tree_node.lookup_of_mem hn hb
  rw [e1] at e2
  cases e2
  rfl

end bimap

/-! ### The claims about `insert` -/

namespace bimap
variable {L R : Type}

theorem strict_weak_int_less : strict_weak int_less :=
  strict_weak_lt (fun _ _ => inferInstance)

theorem strict_weak_string_less : strict_weak string_less :=
  strict_weak_lt (fun _ _ => inferInstance)

theorem reachable_empty_int_int : reachable empty_int_int :=
  reachable.init 0 1 int_less int_less strict_weak_int_less strict_weak_int_less

theorem reachable_empty_int_string : reachable empty_int_string :=
  reachable.init 0 1 int_less string_less strict_weak_int_less strict_weak_string_less

/-- C1: on a reachable map, `insert(l, r)` returns `end_left()` exactly when
`l` is equivalent to a left key or `r` is equivalent to a right key, and then
the map is unchanged. -/
theorem C1_insert_conflict [Inhabited L] [Inhabited R] (m : bimap L R) (hm : reachable m)
    (l : L) (r : R) :
    ((m.insert l r).2 = m.end_left ↔
      (∃ a ∈ m.left_seq, equiv m.left_tree.compare l a.2) ∨
      (∃ b ∈ m.right_seq, equiv m.right_tree.compare r b.2)) ∧
    ((m.insert l r).2 = m.end_left → (m.insert l r).1 = m) := by
  have hi := reachable_inv m hm
  by_cases h : (∃ a ∈ m.left_seq, equiv m.left_tree.compare l a.2) ∨
      (∃ b ∈ m.right_seq, equiv m.right_tree.compare r b.2)
  · rw [insert_present m hi l r h]
    exact ⟨⟨fun _ => h, fun _ => rfl⟩, fun _ => rfl⟩
  · have h2 := h
    simp only [not_or, not_exists, not_and] at h2
    obtain ⟨l1, l2, r1, r2, _, _, e, _, _, _, _, _⟩ := insert_absent m hi l r h2.1 h2.2
    have hne : (m.insert l r).2 ≠ m.end_left := by
      rw [e]
      exact (end_left_ne_node m _).symm
    exact ⟨⟨fun hc => absurd hc hne, fun hc => absurd hc h⟩, fun hc => absurd hc hne⟩

/-- The scenario of C1: `insert(5, 5)` into an empty `bimap<int, int>`, then
`insert(5, 6)` returns `end_left()` and the size stays `1`. -/
theorem C1_insert_conflict_witness :
    ((empty_int_int.insert 5 5).1.insert 5 6).2 = (empty_int_int.insert 5 5).1.end_left ∧
    ((empty_int_int.insert 5 5).1.insert 5 6).1.size = 1 :=
  have h := C1_insert_conflict (empty_int_int.insert 5 5).1
    (reachable.insert _ 5 5 reachable_empty_int_int) 5 6
  have hend : ((empty_int_int.insert 5 5).1.insert 5 6).2 = (empty_int_int.insert 5 5).1.end_left :=
    h.1.2 (Or.inl ⟨(1, 5), by decide, by decide, by decide⟩)
  ⟨hend, by rw [h.2 hend]; decide⟩

end bimap

namespace bimap
variable {L R : Type}

/-- C2: on a reachable map, `insert(l, r)` of two new keys returns a left
iterator `it` with `*it == l` and `*it.flip() == r`; afterwards the size has
grown by one, `find_left(l) == it`, `find_right(r) == it.flip()`, and every
entry of the old map is still there, at the same position, with the same
partner. -/
theorem C2_insert_new [Inhabited L] [Inhabited R] (m : bimap L R) (hm : reachable m)
    (l : L) (r : R)
    (hl : ∀ a ∈ m.left_seq, ¬ equiv m.left_tree.compare l a.2)
    (hr : ∀ b ∈ m.right_seq, ¬ equiv m.right_tree.compare r b.2) :
    (m.insert l r).1.deref_left (m.insert l r).2 = some l ∧
    (∃ rit, (m.insert l r).1.flip_left (m.insert l r).2 = some rit ∧
      (m.insert l r).1.deref_right rit = some r ∧
      (m.insert l r).1.find_right r = rit) ∧
    (m.insert l r).1.size = m.size + 1 ∧
    (m.insert l r).1.find_left l = (m.insert l r).2 ∧
    (∀ i a b, has_pair m i a b →
      has_pair (m.insert l r).1 i a b ∧
      (m.insert l r).1.deref_left (Ptr.node i) = some a ∧
      (m.insert l r).1.flip_left (Ptr.node i) = some (Ptr.node i) ∧
      (m.insert l r).1.deref_right (Ptr.node i) = some b) := by
  have hi := reachable_inv m hm
  obtain ⟨l1, l2, r1, r2, e1, e2, e3, e4, e5, hi1, e6, hf⟩ := insert_absent m hi l r hl hr
  have ml : (m.alloc, l) ∈ (m.insert l r).1.left_seq := by simp [e4]
  have mr : (m.alloc, r) ∈ (m.insert l r).1.right_seq := by simp [e5]
  rw [e3]
  refine ⟨deref_left_of_mem _ hi1 ml, ⟨Ptr.node m.alloc, ?_, deref_right_of_mem _ hi1 mr, ?_⟩,
    e6, ?_, ?_⟩
  · exact flip_left_node _ hi1 (tree_node.mem_ids_of_mem ml)
  · exact find_right_present _ hi1 r mr (equiv_refl hi1.right.order r)
  · exact find_left_present _ hi1 l ml (equiv_refl hi1.left.order l)
  · intro i a b hp
    have ha : (i, a) ∈ (m.insert l r).1.left_seq := by
      have := hp.1
      rw [e1] at this
      rw [e4]
      simp only [List.mem_append, List.mem_cons] at this ⊢
      tauto
    have hb : (i, b) ∈ (m.insert l r).1.right_seq := by
      have := hp.2
      rw [e2] at this
      rw [e5]
      simp only [List.mem_append, List.mem_cons] at this ⊢
      tauto
    exact ⟨⟨ha, hb⟩, deref_left_of_mem _ hi1 ha,
      flip_left_node _ hi1 (tree_node.mem_ids_of_mem ha), deref_right_of_mem _ hi1 hb⟩

/-- C2 at the map holding `(1, 10)`, inserting `(2, 20)`: the old entry keeps
its position and its partner. -/
theorem C2_insert_new_witness :
    ((empty_int_int.insert 1 10).1.insert 2 20).1.size = 2 ∧
    ((empty_int_int.insert 1 10).1.insert 2 20).1.find_left 2
      = ((empty_int_int.insert 1 10).1.insert 2 20).2 ∧
    ((empty_int_int.insert 1 10).1.insert 2 20).1.deref_right (Ptr.node 1) = some 10 :=
  have h := C2_insert_new (empty_int_int.insert 1 10).1
    (reachable.insert _ 1 10 reachable_empty_int_int) 2 20
    (by decide) (by decide)
  ⟨h.2.2.1, h.2.2.2.1, (h.2.2.2.2 1 1 10 ⟨by decide, by decide⟩).2.2.2⟩

/-- C3: in every reachable state the left tree, the right tree and `size()`
agree on the number of entries, and an entry has its left face in the left
tree exactly when it has its right face in the right tree. -/
theorem C3_dual_tree_cardinality [Inhabited L] [Inhabited R] (m : bimap L R)
    (hm : reachable m) :
    m.left_tree.root.size = m.size ∧ m.right_tree.root.size = m.size ∧
    m.left_seq.length = m.size ∧ m.right_seq.length = m.size ∧
    (∀ i, i ∈ m.left_tree.root.ids ↔ i ∈ m.right_tree.root.ids) ∧
    (∀ i l, (i, l) ∈ m.left_seq → ∃ r, (i, r) ∈ m.right_seq) ∧
    (∀ i r, (i, r) ∈ m.right_seq → ∃ l, (i, l) ∈ m.left_seq) := by
  have hi := reachable_inv m hm
  refine ⟨hi.size_left, hi.size_right, ?_, ?_, hi.same_ids,
    fun i l h => right_of_left m hi h, fun i r h => left_of_right m hi h⟩
  · show m.left_tree.root.inorder.length = m.tree_size
    rw [← hi.size_left, tree_node.size_eq_length]
  · show m.right_tree.root.inorder.length = m.tree_size
    rw [← hi.size_right, tree_node.size_eq_length]

/-- C3 after three inserts into an empty `bimap<int, int>`. -/
theorem C3_dual_tree_cardinality_witness :
    (((empty_int_int.insert 1 10).1.insert 2 20).1.insert 3 5).1.left_tree.root.size = 3 ∧
    (((empty_int_int.insert 1 10).1.insert 2 20).1.insert 3 5).1.right_tree.root.size = 3 :=
  have h := C3_dual_tree_cardinality
    (((empty_int_int.insert 1 10).1.insert 2 20).1.insert 3 5).1
    (reachable.insert _ 3 5 (reachable.insert _ 2 20
      (reachable.insert _ 1 10 reachable_empty_int_int)))
  have hs : (((empty_int_int.insert 1 10).1.insert 2 20).1.insert 3 5).1.size = 3 := by decide
  ⟨h.1.trans hs, h.2.1.trans hs⟩

end bimap

/-! ### The ordering and the AVL invariants -/

namespace bimap_impl
namespace tree
variable {α : Type}

theorem sorted_insert (t : tree α) (hw : strict_weak t.compare) (hs : t.root.sorted t.compare)
    (i : Nat) (x : α) : (t.insert i x).root.sorted (t.insert i x).compare := by
  have hso := hs
  simp only [tree_node.sorted, insert, tree_node.inorder_set_parent]
  rcases tree_node.inorder_insert_impl t.compare hw i x t.root hs with
    ⟨l1, l2, e1, e2, h1, h2⟩ | ⟨_, e⟩
  · simp only [tree_node.sorted, e1, List.pairwise_append] at hso
    rw [e2]
    simp only [List.pairwise_append, List.pairwise_cons, List.mem_cons]
    refine ⟨hso.1, ⟨h2, hso.2.1⟩, ?_⟩
    intro a ha b hb
    rcases hb with rfl | hb
    · exact h1 a ha
    · exact hso.2.2 a ha b hb
  · rw [e]
    exact hs

theorem sorted_remove (t : tree α) (hw : strict_weak t.compare) (hs : t.root.sorted t.compare)
    (src : Ptr) (t1 : tree α) (p : Ptr) (h : t.remove src = some (t1, p)) :
    t1.root.sorted t1.compare := by
  simp only [remove] at h
  cases hv : t.value_at src with
  | none => simp [hv] at h
  | some x =>
    cases hn : t.next src with
    | none => simp [hv, hn] at h
    | some q =>
      simp only [hv, hn, Option.some.injEq, Prod.mk.injEq] at h
      obtain ⟨rfl, _⟩ := h
      have hso := hs
      simp only [tree_node.sorted, tree_node.inorder_set_parent]
      rcases tree_node.inorder_remove_impl t.compare hw x t.root hs with
        ⟨l1, a, l2, e1, _, e2⟩ | ⟨_, e⟩
      · simp only [tree_node.sorted, e1, List.pairwise_append, List.pairwise_cons,
          List.mem_cons] at hso
        rw [e2]
        simp only [List.pairwise_append]
        exact ⟨hso.1, hso.2.1.2, fun a ha b hb => hso.2.2 a ha b (Or.inr hb)⟩
      · rw [e]
        exact hs

theorem avl_insert (t : tree α) (ha : t.root.avl) (i : Nat) (x : α) :
    (t.insert i x).root.avl := by
  simpa [insert] using (tree_node.avl_insert_impl t.compare i x t.root ha).1

theorem avl_remove (t : tree α) (ha : t.root.avl) (src : Ptr) (t1 : tree α) (p : Ptr)
    (h : t.remove src = some (t1, p)) : t1.root.avl := by
  simp only [remove] at h
  cases hv : t.value_at src with
  | none => simp [hv] at h
  | some x =>
    cases hn : t.next src with
    | none => simp [hv, hn] at h
    | some q =>
      simp only [hv, hn, Option.some.injEq, Prod.mk.injEq] at h
      obtain ⟨rfl, _⟩ := h
      simpa using (tree_node.avl_remove_impl t.compare x t.root ha).1

end tree
end bimap_impl

namespace bimap
variable {L R : Type}

theorem pairwise_increasing_facts {α : Type} {cmp : α → α → Bool} (hw : strict_weak cmp)
    {S : List (Nat × α)} (hs : S.Pairwise (fun a b => cmp a.2 b.2 = true)) :
    S.Pairwise (fun a b => cmp b.2 a.2 = false) ∧ S.Pairwise (fun a b => ¬ equiv cmp a.2 b.2) := by
  constructor
  · exact hs.imp (fun h => hw.asymm h)
  · refine hs.imp ?_
    intro a b h hq
    rw [hq.1] at h
    exact absurd h (by decide)

/-- C4: in every reachable state both in-order sequences are strictly
increasing under their comparators (hence non-decreasing and free of
equivalent keys), and `tree::insert` and `tree::remove` keep a strictly
increasing tree strictly increasing. -/
theorem C4_ordering [Inhabited L] [Inhabited R] (m : bimap L R) (hm : reachable m) :
    m.left_seq.Pairwise (fun a b => m.left_tree.compare a.2 b.2 = true) ∧
    m.right_seq.Pairwise (fun a b => m.right_tree.compare a.2 b.2 = true) ∧
    m.left_seq.Pairwise (fun a b => m.left_tree.compare b.2 a.2 = false) ∧
    m.right_seq.Pairwise (fun a b => m.right_tree.compare b.2 a.2 = false) ∧
    m.left_seq.Pairwise (fun a b => ¬ equiv m.left_tree.compare a.2 b.2) ∧
    m.right_seq.Pairwise (fun a b => ¬ equiv m.right_tree.compare a.2 b.2) ∧
    (∀ (α : Type) (t : tree α) (i : Nat) (x : α), strict_weak t.compare →
      t.root.sorted t.compare → (t.insert i x).root.sorted (t.insert i x).compare) ∧
    (∀ (α : Type) (t t1 : tree α) (src p : Ptr), strict_weak t.compare →
      t.root.sorted t.compare → t.remove src = some (t1, p) →
      t1.root.sorted t1.compare) := by
  have hi := reachable_inv m hm
  have h1 := pairwise_increasing_facts hi.left.order hi.left.sorted
  have h2 := pairwise_increasing_facts hi.right.order hi.right.sorted
  exact ⟨hi.left.sorted, hi.right.sorted, h1.1, h2.1, h1.2, h2.2,
    fun α t i x hw hs => tree.sorted_insert t hw hs i x,
    fun α t t1 src p hw hs h => tree.sorted_remove t hw hs src t1 p h⟩

/-- C4 after inserting `(3, 5)`, `(1, 10)`, `(2, 20)` into an empty
`bimap<int, int>`: the left sequence is `1, 2, 3` and the right sequence is
`5, 10, 20`. -/
theorem C4_ordering_witness :
    (((empty_int_int.insert 3 5).1.insert 1 10).1.insert 2 20).1.left_seq.Pairwise
      (fun a b => int_less a.2 b.2 = true) ∧
    (((empty_int_int.insert 3 5).1.insert 1 10).1.insert 2 20).1.left_seq.map Prod.snd
      = [1, 2, 3] ∧
    (((empty_int_int.insert 3 5).1.insert 1 10).1.insert 2 20).1.right_seq.map Prod.snd
      = [5, 10, 20] :=
  have h := C4_ordering (((empty_int_int.insert 3 5).1.insert 1 10).1.insert 2 20).1
    (reachable.insert _ 2 20 (reachable.insert _ 1 10
      (reachable.insert _ 3 5 reachable_empty_int_int)))
  ⟨h.1, by decide, by decide⟩

/-- C5: in every reachable state both trees are AVL trees with correct
cached heights (at every node the balance factor is `-1`, `0` or `1` and the
height is `1 + max` of the children's heights, an absent child counting `0`),
and `tree::insert` and `tree::remove` keep that property. -/
theorem C5_avl [Inhabited L] [Inhabited R] (m : bimap L R) (hm : reachable m) :
    m.left_tree.root.avl ∧ m.right_tree.root.avl ∧
    (∀ (α : Type) (t : tree α) (i : Nat) (x : α), t.root.avl → (t.insert i x).root.avl) ∧
    (∀ (α : Type) (t t1 : tree α) (src p : Ptr), t.root.avl →
      t.remove src = some (t1, p) → t1.root.avl) := by
  have hi := reachable_inv m hm
  exact ⟨hi.left.avl, hi.right.avl, fun α t i x h => tree.avl_insert t h i x,
    fun α t t1 src p ha h => tree.avl_remove t ha src t1 p h⟩

/-- C5 after inserting seven increasing keys into an empty `bimap<int, int>`:
the left tree is an AVL tree of height `3`. -/
theorem C5_avl_witness :
    (((((((empty_int_int.insert 1 1).1.insert 2 2).1.insert 3 3).1.insert 4 4).1.insert
      5 5).1.insert 6 6).1.insert 7 7).1.left_tree.root.avl ∧
    (((((((empty_int_int.insert 1 1).1.insert 2 2).1.insert 3 3).1.insert 4 4).1.insert
      5 5).1.insert 6 6).1.insert 7 7).1.left_tree.root.get_height = 3 :=
  have h := C5_avl (((((((empty_int_int.insert 1 1).1.insert 2 2).1.insert 3 3).1.insert
      4 4).1.insert 5 5).1.insert 6 6).1.insert 7 7).1
    (reachable.insert _ 7 7 (reachable.insert _ 6 6 (reachable.insert _ 5 5
      (reachable.insert _ 4 4 (reachable.insert _ 3 3 (reachable.insert _ 2 2
        (reachable.insert _ 1 1 reachable_empty_int_int)))))))
  ⟨h.1, by decide⟩

end bimap

/-! ### The claims about `erase` -/

namespace bimap
variable {L R : Type}

theorem reachable_abc_map : reachable abc_map :=
  reachable.insert _ 3 "c" (reachable.insert _ 2 "b"
    (reachable.insert _ 1 "a" reachable_empty_int_string))

/-- What is left after the entry `i` was removed. -/
theorem remove_effect (m m1 : bimap L R) (hi : m.inv) (i : Nat) (l : L) (r : R)
    (l1 l2 : List (Nat × L)) (r1 r2 : List (Nat × R))
    (hl : m.left_seq = l1 ++ (i, l) :: l2) (hr : m.right_seq = r1 ++ (i, r) :: r2)
    (e1 : m1.left_seq = l1 ++ l2) (e2 : m1.right_seq = r1 ++ r2) (hf : same_frame m m1) :
    (∀ a ∈ m1.left_seq, ¬ equiv m1.left_tree.compare l a.2) ∧
    (∀ b ∈ m1.right_seq, ¬ equiv m1.right_tree.compare r b.2) ∧
    (∀ j a c, has_pair m1 j a c ↔ (has_pair m j a c ∧ j ≠ i)) := by
  have hsl := hi.left.sorted
  have hsr := hi.right.sorted
  have hnl := hi.left.nodup
  have hnr := hi.right.nodup
  have el : m.left_tree.root.inorder = l1 ++ (i, l) :: l2 := hl
  have er : m.right_tree.root.inorder = r1 ++ (i, r) :: r2 := hr
  simp only [tree_node.sorted, tree_node.ids, el, er, List.pairwise_append, List.pairwise_cons,
    List.map_append, List.map_cons, List.nodup_append, List.nodup_cons, List.mem_cons]
    at hsl hsr hnl hnr
  refine ⟨?_, ?_, ?_⟩
  · intro a ha hq
    rw [hf.2.2.1] at hq
    rw [e1, List.mem_append] at ha
    rcases ha with ha | ha
    · have := hsl.2.2 a ha (i, l) (Or.inl rfl)
      rw [hq.2] at this
      exact absurd this (by decide)
    · have := hsl.2.1.1 a ha
      rw [hq.1] at this
      exact absurd this (by decide)
  · intro b hb hq
    rw [hf.2.2.2] at hq
    rw [e2, List.mem_append] at hb
    rcases hb with hb | hb
    · have := hsr.2.2 b hb (i, r) (Or.inl rfl)
      rw [hq.2] at this
      exact absurd this (by decide)
    · have := hsr.2.1.1 b hb
      rw [hq.1] at this
      exact absurd this (by decide)
  · intro j a c
    simp only [has_pair, hl, hr, e1, e2, List.mem_append, List.mem_cons, Prod.mk.injEq]
    constructor
    · rintro ⟨h1, h2⟩
      refine ⟨⟨by tauto, by tauto⟩, ?_⟩
      rintro rfl
      rcases h1 with h1 | h1
      · exact hnl.2.2 (List.mem_map.2 ⟨_, h1, rfl⟩) (List.mem_cons_self _ _)
      · exact hnl.2.1.1 (List.mem_map.2 ⟨_, h1, rfl⟩)
    · rintro ⟨⟨h1, h2⟩, hne⟩
      constructor
      · rcases h1 with h1 | ⟨h1, _⟩ | h1
        · exact Or.inl h1
        · exact absurd h1 hne
        · exact Or.inr h1
      · rcases h2 with h2 | ⟨h2, _⟩ | h2
        · exact Or.inl h2
        · exact absurd h2 hne
        · exact Or.inr h2

theorem erase_left_key_spec (m : bimap L R) (hi : m.inv) (k : L) :
    ∃ m1 b, m.erase_left_key k = some (m1, b) ∧
      (b = true ↔ ∃ a ∈ m.left_seq, equiv m.left_tree.compare k a.2) ∧
      (b = false → m1 = m) ∧
      (b = true → ∃ i l r, has_pair m i l r ∧ equiv m.left_tree.compare k l ∧
        m1.find_left k = m1.end_left ∧ m1.find_right r = m1.end_right ∧
        m1.size + 1 = m.size ∧
        (∀ j a c, has_pair m1 j a c ↔ (has_pair m j a c ∧ j ≠ i))) := by
  by_cases h : ∃ a ∈ m.left_seq, equiv m.left_tree.compare k a.2
  · obtain ⟨⟨i, l⟩, ha, hq⟩ := h
    obtain ⟨r, hb⟩ := right_of_left m hi ha
    obtain ⟨l1, l2, el⟩ := List.append_of_mem ha
    obtain ⟨r1, r2, er⟩ := List.append_of_mem hb
    obtain ⟨m1, g1, g2, g3, g4, g5, g6⟩ := remove_spec m hi i l r l1 l2 r1 r2 el er
    obtain ⟨f1, f2, f3⟩ := remove_effect m m1 hi i l r l1 l2 r1 r2 el er g2 g3 g6
    obtain ⟨a, b, c, d, e⟩ := tree.find_present m.left_tree hi.left k ha hq
    refine ⟨m1, true, ?_, ?_, ?_, ?_⟩
    · simp only [erase_left_key, e, g1]
    · exact ⟨fun _ => ⟨(i, l), ha, hq⟩, fun _ => rfl⟩
    · intro hc
      exact absurd hc (by decide)
    · intro _
      refine ⟨i, l, r, ⟨ha, hb⟩, hq, ?_, find_right_absent m1 g4 r f2, g5, f3⟩
      apply find_left_absent m1 g4 k
      intro a ha2 hq2
      rw [g6.2.2.1] at hq2
      have hq3 : equiv m1.left_tree.compare l a.2 := by
        rw [g6.2.2.1]
        exact hi.left.order.equiv_trans _ _ _ (equiv_symm hq) hq2
      exact f1 a ha2 hq3
  · have h2 := h
    simp only [not_exists, not_and] at h2
    refine ⟨m, false, ?_, ?_, fun _ => rfl, ?_⟩
    · simp only [erase_left_key, tree.find_absent m.left_tree hi.left k h2]
    · exact ⟨fun hc => absurd hc (by decide), fun hc => absurd hc h⟩
    · intro hc
      exact absurd hc (by decide)

theorem erase_right_key_spec (m : bimap L R) (hi : m.inv) (k : R) :
    ∃ m1 b, m.erase_right_key k = some (m1, b) ∧
      (b = true ↔ ∃ a ∈ m.right_seq, equiv m.right_tree.compare k a.2) ∧
      (b = false → m1 = m) ∧
      (b = true → ∃ i l r, has_pair m i l r ∧ equiv m.right_tree.compare k r ∧
        m1.find_right k = m1.end_right ∧ m1.find_left l = m1.end_left ∧
        m1.size + 1 = m.size ∧
        (∀ j a c, has_pair m1 j a c ↔ (has_pair m j a c ∧ j ≠ i))) := by
  by_cases h : ∃ a ∈ m.right_seq, equiv m.right_tree.compare k a.2
  · obtain ⟨⟨i, r⟩, hb, hq⟩ := h
    obtain ⟨l, ha⟩ := left_of_right m hi hb
    obtain ⟨l1, l2, el⟩ := List.append_of_mem ha
    obtain ⟨r1, r2, er⟩ := List.append_of_mem hb
    obtain ⟨m1, g1, g2, g3, g4, g5, g6⟩ := remove_spec m hi i l r l1 l2 r1 r2 el er
    obtain ⟨f1, f2, f3⟩ := remove_effect m m1 hi i l r l1 l2 r1 r2 el er g2 g3 g6
    obtain ⟨a, b, c, d, e⟩ := tree.find_present m.right_tree hi.right k hb hq
    refine ⟨m1, true, ?_, ?_, ?_, ?_⟩
    · simp only [erase_right_key, e, g1]
    · exact ⟨fun _ => ⟨(i, r), hb, hq⟩, fun _ => rfl⟩
    · intro hc
      exact absurd hc (by decide)
    · intro _
      refine ⟨i, l, r, ⟨ha, hb⟩, hq, ?_, find_left_absent m1 g4 l f1, g5, f3⟩
      apply find_right_absent m1 g4 k
      intro a ha2 hq2
      rw [g6.2.2.2] at hq2
      have hq3 : equiv m1.right_tree.compare r a.2 := by
        rw [g6.2.2.2]
        exact hi.right.order.equiv_trans _ _ _ (equiv_symm hq) hq2
      exact f2 a ha2 hq3
  · have h2 := h
    simp only [not_exists, not_and] at h2
    refine ⟨m, false, ?_, ?_, fun _ => rfl, ?_⟩
    · simp only [erase_right_key, tree.find_absent m.right_tree hi.right k h2]
    · exact ⟨fun hc => absurd hc (by decide), fun hc => absurd hc h⟩
    · intro hc
      exact absurd hc (by decide)

/-- C6: on a reachable map `erase_left(k)` returns, with `true` exactly when
`k` is equivalent to a left key.  With `false` the map is unchanged.  With
`true` the entry `(l, r)` whose left value is equivalent to `k` is gone:
`find_left(k) == end_left()`, `find_right(r) == end_right()`, the size has
dropped by one and the remaining entries are exactly the other entries, with
the same partners.  `erase_right(k)` is symmetric. -/
theorem C6_erase_key [Inhabited L] [Inhabited R] (m : bimap L R) (hm : reachable m) :
    (∀ k : L, ∃ m1 b, m.erase_left_key k = some (m1, b) ∧
      (b = true ↔ ∃ a ∈ m.left_seq, equiv m.left_tree.compare k a.2) ∧
      (b = false → m1 = m) ∧
      (b = true → ∃ i l r, has_pair m i l r ∧ equiv m.left_tree.compare k l ∧
        m1.find_left k = m1.end_left ∧ m1.find_right r = m1.end_right ∧
        m1.size + 1 = m.size ∧
        (∀ j a c, has_pair m1 j a c ↔ (has_pair m j a c ∧ j ≠ i)))) ∧
    (∀ k : R, ∃ m1 b, m.erase_right_key k = some (m1, b) ∧
      (b = true ↔ ∃ a ∈ m.right_seq, equiv m.right_tree.compare k a.2) ∧
      (b = false → m1 = m) ∧
      (b = true → ∃ i l r, has_pair m i l r ∧ equiv m.right_tree.compare k r ∧
        m1.find_right k = m1.end_right ∧ m1.find_left l = m1.end_left ∧
        m1.size + 1 = m.size ∧
        (∀ j a c, has_pair m1 j a c ↔ (has_pair m j a c ∧ j ≠ i)))) :=
  ⟨erase_left_key_spec m (reachable_inv m hm), erase_right_key_spec m (reachable_inv m hm)⟩

/-- C6 on the map `(1, "a")`, `(2, "b")`, `(3, "c")`: `erase_left(2)` returns
`true` and `erase_left(7)` returns `false`. -/
theorem C6_erase_key_witness :
    (∃ m1, abc_map.erase_left_key 2 = some (m1, true)) ∧
    abc_map.erase_left_key 7 = some (abc_map, false) :=
  have h := C6_erase_key abc_map reachable_abc_map
  ⟨by
    obtain ⟨m1, b, e, hb, _, _⟩ := h.1 2
    have hb2 : b = true := hb.2 ⟨(2, 2), by decide!, by decide!⟩
    subst hb2
    exact ⟨m1, e⟩,
   by
    obtain ⟨m1, b, e, hb, hf, _⟩ := h.1 7
    have hb2 : b = false := by
      cases b with
      | false => rfl
      | true =>
        have hx : ¬ ∃ a ∈ abc_map.left_seq, equiv abc_map.left_tree.compare 7 a.2 := by decide!
        exact absurd (hb.1 rfl) hx
    subst hb2
    rw [e, hf rfl]⟩

end bimap

namespace bimap_impl
namespace tree
variable {α : Type}

/-- After a node was removed, `lower_bound` of its value is its former
successor: the `assert` in `tree::remove` holds. -/
theorem lower_bound_after_remove (t1 : tree α) (hw : strict_weak t1.compare)
    (l1 l2 : List (Nat × α)) (x : Nat) (xv : α)
    (hs : (l1 ++ (x, xv) :: l2).Pairwise (fun a b => t1.compare a.2 b.2 = true))
    (hs1 : t1.root.sorted t1.compare) (e : t1.root.inorder = l1 ++ l2) :
    t1.lower_bound xv = head_ptr (Ptr.fake t1.fake_addr) l2 := by
  simp only [List.pairwise_append, List.pairwise_cons, List.mem_cons] at hs
  rw [lower_bound, tree_node.lower_bound_spec t1.compare hw xv t1.root hs1, e,
    dropWhile_append_all (fun a => t1.compare a.2 xv) l1 l2
      (fun b hb => hs.2.2 b hb (x, xv) (Or.inl rfl))]
  cases l2 with
  | nil => rfl
  | cons b l2 =>
    have hb := hw.asymm (hs.2.1.1 b (List.mem_cons_self _ _))
    simp [List.dropWhile, hb]

end tree
end bimap_impl

namespace bimap
variable {L R : Type}

/-- Both `tree::remove` calls of `bimap::remove` at the entry `i`: each
returns the successor of the face it removes, and `lower_bound` of the removed
value is that successor afterwards. -/
theorem remove_asserts (m : bimap L R) (hi : m.inv) (i : Nat) (l : L) (r : R)
    (l1 l2 : List (Nat × L)) (r1 r2 : List (Nat × R))
    (hl : m.left_seq = l1 ++ (i, l) :: l2) (hr : m.right_seq = r1 ++ (i, r) :: r2) :
    ∃ m1, m.remove (Ptr.node i) =
        some (m1, head_ptr m.end_left l2, head_ptr m.end_right r2) ∧
      m.next_left (Ptr.node i) = some (head_ptr m.end_left l2) ∧
      m.next_right (Ptr.node i) = some (head_ptr m.end_right r2) ∧
      m1.left_seq = l1 ++ l2 ∧ m1.right_seq = r1 ++ r2 ∧
      m1.lower_bound_left l = head_ptr m.end_left l2 ∧
      m1.lower_bound_right r = head_ptr m.end_right r2 ∧
      m1.end_left = m.end_left ∧ m1.end_right = m.end_right := by
  obtain ⟨m1, g1, g2, g3, g4, g5, g6⟩ := remove_spec m hi i l r l1 l2 r1 r2 hl hr
  refine ⟨m1, g1, ?_, ?_, g2, g3, ?_, ?_, end_left_same_frame g6, end_right_same_frame g6⟩
  · exact tree.next_spec m.left_tree hi.left.nodup hi.left.root_parent hi.left.links
      (link_not_node_left m hi) l1 l2 i l hl
  · exact tree.next_spec m.right_tree hi.right.nodup hi.right.root_parent hi.right.links
      (link_not_node_right m hi) r1 r2 i r hr
  · have hs := hi.left.sorted
    simp only [tree_node.sorted, show m.left_tree.root.inorder = _ from hl] at hs
    rw [← g6.2.2.1] at hs
    have := tree.lower_bound_after_remove m1.left_tree g4.left.order l1 l2 i l hs
      g4.left.sorted g2
    simp only [lower_bound_left, this, end_left, tree.get_end, g6.1]
  · have hs := hi.right.sorted
    simp only [tree_node.sorted, show m.right_tree.root.inorder = _ from hr] at hs
    rw [← g6.2.2.2] at hs
    have := tree.lower_bound_after_remove m1.right_tree g4.right.order r1 r2 i r hs
      g4.right.sorted g3
    simp only [lower_bound_right, this, end_right, tree.get_end, g6.2.1]

theorem erase_left_spec (m : bimap L R) (hi : m.inv) (it : Ptr) (k : L)
    (hd : m.deref_left it = some k) :
    ∃ m1 nxt i l1 l2 r r1 r2, m.erase_left it = some (m1, nxt) ∧ it = Ptr.node i ∧
      m.left_seq = l1 ++ (i, k) :: l2 ∧ nxt = head_ptr m.end_left l2 ∧
      m.next_left it = some nxt ∧ m1.left_seq = l1 ++ l2 ∧
      m1.lower_bound_left k = nxt ∧ m1.end_left = m.end_left ∧
      m.right_seq = r1 ++ (i, r) :: r2 ∧
      m.next_right (Ptr.node i) = some (head_ptr m.end_right r2) ∧
      m1.lower_bound_right r = head_ptr m.end_right r2 := by
  obtain ⟨i, rfl, ha⟩ := tree.mem_of_value_at m.left_tree hd
  obtain ⟨r, hb⟩ := right_of_left m hi ha
  obtain ⟨l1, l2, el⟩ := List.append_of_mem ha
  obtain ⟨r1, r2, er⟩ := List.append_of_mem hb
  obtain ⟨m1, g1, g2, g3, g4, g5, g6, g7, g8, g9⟩ :=
    remove_asserts m hi i k r l1 l2 r1 r2 el er
  refine ⟨m1, head_ptr m.end_left l2, i, l1, l2, r, r1, r2, ?_, rfl, el, rfl, g2, g4, g6, g8,
    er, g3, g7⟩
  simp only [erase_left, g1]

theorem erase_right_spec (m : bimap L R) (hi : m.inv) (it : Ptr) (k : R)
    (hd : m.deref_right it = some k) :
    ∃ m1 nxt i r1 r2 l l1 l2, m.erase_right it = some (m1, nxt) ∧ it = Ptr.node i ∧
      m.right_seq = r1 ++ (i, k) :: r2 ∧ nxt = head_ptr m.end_right r2 ∧
      m.next_right it = some nxt ∧ m1.right_seq = r1 ++ r2 ∧
      m1.lower_bound_right k = nxt ∧ m1.end_right = m.end_right ∧
      m.left_seq = l1 ++ (i, l) :: l2 ∧
      m.next_left (Ptr.node i) = some (head_ptr m.end_left l2) ∧
      m1.lower_bound_left l = head_ptr m.end_left l2 := by
  obtain ⟨i, rfl, hb⟩ := tree.mem_of_value_at m.right_tree hd
  obtain ⟨l, ha⟩ := left_of_right m hi hb
  obtain ⟨l1, l2, el⟩ := List.append_of_mem ha
  obtain ⟨r1, r2, er⟩ := List.append_of_mem hb
  obtain ⟨m1, g1, g2, g3, g4, g5, g6, g7, g8, g9⟩ :=
    remove_asserts m hi i l k l1 l2 r1 r2 el er
  refine ⟨m1, head_ptr m.end_right r2, i, r1, r2, l, l1, l2, ?_, rfl, er, rfl, g3, g5, g7, g9,
    el, g2, g6⟩
  simp only [erase_right, g1]

/-- C7: on a reachable map, `erase_left(it)` at a dereferenceable left
iterator (`*it == k`) returns the position that followed `it` in the left
sequence before the call (`end_left()` after the last one), which is what
`++it` gave before the call and what `lower_bound_left(k)` gives after it.
The same call removes the right face `r` of the entry from the right tree,
where `lower_bound_right(r)` afterwards is the former successor of that face
too, so neither `assert` in `tree::remove` fails.  `erase_right(it)` is
symmetric. -/
theorem C7_erase_iterator [Inhabited L] [Inhabited R] (m : bimap L R) (hm : reachable m) :
    (∀ (it : Ptr) (k : L), m.deref_left it = some k →
      ∃ m1 nxt i l1 l2 r r1 r2, m.erase_left it = some (m1, nxt) ∧ it = Ptr.node i ∧
        m.left_seq = l1 ++ (i, k) :: l2 ∧ nxt = head_ptr m.end_left l2 ∧
        m.next_left it = some nxt ∧ m1.left_seq = l1 ++ l2 ∧
        m1.lower_bound_left k = nxt ∧ m1.end_left = m.end_left ∧
        m.right_seq = r1 ++ (i, r) :: r2 ∧
        m.next_right (Ptr.node i) = some (head_ptr m.end_right r2) ∧
        m1.lower_bound_right r = head_ptr m.end_right r2) ∧
    (∀ (it : Ptr) (k : R), m.deref_right it = some k →
      ∃ m1 nxt i r1 r2 l l1 l2, m.erase_right it = some (m1, nxt) ∧ it = Ptr.node i ∧
        m.right_seq = r1 ++ (i, k) :: r2 ∧ nxt = head_ptr m.end_right r2 ∧
        m.next_right it = some nxt ∧ m1.right_seq = r1 ++ r2 ∧
        m1.lower_bound_right k = nxt ∧ m1.end_right = m.end_right ∧
        m.left_seq = l1 ++ (i, l) :: l2 ∧
        m.next_left (Ptr.node i) = some (head_ptr m.end_left l2) ∧
        m1.lower_bound_left l = head_ptr m.end_left l2) :=
  ⟨erase_left_spec m (reachable_inv m hm), erase_right_spec m (reachable_inv m hm)⟩

/-- The scenario of C7: in `(1, "a")`, `(2, "b")`, `(3, "c")` erasing the
position of `2` returns an iterator that dereferences to `3`. -/
theorem C7_erase_iterator_witness :
    ∃ m1 nxt, abc_map.erase_left (abc_map.find_left 2) = some (m1, nxt) ∧
      m1.deref_left nxt = some 3 ∧ m1.lower_bound_left 2 = nxt := by
  obtain ⟨m1, nxt, i, l1, l2, r, r1, r2, e, _, _, _, _, _, hlb, _⟩ :=
    (C7_erase_iterator abc_map reachable_abc_map).1 (abc_map.find_left 2) 2 (by decide!)
  refine ⟨m1, nxt, e, ?_, hlb⟩
  have hx : (abc_map.erase_left (abc_map.find_left 2)).bind (fun x => x.1.deref_left x.2)
      = some 3 := by decide!
  rw [e] at hx
  exact hx

end bimap

/-! ### The claims about `flip`, `find` and `at` -/

namespace bimap
variable {L R : Type}

theorem flip_left_valid (m : bimap L R) (hi : m.inv) (it : Ptr)
    (h : it = m.end_left ∨ (m.deref_left it).isSome = true) :
    ∃ q, m.flip_left it = some q ∧ m.flip_right q = some it ∧
      (q = m.end_right ∨ (m.deref_right q).isSome = true) := by
  rcases h with rfl | h
  · exact ⟨m.end_right, flip_left_end m hi, flip_right_end m hi, Or.inl rfl⟩
  · obtain ⟨v, hv⟩ := Option.isSome_iff_exists.1 h
    obtain ⟨i, rfl, ha⟩ := tree.mem_of_value_at m.left_tree hv
    obtain ⟨r, hb⟩ := right_of_left m hi ha
    refine ⟨Ptr.node i, flip_left_node m hi (tree_node.mem_ids_of_mem ha),
      flip_right_node m hi (tree_node.mem_ids_of_mem hb), Or.inr ?_⟩
    rw [deref_right_of_mem m hi hb]
    rfl

theorem flip_right_valid (m : bimap L R) (hi : m.inv) (it : Ptr)
    (h : it = m.end_right ∨ (m.deref_right it).isSome = true) :
    ∃ q, m.flip_right it = some q ∧ m.flip_left q = some it ∧
      (q = m.end_left ∨ (m.deref_left q).isSome = true) := by
  rcases h with rfl | h
  · exact ⟨m.end_left, flip_right_end m hi, flip_left_end m hi, Or.inl rfl⟩
  · obtain ⟨v, hv⟩ := Option.isSome_iff_exists.1 h
    obtain ⟨i, rfl, hb⟩ := tree.mem_of_value_at m.right_tree hv
    obtain ⟨l, ha⟩ := left_of_right m hi hb
    refine ⟨Ptr.node i, flip_right_node m hi (tree_node.mem_ids_of_mem hb),
      flip_left_node m hi (tree_node.mem_ids_of_mem ha), Or.inr ?_⟩
    rw [deref_left_of_mem m hi ha]
    rfl

/-- A map and the map move-constructed from it are both reachable. -/
theorem reachable_move [Inhabited L] [Inhabited R] (m : bimap L R) (hm : reachable m)
    (la ra : Nat) (cl : L → L → Bool) (cr : R → R → Bool) (hl : strict_weak cl)
    (hr : strict_weak cr) :
    reachable (move la ra cl cr m).1 ∧ reachable (move la ra cl cr m).2 :=
  ⟨reachable.swap_other m (init la ra cl cr) hm (reachable.init la ra cl cr hl hr),
   reachable.swap_this m (init la ra cl cr) hm (reachable.init la ra cl cr hl hr)⟩

/-- C8: in every reachable state (swaps are steps of reachability, and the
two maps a move construction leaves are reachable) `end_left().flip()` is
`end_right()`, `end_right().flip()` is `end_left()`, and for every valid left
or right iterator, the end iterators included, `flip` returns a valid
iterator of the other side whose `flip` is the iterator again. -/
theorem C8_flip_involution [Inhabited L] [Inhabited R] (m : bimap L R) (hm : reachable m) :
    m.flip_left m.end_left = some m.end_right ∧
    m.flip_right m.end_right = some m.end_left ∧
    (∀ it, (it = m.end_left ∨ (m.deref_left it).isSome = true) →
      ∃ q, m.flip_left it = some q ∧ m.flip_right q = some it ∧
        (q = m.end_right ∨ (m.deref_right q).isSome = true)) ∧
    (∀ it, (it = m.end_right ∨ (m.deref_right it).isSome = true) →
      ∃ q, m.flip_right it = some q ∧ m.flip_left q = some it ∧
        (q = m.end_left ∨ (m.deref_left q).isSome = true)) ∧
    (∀ other, reachable other → reachable (m.swap other).1 ∧ reachable (m.swap other).2) ∧
    (∀ la ra cl cr, strict_weak cl → strict_weak cr →
      reachable (move la ra cl cr m).1 ∧ reachable (move la ra cl cr m).2) := by
  have hi := reachable_inv m hm
  exact ⟨flip_left_end m hi, flip_right_end m hi, flip_left_valid m hi, flip_right_valid m hi,
    fun other ho => ⟨reachable.swap_this m other hm ho, reachable.swap_other m other hm ho⟩,
    fun la ra cl cr hl hr => reachable_move m hm la ra cl cr hl hr⟩

/-- C8 on the map `(1, "a")`, `(2, "b")`, `(3, "c")` after it was swapped into
a map with the sentinels `7` and `8`: the end iterators flip into each other. -/
theorem C8_flip_involution_witness :
    ((init 7 8 int_less string_less).swap abc_map).1.flip_left (Ptr.fake 7)
      = some (Ptr.fake 8) ∧
    ((init 7 8 int_less string_less).swap abc_map).1.flip_right (Ptr.fake 8)
      = some (Ptr.fake 7) :=
  have h := C8_flip_involution ((init 7 8 int_less string_less).swap abc_map).1
    (reachable.swap_this _ _
      (reachable.init 7 8 int_less string_less strict_weak_int_less strict_weak_string_less)
      reachable_abc_map)
  ⟨h.1, h.2.1⟩

/-- C9: on a reachable map `find_left(k)` is the position of the one entry
whose left value is equivalent to `k` when there is one, and `end_left()`
otherwise; `find_right` is symmetric.  (`find_left` and `find_right` return
an iterator only: the map is not changed.) -/
theorem C9_find [Inhabited L] [Inhabited R] (m : bimap L R) (hm : reachable m) :
    (∀ (k : L) (i : Nat) (v : L), (i, v) ∈ m.left_seq → equiv m.left_tree.compare k v →
      m.find_left k = Ptr.node i ∧ m.deref_left (m.find_left k) = some v ∧
      (∀ j w, (j, w) ∈ m.left_seq → equiv m.left_tree.compare k w → j = i ∧ w = v)) ∧
    (∀ k : L, (∀ a ∈ m.left_seq, ¬ equiv m.left_tree.compare k a.2) →
      m.find_left k = m.end_left) ∧
    (∀ (k : R) (i : Nat) (v : R), (i, v) ∈ m.right_seq → equiv m.right_tree.compare k v →
      m.find_right k = Ptr.node i ∧ m.deref_right (m.find_right k) = some v ∧
      (∀ j w, (j, w) ∈ m.right_seq → equiv m.right_tree.compare k w → j = i ∧ w = v)) ∧
    (∀ k : R, (∀ a ∈ m.right_seq, ¬ equiv m.right_tree.compare k a.2) →
      m.find_right k = m.end_right) := by
  have hi := reachable_inv m hm
  refine ⟨?_, fun k h => find_left_absent m hi k h, ?_, fun k h => find_right_absent m hi k h⟩
  · intro k i v hm1 hq
    have e := find_left_present m hi k hm1 hq
    refine ⟨e, ?_, ?_⟩
    · rw [e]
      exact deref_left_of_mem m hi hm1
    · intro j w hm2 hq2
      have := sorted_mem_unique hi.left.sorted hm2 hm1
        (hi.left.order.equiv_trans _ _ _ (equiv_symm hq2) hq)
      cases this
      exact ⟨rfl, rfl⟩
  · intro k i v hm1 hq
    have e := find_right_present m hi k hm1 hq
    refine ⟨e, ?_, ?_⟩
    · rw [e]
      exact deref_right_of_mem m hi hm1
    · intro j w hm2 hq2
      have := sorted_mem_unique hi.right.sorted hm2 hm1
        (hi.right.order.equiv_trans _ _ _ (equiv_symm hq2) hq)
      cases this
      exact ⟨rfl, rfl⟩

/-- C9 on the map `(1, "a")`, `(2, "b")`, `(3, "c")`: `find_left(2)` is the
position of the second entry and `find_right("z")` is `end_right()`. -/
theorem C9_find_witness :
    abc_map.find_left 2 = Ptr.node 2 ∧ abc_map.deref_left (abc_map.find_left 2) = some 2 ∧
    abc_map.find_right "z" = abc_map.end_right :=
  have h := C9_find abc_map reachable_abc_map
  have h1 := h.1 2 2 2 (by decide!) (by decide!)
  ⟨h1.1, h1.2.1, h.2.2.2 "z" (by decide!)⟩

/-- C10: on a reachable map `at_left(k)` throws `std::out_of_range` exactly
when no left value is equivalent to `k`; otherwise it returns the right value
of the entry whose left value is equivalent to `k`.  `at_right` is symmetric.
(`at_left` and `at_right` return a value or throw: the map is not changed.) -/
theorem C10_at [Inhabited L] [Inhabited R] (m : bimap L R) (hm : reachable m) :
    (∀ k : L, m.at_left k = Except.error at_error.out_of_range ↔
      ∀ a ∈ m.left_seq, ¬ equiv m.left_tree.compare k a.2) ∧
    (∀ (k : L) (i : Nat) (l : L) (r : R), has_pair m i l r → equiv m.left_tree.compare k l →
      m.at_left k = Except.ok r) ∧
    (∀ k : R, m.at_right k = Except.error at_error.out_of_range ↔
      ∀ a ∈ m.right_seq, ¬ equiv m.right_tree.compare k a.2) ∧
    (∀ (k : R) (i : Nat) (l : L) (r : R), has_pair m i l r → equiv m.right_tree.compare k r →
      m.at_right k = Except.ok l) := by
  have hi := reachable_inv m hm
  have hL : ∀ (k : L) (i : Nat) (l : L) (r : R), has_pair m i l r →
      equiv m.left_tree.compare k l → m.at_left k = Except.ok r := by
    intro k i l r hp hq
    obtain ⟨a, b, c, d, e⟩ := tree.find_present m.left_tree hi.left k hp.1 hq
    simp only [at_left, e, tree.value_at_of_mem m.right_tree hi.right.nodup hp.2]
  have hR : ∀ (k : R) (i : Nat) (l : L) (r : R), has_pair m i l r →
      equiv m.right_tree.compare k r → m.at_right k = Except.ok l := by
    intro k i l r hp hq
    obtain ⟨a, b, c, d, e⟩ := tree.find_present m.right_tree hi.right k hp.2 hq
    simp only [at_right, e, tree.value_at_of_mem m.left_tree hi.left.nodup hp.1]
  refine ⟨?_, hL, ?_, hR⟩
  · intro k
    constructor
    · intro h a ha hq
      obtain ⟨i, l⟩ := a
      obtain ⟨r, hb⟩ := right_of_left m hi ha
      rw [hL k i l r ⟨ha, hb⟩ hq] at h
      cases h
    · intro h
      simp only [at_left, tree.find_absent m.left_tree hi.left k h]
  · intro k
    constructor
    · intro h a ha hq
      obtain ⟨i, r⟩ := a
      obtain ⟨l, hb⟩ := left_of_right m hi ha
      rw [hR k i l r ⟨hb, ha⟩ hq] at h
      cases h
    · intro h
      simp only [at_right, tree.find_absent m.right_tree hi.right k h]

/-- C10 on the map `(1, "a")`, `(2, "b")`, `(3, "c")`: `at_left(2)` is `"b"`,
`at_right("c")` is `3` and `at_left(9)` throws. -/
theorem C10_at_witness :
    abc_map.at_left 2 = Except.ok "b" ∧ abc_map.at_right "c" = Except.ok 3 ∧
    abc_map.at_left 9 = Except.error at_error.out_of_range :=
  have h := C10_at abc_map reachable_abc_map
  ⟨h.2.1 2 2 2 "b" ⟨by decide!, by decide!⟩ (by decide!),
   h.2.2.2 "c" 3 3 "c" ⟨by decide!, by decide!⟩ (by decide!),
   (h.1 9).2 (by decide!)⟩

end bimap

/-! ### The claims about `balance` -/

namespace bimap_impl
namespace tree_node
variable {α : Type}

/-- C19: when both children are AVL trees with correct cached heights that
differ by at most `2`, `balance()` returns a subtree with the same nodes in
the same in-order sequence that is an AVL tree with correct cached heights,
of height `max(hl, hr)` or `max(hl, hr) + 1`; when the heights differ by at
most `1` it is the same node with only the height recomputed.  `rotate_left`
(on a node with a right child) and `rotate_right` (on a node with a left
child) keep the in-order sequence. -/
theorem C19_balance (l r : tree_node α) (p : Ptr) (h i : Nat) (v : α)
    (hl : l.avl) (hr : r.avl)
    (h1 : l.get_height ≤ r.get_height + 2) (h2 : r.get_height ≤ l.get_height + 2) :
    (balance (node l r p h i v)).inorder = (node l r p h i v).inorder ∧
    (balance (node l r p h i v)).avl ∧
    max l.get_height r.get_height ≤ (balance (node l r p h i v)).get_height ∧
    (balance (node l r p h i v)).get_height ≤ max l.get_height r.get_height + 1 ∧
    (l.get_height ≤ r.get_height + 1 → r.get_height ≤ l.get_height + 1 →
      balance (node l r p h i v) = node l r p (max l.get_height r.get_height + 1) i v) ∧
    (∀ (a b c : tree_node α) (q q1 : Ptr) (n n1 j j1 : Nat) (x x1 : α),
      (rotate_left (node a (node b c q1 n1 j1 x1) q n j x)).inorder
        = (node a (node b c q1 n1 j1 x1) q n j x).inorder) ∧
    (∀ (a b c : tree_node α) (q q1 : Ptr) (n n1 j j1 : Nat) (x x1 : α),
      (rotate_right (node (node a b q1 n1 j1 x1) c q n j x)).inorder
        = (node (node a b q1 n1 j1 x1) c q n j x).inorder) := by
  obtain ⟨b1, b2, b3, b4⟩ := avl_balance l r p h i v hl hr h1 h2
  exact ⟨inorder_balance _, b1, b2, b3, b4,
    fun a b c q q1 n n1 j j1 x x1 => inorder_rotate_left a b c q q1 n n1 j j1 x x1,
    fun a b c q q1 n n1 j j1 x x1 => inorder_rotate_right a b c q q1 n n1 j j1 x x1⟩

end tree_node

/-- C19 at the node `1` with the right child `2` and its right child `3`:
`balance()` returns the node `2` with height `2` and the sequence `1, 2, 3`. -/
theorem C19_balance_witness :
    (tree_node.balance right_right_case).inorder = [(1, 1), (2, 2), (3, 3)] ∧
    (tree_node.balance right_right_case).ptr = Ptr.node 2 ∧
    (tree_node.balance right_right_case).get_height = 2 :=
  have h := tree_node.C19_balance (tree_node.nil : tree_node Int)
    (tree_node.node tree_node.nil (tree_node.node tree_node.nil tree_node.nil (Ptr.node 2) 1 3 3)
      (Ptr.node 1) 2 2 2)
    (Ptr.fake 0) 2 1 1 trivial (by simp [tree_node.avl_node]) (by decide) (by decide)
  ⟨h.1, by decide, by decide⟩

end bimap_impl

namespace bimap_impl
namespace tree_node
variable {α : Type}

/-- C20, as amended: `balance()` first recomputes the height; with the balance
factor `+2` it rotates the node left, first rotating the right child right
exactly when the right child is left-heavy (child balance `< 0`); with the
balance factor `-2` it rotates the node right, first rotating the left child
left exactly when the left child is right-heavy (child balance `> 0`);
otherwise the node stays, with its height recomputed. -/
theorem C20_balance_cases (l r : tree_node α) (p : Ptr) (h i : Nat) (v : α) :
    (get_balance (upd_height (node l r p h i v)) = 2 → get_balance r < 0 →
      balance (node l r p h i v) =
        rotate_left (upd_kids (node l (rotate_right r) p
          (upd_height (node l r p h i v)).get_height i v))) ∧
    (get_balance (upd_height (node l r p h i v)) = 2 → ¬ get_balance r < 0 →
      balance (node l r p h i v) = rotate_left (upd_height (node l r p h i v))) ∧
    (get_balance (upd_height (node l r p h i v)) = -2 → get_balance l > 0 →
      balance (node l r p h i v) =
        rotate_right (upd_kids (node (rotate_left l) r p
          (upd_height (node l r p h i v)).get_height i v))) ∧
    (get_balance (upd_height (node l r p h i v)) = -2 → ¬ get_balance l > 0 →
      balance (node l r p h i v) = rotate_right (upd_height (node l r p h i v))) ∧
    (get_balance (upd_height (node l r p h i v)) ≠ 2 →
      get_balance (upd_height (node l r p h i v)) ≠ -2 →
      balance (node l r p h i v) = upd_height (node l r p h i v)) := by
  simp only [upd_height_node, get_balance_node, get_height_node, balance]
  refine ⟨?_, ?_, ?_, ?_, ?_⟩
  · intro c1 c2
    rw [if_pos c1, if_pos c2]
  · intro c1 c2
    rw [if_pos c1, if_neg c2]
  · intro c1 c2
    have c0 : ¬ ((r.get_height : Int) - (l.get_height : Int) = 2) := by omega
    rw [if_neg c0, if_pos c1, if_pos c2]
  · intro c1 c2
    have c0 : ¬ ((r.get_height : Int) - (l.get_height : Int) = 2) := by omega
    rw [if_neg c0, if_pos c1, if_neg c2]
  · intro c1 c2
    rw [if_neg c1, if_neg c2]

end tree_node

/-- C20 as amended, at the node `3` whose left child `1` is right-heavy: the
left child is rotated left first, then the node is rotated right, and the
node `2` becomes the root with the children `1` and `3` (its own parent link
is left for the caller to set). -/
theorem C20_balance_cases_witness :
    tree_node.balance left_right_case =
      tree_node.node (tree_node.node tree_node.nil tree_node.nil (Ptr.node 2) 1 1 1)
        (tree_node.node tree_node.nil tree_node.nil (Ptr.node 2) 1 3 3) (Ptr.node 3) 2 2 2 :=
  ((tree_node.C20_balance_cases
    (tree_node.node tree_node.nil (tree_node.node tree_node.nil tree_node.nil (Ptr.node 1) 1 2 2)
      (Ptr.node 3) 2 1 1)
    (tree_node.nil : tree_node Int) (Ptr.fake 0) 2 3 3).2.2.1 (by decide) (by decide)).trans rfl

/-- C20 as worded fails.  At the node `3` whose left child `2` is left-heavy the
code rotates the node right without rotating the child first, and at the node
`3` whose left child `1` is right-heavy (so not left-heavy) the code does
rotate the child first; the wording would leave the second subtree with the
balance factor `2` at its root. -/
theorem C20_as_worded_counterexample :
    (tree_node.upd_height left_left_case).get_balance = -2 ∧
    (tree_node.node (tree_node.node tree_node.nil tree_node.nil (Ptr.node 2) 1 1 1)
      tree_node.nil (Ptr.node 3) 2 2 (2 : Int)).get_balance < 0 ∧
    tree_node.balance left_left_case = tree_node.rotate_right (tree_node.upd_height left_left_case) ∧
    (tree_node.balance left_left_case).ptr = Ptr.node 2 ∧
    (balance_as_worded left_left_case).ptr = Ptr.null ∧
    (tree_node.upd_height left_right_case).get_balance = -2 ∧
    ¬ (tree_node.node tree_node.nil (tree_node.node tree_node.nil tree_node.nil (Ptr.node 1) 1 2 2)
      (Ptr.node 3) 2 1 (1 : Int)).get_balance < 0 ∧
    (tree_node.balance left_right_case).ptr = Ptr.node 2 ∧
    (tree_node.balance left_right_case).get_balance = 0 ∧
    (balance_as_worded left_right_case).ptr = Ptr.node 1 ∧
    (balance_as_worded left_right_case).get_balance = 2 := by
  refine ⟨by decide, by decide, rfl, by decide, by decide, by decide, by decide, by decide,
    by decide, by decide, by decide⟩

end bimap_impl

/-! ### The claims about `swap`, move construction and the pairing -/

namespace bimap_impl
namespace tree_node
variable {α : Type}

@[simp] theorem set_parent_set_parent (q q1 : Ptr) (t : tree_node α) :
    set_parent q (set_parent q1 t) = set_parent q t := by
  cases t <;> rfl

end tree_node

namespace tree
variable {α : Type}

theorem swap_swap_tree (t other : tree α) (h1 : t.root.parent_is (Ptr.fake t.fake_addr))
    (h2 : other.root.parent_is (Ptr.fake other.fake_addr)) :
    (t.swap other).1.swap (t.swap other).2 = (t, other) := by
  simp only [swap, tree_node.set_parent_set_parent, tree_node.set_parent_eq_self _ _ h1,
    tree_node.set_parent_eq_self _ _ h2]

theorem get_begin_eq (t : tree α) :
    t.get_begin = head_ptr (Ptr.fake t.fake_addr) t.root.inorder := by
  simp only [get_begin]
  cases hr : t.root with
  | nil => rfl
  | node l r p h i v => exact tree_node.get_min_ptr l r p h i v _

end tree
end bimap_impl

namespace bimap
variable {L R : Type}

theorem begin_left_eq (m : bimap L R) : m.begin_left = head_ptr m.end_left m.left_seq :=
  tree.get_begin_eq m.left_tree

theorem begin_right_eq (m : bimap L R) : m.begin_right = head_ptr m.end_right m.right_seq :=
  tree.get_begin_eq m.right_tree

theorem swap_swap (m other : bimap L R) (h1 : m.inv) (h2 : other.inv) :
    (m.swap other).1.swap (m.swap other).2 = (m, other) := by
  have e1 := tree.swap_swap_tree m.left_tree other.left_tree h1.left.root_parent h2.left.root_parent
  have e2 := tree.swap_swap_tree m.right_tree other.right_tree h1.right.root_parent
    h2.right.root_parent
  simp only [swap] at e1 e2 ⊢
  rw [e1, e2]

theorem swap_seqs (m other : bimap L R) :
    (m.swap other).1.left_seq = other.left_seq ∧ (m.swap other).1.right_seq = other.right_seq ∧
    (m.swap other).1.size = other.size ∧
    (m.swap other).1.left_tree.compare = other.left_tree.compare ∧
    (m.swap other).1.right_tree.compare = other.right_tree.compare ∧
    (m.swap other).2.left_seq = m.left_seq ∧ (m.swap other).2.right_seq = m.right_seq ∧
    (m.swap other).2.size = m.size ∧
    (m.swap other).2.left_tree.compare = m.left_tree.compare ∧
    (m.swap other).2.right_tree.compare = m.right_tree.compare := by
  simp [swap, tree.swap, left_seq, right_seq, size]

/-- C17: after `a.swap(b)` the map `a` has the sequences (identities, values,
order), the size and the comparators `b` had, and `b` has those of `a`;
sentinels stay, both maps satisfy the invariant, and swapping again restores
both.  After move construction the new map has the sequences, size and
comparators of the source, and the source is valid and empty: its size is
`0`, `begin_left() == end_left()` and `begin_right() == end_right()`. -/
theorem C17_swap_move [Inhabited L] [Inhabited R] (a b : bimap L R) (ha : reachable a)
    (hb : reachable b) :
    ((a.swap b).1.left_seq = b.left_seq ∧ (a.swap b).1.right_seq = b.right_seq ∧
      (a.swap b).1.size = b.size ∧
      (a.swap b).1.left_tree.compare = b.left_tree.compare ∧
      (a.swap b).1.right_tree.compare = b.right_tree.compare ∧
      (a.swap b).2.left_seq = a.left_seq ∧ (a.swap b).2.right_seq = a.right_seq ∧
      (a.swap b).2.size = a.size ∧
      (a.swap b).2.left_tree.compare = a.left_tree.compare ∧
      (a.swap b).2.right_tree.compare = a.right_tree.compare) ∧
    ((a.swap b).1.end_left = a.end_left ∧ (a.swap b).1.end_right = a.end_right ∧
      (a.swap b).2.end_left = b.end_left ∧ (a.swap b).2.end_right = b.end_right) ∧
    (a.swap b).1.inv ∧ (a.swap b).2.inv ∧
    (a.swap b).1.swap (a.swap b).2 = (a, b) ∧
    (∀ la ra cl cr, strict_weak cl → strict_weak cr →
      (move la ra cl cr a).1.left_seq = a.left_seq ∧
      (move la ra cl cr a).1.right_seq = a.right_seq ∧
      (move la ra cl cr a).1.size = a.size ∧
      (move la ra cl cr a).1.left_tree.compare = a.left_tree.compare ∧
      (move la ra cl cr a).1.right_tree.compare = a.right_tree.compare ∧
      (move la ra cl cr a).1.inv ∧ (move la ra cl cr a).2.inv ∧
      (move la ra cl cr a).2.size = 0 ∧
      (move la ra cl cr a).2.left_seq = [] ∧ (move la ra cl cr a).2.right_seq = [] ∧
      (move la ra cl cr a).2.begin_left = (move la ra cl cr a).2.end_left ∧
      (move la ra cl cr a).2.begin_right = (move la ra cl cr a).2.end_right ∧
      (move la ra cl cr a).2.end_left = a.end_left ∧
      (move la ra cl cr a).2.end_right = a.end_right) := by
  have ia := reachable_inv a ha
  have ib := reachable_inv b hb
  refine ⟨swap_seqs a b, ⟨rfl, rfl, rfl, rfl⟩, (swap_inv a b ia ib).1, (swap_inv a b ia ib).2,
    swap_swap a b ia ib, ?_⟩
  intro la ra cl cr hl hr
  have ii := init_inv la ra cl cr hl hr
  have hs := swap_seqs a (init la ra cl cr)
  have hv := swap_inv a (init la ra cl cr) ia ii
  have e1 : (move la ra cl cr a).2.left_seq = [] := hs.1
  have e2 : (move la ra cl cr a).2.right_seq = [] := hs.2.1
  refine ⟨hs.2.2.2.2.2.1, hs.2.2.2.2.2.2.1, hs.2.2.2.2.2.2.2.1, hs.2.2.2.2.2.2.2.2.1,
    hs.2.2.2.2.2.2.2.2.2, hv.2, hv.1, hs.2.2.1, e1, e2, ?_, ?_, rfl, rfl⟩
  · rw [begin_left_eq, e1]
    rfl
  · rw [begin_right_eq, e2]
    rfl

/-- C17 on the map `(1, "a")`, `(2, "b")`, `(3, "c")` swapped with an empty
map whose sentinels are `7` and `8`: the empty map receives the three
entries and the size `3`. -/
theorem C17_swap_move_witness :
    (abc_map.swap (init 7 8 int_less string_less)).2.left_seq = abc_map.left_seq ∧
    (abc_map.swap (init 7 8 int_less string_less)).2.size = 3 ∧
    (abc_map.swap (init 7 8 int_less string_less)).1.size = 0 :=
  have h := C17_swap_move abc_map (init 7 8 int_less string_less) reachable_abc_map
    (reachable.init 7 8 int_less string_less strict_weak_int_less strict_weak_string_less)
  ⟨h.1.2.2.2.2.2.1, h.1.2.2.2.2.2.2.2.1.trans (by decide!), h.1.2.2.1.trans (by decide)⟩

end bimap

namespace bimap
variable {L R : Type}

theorem pair_unique_of_right (m : bimap L R) (hi : m.inv) {i j : Nat} {l1 l2 : L} {r1 r2 : R}
    (h1 : has_pair m i l1 r1) (h2 : has_pair m j l2 r2)
    (hq : equiv m.right_tree.compare r1 r2) : i = j ∧ l1 = l2 ∧ r1 = r2 := by
  have e := sorted_mem_unique hi.right.sorted h1.2 h2.2 hq
  cases e
  exact ⟨rfl, seq_value_unique hi.left.nodup h1.1 h2.1, rfl⟩

theorem pair_unique_of_left (m : bimap L R) (hi : m.inv) {i j : Nat} {l1 l2 : L} {r1 r2 : R}
    (h1 : has_pair m i l1 r1) (h2 : has_pair m j l2 r2)
    (hq : equiv m.left_tree.compare l1 l2) : i = j ∧ l1 = l2 ∧ r1 = r2 := by
  have e := sorted_mem_unique hi.left.sorted h1.1 h2.1 hq
  cases e
  exact ⟨rfl, rfl, seq_value_unique hi.right.nodup h1.2 h2.2⟩

theorem at_left_present (m : bimap L R) (hi : m.inv) (k : L) (i : Nat) (l : L) (r : R)
    (hp : has_pair m i l r) (hq : equiv m.left_tree.compare k l) :
    m.at_left k = Except.ok r := by
  obtain ⟨a, b, c, d, e⟩ := tree.find_present m.left_tree hi.left k hp.1 hq
  simp only [at_left, e, tree.value_at_of_mem m.right_tree hi.right.nodup hp.2]

theorem at_right_present (m : bimap L R) (hi : m.inv) (k : R) (i : Nat) (l : L) (r : R)
    (hp : has_pair m i l r) (hq : equiv m.right_tree.compare k r) :
    m.at_right k = Except.ok l := by
  obtain ⟨a, b, c, d, e⟩ := tree.find_present m.right_tree hi.right k hp.2 hq
  simp only [at_right, e, tree.value_at_of_mem m.left_tree hi.left.nodup hp.1]

/-- C18: in every reachable map the two lookups invert each other on the
stored pair: for a key `k` equivalent to the left value of the entry
`(l, r)`, `at_left(k)` is `r` and `at_right(at_left(k))` is `l`; for a key `k`
equivalent to the right value, `at_right(k)` is `l` and `at_left(at_right(k))`
is `r`; `find_left(k).flip()` is the position `find_right(r)` returns; and two
entries with equivalent left values, or with equivalent right values, are the
same entry. -/
theorem C18_pairing_bijection [Inhabited L] [Inhabited R] (m : bimap L R)
    (hm : reachable m) :
    (∀ (k : L) (i : Nat) (l : L) (r : R), has_pair m i l r → equiv m.left_tree.compare k l →
      m.at_left k = Except.ok r ∧ (m.at_left k).bind m.at_right = Except.ok l ∧
      m.flip_left (m.find_left k) = some (m.find_right r)) ∧
    (∀ (k : R) (i : Nat) (l : L) (r : R), has_pair m i l r → equiv m.right_tree.compare k r →
      m.at_right k = Except.ok l ∧ (m.at_right k).bind m.at_left = Except.ok r ∧
      m.flip_right (m.find_right k) = some (m.find_left l)) ∧
    (∀ (i j : Nat) (l1 l2 : L) (r1 r2 : R), has_pair m i l1 r1 → has_pair m j l2 r2 →
      equiv m.right_tree.compare r1 r2 → i = j ∧ l1 = l2 ∧ r1 = r2) ∧
    (∀ (i j : Nat) (l1 l2 : L) (r1 r2 : R), has_pair m i l1 r1 → has_pair m j l2 r2 →
      equiv m.left_tree.compare l1 l2 → i = j ∧ l1 = l2 ∧ r1 = r2) := by
  have hi := reachable_inv m hm
  refine ⟨?_, ?_, fun i j l1 l2 r1 r2 h1 h2 hq => pair_unique_of_right m hi h1 h2 hq,
    fun i j l1 l2 r1 r2 h1 h2 hq => pair_unique_of_left m hi h1 h2 hq⟩
  · intro k i l r hp hq
    have e1 := at_left_present m hi k i l r hp hq
    have e2 := at_right_present m hi r i l r hp (equiv_refl hi.right.order r)
    refine ⟨e1, ?_, ?_⟩
    · rw [e1]
      exact e2
    · rw [find_left_present m hi k hp.1 hq,
        find_right_present m hi r hp.2 (equiv_refl hi.right.order r)]
      exact flip_left_node m hi (tree_node.mem_ids_of_mem hp.1)
  · intro k i l r hp hq
    have e1 := at_right_present m hi k i l r hp hq
    have e2 := at_left_present m hi l i l r hp (equiv_refl hi.left.order l)
    refine ⟨e1, ?_, ?_⟩
    · rw [e1]
      exact e2
    · rw [find_right_present m hi k hp.2 hq,
        find_left_present m hi l hp.1 (equiv_refl hi.left.order l)]
      exact flip_right_node m hi (tree_node.mem_ids_of_mem hp.2)

/-- C18 on the map `(1, "a")`, `(2, "b")`, `(3, "c")`: `at_left(2)` is `"b"`
and `at_right` of it is `2` again. -/
theorem C18_pairing_bijection_witness :
    abc_map.at_left 2 = Except.ok "b" ∧
    (abc_map.at_left 2).bind abc_map.at_right = Except.ok 2 :=
  have h := (C18_pairing_bijection abc_map reachable_abc_map).1 2 2 2 "b"
    ⟨by decide!, by decide!⟩ (by decide!)
  ⟨h.1, h.2.1⟩

end bimap

/-! ### The claims about `at_left_or_default` and `at_right_or_default` -/

namespace bimap
variable {L R : Type}

/-- The entries after an insert of two new keys: the old ones and the new
one, which is dereferenceable on both sides. -/
theorem insert_absent_pairs (m : bimap L R) (hi : m.inv) (l : L) (r : R)
    (hl : ∀ a ∈ m.left_seq, ¬ equiv m.left_tree.compare l a.2)
    (hr : ∀ b ∈ m.right_seq, ¬ equiv m.right_tree.compare r b.2) :
    (m.insert l r).2 = Ptr.node m.alloc ∧ (m.insert l r).1.inv ∧
    (m.insert l r).1.tree_size = m.tree_size + 1 ∧ same_frame m (m.insert l r).1 ∧
    has_pair (m.insert l r).1 m.alloc l r ∧
    (∀ k a c, has_pair (m.insert l r).1 k a c ↔
      (has_pair m k a c ∨ (k = m.alloc ∧ a = l ∧ c = r))) ∧
    (m.insert l r).1.deref_left (Ptr.node m.alloc) = some l ∧
    (m.insert l r).1.flip_left (Ptr.node m.alloc) = some (Ptr.node m.alloc) ∧
    (m.insert l r).1.deref_right (Ptr.node m.alloc) = some r := by
  obtain ⟨l1, l2, r1, r2, e1, e2, e3, e4, e5, hi1, e6, hf⟩ := insert_absent m hi l r hl hr
  have ml : (m.alloc, l) ∈ (m.insert l r).1.left_seq := by simp [e4]
  have mr : (m.alloc, r) ∈ (m.insert l r).1.right_seq := by simp [e5]
  refine ⟨e3, hi1, e6, hf, ⟨ml, mr⟩, ?_, deref_left_of_mem _ hi1 ml,
    flip_left_node _ hi1 (tree_node.mem_ids_of_mem ml), deref_right_of_mem _ hi1 mr⟩
  intro k a c
  have fl := alloc_fresh_left m
  have fr := alloc_fresh_right m
  simp only [has_pair, e1, e2, e4, e5, List.mem_append, List.mem_cons, Prod.mk.injEq]
  constructor
  · rintro ⟨h1, h2⟩
    rcases h1 with h1 | ⟨rfl, rfl⟩ | h1
    · rcases h2 with h2 | ⟨rfl, rfl⟩ | h2
      · exact Or.inl ⟨Or.inl h1, Or.inl h2⟩
      · exfalso
        apply fl
        apply tree_node.mem_ids_of_mem
        show (m.alloc, a) ∈ m.left_seq
        rw [e1]
        exact List.mem_append_left _ h1
      · exact Or.inl ⟨Or.inl h1, Or.inr h2⟩
    · rcases h2 with h2 | ⟨_, rfl⟩ | h2
      · exfalso
        apply fr
        apply tree_node.mem_ids_of_mem
        show (m.alloc, c) ∈ m.right_seq
        rw [e2]
        exact List.mem_append_left _ h2
      · exact Or.inr ⟨rfl, rfl, rfl⟩
      · exfalso
        apply fr
        apply tree_node.mem_ids_of_mem
        show (m.alloc, c) ∈ m.right_seq
        rw [e2]
        exact List.mem_append_right _ h2
    · rcases h2 with h2 | ⟨rfl, rfl⟩ | h2
      · exact Or.inl ⟨Or.inr h1, Or.inl h2⟩
      · exfalso
        apply fl
        apply tree_node.mem_ids_of_mem
        show (m.alloc, a) ∈ m.left_seq
        rw [e1]
        exact List.mem_append_right _ h1
      · exact Or.inl ⟨Or.inr h1, Or.inr h2⟩
  · rintro (⟨h1, h2⟩ | ⟨rfl, rfl, rfl⟩)
    · constructor
      · rcases h1 with h1 | h1
        · exact Or.inl h1
        · exact Or.inr (Or.inr h1)
      · rcases h2 with h2 | h2
        · exact Or.inl h2
        · exact Or.inr (Or.inr h2)
    · exact ⟨Or.inr (Or.inl ⟨rfl, rfl⟩), Or.inr (Or.inl ⟨rfl, rfl⟩)⟩

end bimap

namespace bimap
variable {L R : Type}

theorem at_left_or_default_absent [Inhabited R] (m : bimap L R) (hi : m.inv) (l : L)
    (hl : ∀ a ∈ m.left_seq, ¬ equiv m.left_tree.compare l a.2) :
    ∃ m1 n, m.at_left_or_default l = some (m1, default) ∧ has_pair m1 n l default ∧
      m1.inv ∧
      ((∀ b ∈ m.right_seq, ¬ equiv m.right_tree.compare default b.2) →
        m1.size = m.size + 1 ∧
        ∀ k a c, has_pair m1 k a c ↔ (has_pair m k a c ∨ (k = n ∧ a = l ∧ c = default))) ∧
      (∀ j l0 r0, has_pair m j l0 r0 → equiv m.right_tree.compare default r0 →
        m1.size = m.size ∧
        ∀ k a c, has_pair m1 k a c ↔
          ((has_pair m k a c ∧ k ≠ j) ∨ (k = n ∧ a = l ∧ c = default))) := by
  have efind := tree.find_absent m.left_tree hi.left l hl
  by_cases h : ∃ b ∈ m.right_seq, equiv m.right_tree.compare default b.2
  · obtain ⟨⟨j, r0⟩, hb, hq⟩ := h
    obtain ⟨l0, ha⟩ := left_of_right m hi hb
    obtain ⟨l1, l2, el⟩ := List.append_of_mem ha
    obtain ⟨r1, r2, er⟩ := List.append_of_mem hb
    obtain ⟨m0, g1, g2, g3, g4, g5, g6⟩ := remove_spec m hi j l0 r0 l1 l2 r1 r2 el er
    obtain ⟨f1, f2, f3⟩ := remove_effect m m0 hi j l0 r0 l1 l2 r1 r2 el er g2 g3 g6
    obtain ⟨a, b, c, d, e⟩ := tree.find_present m.right_tree hi.right default hb hq
    have hl0 : ∀ a ∈ m0.left_seq, ¬ equiv m0.left_tree.compare l a.2 := by
      intro a ha2
      rw [g6.2.2.1]
      apply hl
      rw [g2] at ha2
      rw [el]
      simp only [List.mem_append, List.mem_cons] at ha2 ⊢
      tauto
    have hr0 : ∀ b ∈ m0.right_seq, ¬ equiv m0.right_tree.compare default b.2 := by
      intro b hb2 hq2
      apply f2 b hb2
      rw [g6.2.2.2] at hq2 ⊢
      exact hi.right.order.equiv_trans _ _ _ (equiv_symm hq) hq2
    obtain ⟨p1, p2, p3, p4, p5, p6, p7, p8, p9⟩ := insert_absent_pairs m0 g4 l default hl0 hr0
    refine ⟨(m0.insert l default).1, m0.alloc, ?_, p5, p2, ?_, ?_⟩
    · simp only [at_left_or_default, efind, e, erase_right, g1, Option.map_some', p1, p8, p9]
    · intro hno
      exact absurd hq (hno _ hb)
    · intro j2 l2' r2' hp2 hq2
      obtain ⟨ej, _, _⟩ := pair_unique_of_right m hi hp2 ⟨ha, hb⟩
        (hi.right.order.equiv_trans _ _ _ (equiv_symm hq2) hq)
      subst ej
      refine ⟨?_, ?_⟩
      · show (m0.insert l default).1.tree_size = m.tree_size
        rw [p3]
        exact g5
      · intro k a c
        rw [p6, f3]
  · have hno := h
    simp only [not_exists, not_and] at hno
    have efr := tree.find_absent m.right_tree hi.right default hno
    obtain ⟨p1, p2, p3, p4, p5, p6, p7, p8, p9⟩ := insert_absent_pairs m hi l default hl hno
    refine ⟨(m.insert l default).1, m.alloc, ?_, p5, p2, ?_, ?_⟩
    · simp only [at_left_or_default, efind, efr, p1, p8, p9, Option.map_some']
    · intro _
      exact ⟨p3, p6⟩
    · intro j l0 r0 hp hq
      exact absurd hq (hno _ hp.2)

theorem at_right_or_default_absent [Inhabited L] (m : bimap L R) (hi : m.inv) (r : R)
    (hr : ∀ b ∈ m.right_seq, ¬ equiv m.right_tree.compare r b.2) :
    ∃ m1 n, m.at_right_or_default r = some (m1, default) ∧ has_pair m1 n default r ∧
      m1.inv ∧
      ((∀ a ∈ m.left_seq, ¬ equiv m.left_tree.compare default a.2) →
        m1.size = m.size + 1 ∧
        ∀ k a c, has_pair m1 k a c ↔ (has_pair m k a c ∨ (k = n ∧ a = default ∧ c = r))) ∧
      (∀ j l0 r0, has_pair m j l0 r0 → equiv m.left_tree.compare default l0 →
        m1.size = m.size ∧
        ∀ k a c, has_pair m1 k a c ↔
          ((has_pair m k a c ∧ k ≠ j) ∨ (k = n ∧ a = default ∧ c = r))) := by
  have efind := tree.find_absent m.right_tree hi.right r hr
  by_cases h : ∃ a ∈ m.left_seq, equiv m.left_tree.compare default a.2
  · obtain ⟨⟨j, l0⟩, ha, hq⟩ := h
    obtain ⟨r0, hb⟩ := right_of_left m hi ha
    obtain ⟨l1, l2, el⟩ := List.append_of_mem ha
    obtain ⟨r1, r2, er⟩ := List.append_of_mem hb
    obtain ⟨m0, g1, g2, g3, g4, g5, g6⟩ := remove_spec m hi j l0 r0 l1 l2 r1 r2 el er
    obtain ⟨f1, f2, f3⟩ := remove_effect m m0 hi j l0 r0 l1 l2 r1 r2 el er g2 g3 g6
    obtain ⟨a, b, c, d, e⟩ := tree.find_present m.left_tree hi.left default ha hq
    have hr0 : ∀ b ∈ m0.right_seq, ¬ equiv m0.right_tree.compare r b.2 := by
      intro b hb2
      rw [g6.2.2.2]
      apply hr
      rw [g3] at hb2
      rw [er]
      simp only [List.mem_append, List.mem_cons] at hb2 ⊢
      tauto
    have hl0 : ∀ a ∈ m0.left_seq, ¬ equiv m0.left_tree.compare default a.2 := by
      intro a ha2 hq2
      apply f1 a ha2
      rw [g6.2.2.1] at hq2 ⊢
      exact hi.left.order.equiv_trans _ _ _ (equiv_symm hq) hq2
    obtain ⟨p1, p2, p3, p4, p5, p6, p7, p8, p9⟩ := insert_absent_pairs m0 g4 default r hl0 hr0
    refine ⟨(m0.insert default r).1, m0.alloc, ?_, p5, p2, ?_, ?_⟩
    · simp only [at_right_or_default, efind, e, erase_left, g1, Option.map_some', p1, p7]
    · intro hno
      exact absurd hq (hno _ ha)
    · intro j2 l2' r2' hp2 hq2
      obtain ⟨ej, _, _⟩ := pair_unique_of_left m hi hp2 ⟨ha, hb⟩
        (hi.left.order.equiv_trans _ _ _ (equiv_symm hq2) hq)
      subst ej
      refine ⟨?_, ?_⟩
      · show (m0.insert default r).1.tree_size = m.tree_size
        rw [p3]
        exact g5
      · intro k a c
        rw [p6, f3]
  · have hno := h
    simp only [not_exists, not_and] at hno
    have efl := tree.find_absent m.left_tree hi.left default hno
    obtain ⟨p1, p2, p3, p4, p5, p6, p7, p8, p9⟩ := insert_absent_pairs m hi default r hno hr
    refine ⟨(m.insert default r).1, m.alloc, ?_, p5, p2, ?_, ?_⟩
    · simp only [at_right_or_default, efind, efl, p1, p7, Option.map_some']
    · intro _
      exact ⟨p3, p6⟩
    · intro j l0 r0 hp hq
      exact absurd hq (hno _ hp.1)

/-- C13: on a reachable map, `at_left_or_default(l)` for a left key `l` that
is absent returns the default right value `d`; afterwards `(l, d)` is an
entry.  When no right value was equivalent to `d`, the size has grown by one
and the entries are the old ones and the new one; when the entry `j` had a
right value equivalent to `d`, exactly that entry has been evicted and the
size is unchanged.  `at_right_or_default(r)` is symmetric with the default
left value. -/
theorem C13_at_or_default_absent [Inhabited L] [Inhabited R] (m : bimap L R)
    (hm : reachable m) :
    (∀ l : L, (∀ a ∈ m.left_seq, ¬ equiv m.left_tree.compare l a.2) →
      ∃ m1 n, m.at_left_or_default l = some (m1, default) ∧ has_pair m1 n l default ∧
        m1.inv ∧
        ((∀ b ∈ m.right_seq, ¬ equiv m.right_tree.compare default b.2) →
          m1.size = m.size + 1 ∧
          ∀ k a c, has_pair m1 k a c ↔ (has_pair m k a c ∨ (k = n ∧ a = l ∧ c = default))) ∧
        (∀ j l0 r0, has_pair m j l0 r0 → equiv m.right_tree.compare default r0 →
          m1.size = m.size ∧
          ∀ k a c, has_pair m1 k a c ↔
            ((has_pair m k a c ∧ k ≠ j) ∨ (k = n ∧ a = l ∧ c = default)))) ∧
    (∀ r : R, (∀ b ∈ m.right_seq, ¬ equiv m.right_tree.compare r b.2) →
      ∃ m1 n, m.at_right_or_default r = some (m1, default) ∧ has_pair m1 n default r ∧
        m1.inv ∧
        ((∀ a ∈ m.left_seq, ¬ equiv m.left_tree.compare default a.2) →
          m1.size = m.size + 1 ∧
          ∀ k a c, has_pair m1 k a c ↔ (has_pair m k a c ∨ (k = n ∧ a = default ∧ c = r))) ∧
        (∀ j l0 r0, has_pair m j l0 r0 → equiv m.left_tree.compare default l0 →
          m1.size = m.size ∧
          ∀ k a c, has_pair m1 k a c ↔
            ((has_pair m k a c ∧ k ≠ j) ∨ (k = n ∧ a = default ∧ c = r)))) :=
  ⟨at_left_or_default_absent m (reachable_inv m hm),
   at_right_or_default_absent m (reachable_inv m hm)⟩

end bimap

namespace bimap
variable {L R : Type}

/-- C13 on the `bimap<int, int>` holding `(5, 0)`: `at_left_or_default(7)`
returns the default `0`, evicts `(5, 0)` and leaves the size `1`. -/
theorem C13_at_or_default_absent_witness :
    ∃ m1, (empty_int_int.insert 5 0).1.at_left_or_default 7 = some (m1, 0) ∧ m1.size = 1 ∧
      (∀ k a c, has_pair m1 k a c → a = 7 ∧ c = 0) := by
  obtain ⟨m1, n, e, _, _, _, h2⟩ :=
    (C13_at_or_default_absent (empty_int_int.insert 5 0).1
      (reachable.insert _ 5 0 reachable_empty_int_int)).1 7 (by decide)
  obtain ⟨h3, h4⟩ := h2 1 5 0 ⟨by decide, by decide⟩ (by decide)
  refine ⟨m1, e, h3.trans (by decide), ?_⟩
  intro k a c hp
  rcases (h4 k a c).1 hp with ⟨hp0, hne⟩ | ⟨_, ha, hc⟩
  · exfalso
    have hk : (k, a) ∈ [((1 : Nat), (5 : Int))] := hp0.1
    simp only [List.mem_singleton, Prod.mk.injEq] at hk
    exact hne hk.1
  · exact ⟨ha, hc⟩

theorem at_left_or_default_present [Inhabited R] (m : bimap L R) (hi : m.inv) (k : L)
    (i : Nat) (l : L) (r : R) (hp : has_pair m i l r) (hq : equiv m.left_tree.compare k l) :
    m.at_left_or_default k = some (m, r) := by
  obtain ⟨a, b, c, d, e⟩ := tree.find_present m.left_tree hi.left k hp.1 hq
  simp only [at_left_or_default, e, tree.value_at_of_mem m.right_tree hi.right.nodup hp.2,
    Option.map_some']

theorem at_right_or_default_present [Inhabited L] (m : bimap L R) (hi : m.inv) (k : R)
    (i : Nat) (l : L) (r : R) (hp : has_pair m i l r) (hq : equiv m.right_tree.compare k r) :
    m.at_right_or_default k = some (m, l) := by
  obtain ⟨a, b, c, d, e⟩ := tree.find_present m.right_tree hi.right k hp.2 hq
  simp only [at_right_or_default, e, tree.value_at_of_mem m.left_tree hi.left.nodup hp.1,
    Option.map_some']

/-- C14: on a reachable map, for a key that is present on the queried side,
`at_left_or_default` / `at_right_or_default` returns the value paired with
that key and leaves the map as it is: nothing is evicted or inserted, so the
size and the entries are unchanged. -/
theorem C14_at_or_default_present [Inhabited L] [Inhabited R] (m : bimap L R)
    (hm : reachable m) :
    (∀ (k : L) (i : Nat) (l : L) (r : R), has_pair m i l r → equiv m.left_tree.compare k l →
      m.at_left_or_default k = some (m, r)) ∧
    (∀ (k : R) (i : Nat) (l : L) (r : R), has_pair m i l r → equiv m.right_tree.compare k r →
      m.at_right_or_default k = some (m, l)) :=
  ⟨at_left_or_default_present m (reachable_inv m hm),
   at_right_or_default_present m (reachable_inv m hm)⟩

/-- The scenario of C14: on the `bimap<int, int>` holding exactly `(0, 10)`,
`at_right_or_default(10)` returns `0`, the map is the same map, its size is
`1` and the entry for the right key `10` has the left value `0`. -/
theorem C14_at_or_default_present_witness :
    (empty_int_int.insert 0 10).1.at_right_or_default 10
      = some ((empty_int_int.insert 0 10).1, 0) ∧
    (empty_int_int.insert 0 10).1.size = 1 ∧
    (empty_int_int.insert 0 10).1.at_right 10 = Except.ok 0 :=
  ⟨(C14_at_or_default_present (empty_int_int.insert 0 10).1
      (reachable.insert _ 0 10 reachable_empty_int_int)).2 10 1 0 10
      ⟨by decide, by decide⟩ (by decide),
   by decide, rfl⟩

end bimap

/-! ### The claims about `lower_bound` and `upper_bound` -/

namespace bimap_impl

theorem strict_weak.lt_of_equiv_of_lt {α : Type} {cmp : α → α → Bool} (hw : strict_weak cmp)
    {k b c : α} (hq : equiv cmp k b) (h : cmp b c = true) : cmp k c = true := by
  cases hkc : cmp k c with
  | true => rfl
  | false =>
    exfalso
    cases hck : cmp c k with
    | true =>
      have := hw.trans _ _ _ h hck
      rw [hq.2] at this
      exact absurd this (by decide)
    | false =>
      have := hw.equiv_trans _ _ _ (equiv_symm hq) ⟨hkc, hck⟩
      rw [this.1] at h
      exact absurd h (by decide)

/-- An increasing sequence splits at a key into the values less than the key
and the values not less than it. -/
theorem sorted_split_lower {α : Type} {cmp : α → α → Bool} (hw : strict_weak cmp) (k : α)
    (S : List (Nat × α)) (hs : S.Pairwise (fun a b => cmp a.2 b.2 = true)) :
    ∃ l1 l2, S = l1 ++ l2 ∧ (∀ a ∈ l1, cmp a.2 k = true) ∧ (∀ b ∈ l2, cmp b.2 k = false) ∧
      S.dropWhile (fun a => cmp a.2 k) = l2 := by
  induction S with
  | nil => exact ⟨[], [], rfl, by simp, by simp, rfl⟩
  | cons a S ih =>
    rw [List.pairwise_cons] at hs
    cases hak : cmp a.2 k with
    | true =>
      obtain ⟨l1, l2, e, h1, h2, h3⟩ := ih hs.2
      refine ⟨a :: l1, l2, by simp [e], ?_, h2, by simp [List.dropWhile, hak, h3]⟩
      intro b hb
      rcases List.mem_cons.1 hb with rfl | hb
      · exact hak
      · exact h1 b hb
    | false =>
      refine ⟨[], a :: S, rfl, by simp, ?_, by simp [List.dropWhile, hak]⟩
      intro b hb
      rcases List.mem_cons.1 hb with rfl | hb
      · exact hak
      · cases hbk : cmp b.2 k with
        | false => rfl
        | true =>
          have := hw.trans _ _ _ (hs.1 b hb) hbk
          rw [hak] at this
          exact absurd this (by decide)

namespace tree
variable {α : Type}

/-- `lower_bound` is the position at which the sequence splits into the
values less than the key and the values not less than it. -/
theorem lower_bound_split (t : tree α) (hi : t.inv) (key : α) :
    ∃ l1 l2, t.root.inorder = l1 ++ l2 ∧ (∀ a ∈ l1, t.compare a.2 key = true) ∧
      (∀ b ∈ l2, t.compare b.2 key = false) ∧
      t.lower_bound key = head_ptr (Ptr.fake t.fake_addr) l2 := by
  obtain ⟨l1, l2, e, h1, h2, h3⟩ := sorted_split_lower hi.order key t.root.inorder hi.sorted
  refine ⟨l1, l2, e, h1, h2, ?_⟩
  rw [lower_bound, tree_node.lower_bound_spec t.compare hi.order key t.root hi.sorted, h3]

/-- `upper_bound` is the position at which the sequence splits into the
values not greater than the key and the values greater than it. -/
theorem upper_bound_split (t : tree α) (hi : t.inv) (hf : ∀ j, t.fake_right ≠ Ptr.node j)
    (key : α) :
    ∃ l1 l2, t.root.inorder = l1 ++ l2 ∧ (∀ a ∈ l1, t.compare key a.2 = false) ∧
      (∀ b ∈ l2, t.compare key b.2 = true) ∧
      t.upper_bound key = some (head_ptr (Ptr.fake t.fake_addr) l2) := by
  obtain ⟨l1, l2, e, h1, h2, h3⟩ := lower_bound_split t hi key
  have hso := hi.sorted
  simp only [tree_node.sorted, e, List.pairwise_append] at hso
  have hl1 : ∀ a ∈ l1, t.compare key a.2 = false := fun a ha => hi.order.asymm (h1 a ha)
  cases l2 with
  | nil =>
    refine ⟨l1, [], e, hl1, by simp, ?_⟩
    simp [upper_bound, h3]
  | cons b l2 =>
    have hne : t.lower_bound key ≠ Ptr.fake t.fake_addr := by
      rw [h3]
      simp
    have hv : t.value_at (t.lower_bound key) = some b.2 := by
      rw [h3]
      exact value_at_of_mem t hi.nodup (by rw [e]; simp)
    rw [List.pairwise_cons] at hso
    rw [h3] at hne hv
    cases hkb : t.compare key b.2 with
    | true =>
      refine ⟨l1, b :: l2, e, hl1, ?_, ?_⟩
      · intro c hc
        rcases List.mem_cons.1 hc with rfl | hc
        · exact hkb
        · exact hi.order.trans _ _ _ hkb (hso.2.1.1 c hc)
      · simp only [upper_bound, h3, if_pos hne, hv, hkb, Bool.not_true, Bool.false_eq_true,
          if_false]
    | false =>
      have hq : equiv t.compare key b.2 := ⟨hkb, h2 b (by simp)⟩
      refine ⟨l1 ++ [b], l2, by simp [e], ?_, ?_, ?_⟩
      · intro a ha
        rcases List.mem_append.1 ha with ha | ha
        · exact hl1 a ha
        · rw [List.mem_singleton.1 ha]
          exact hkb
      · intro c hc
        exact hi.order.lt_of_equiv_of_lt hq (hso.2.1.1 c hc)
      · have hn := next_spec t hi.nodup hi.root_parent hi.links hf l1 l2 b.1 b.2 e
        simp only [upper_bound, h3, if_pos hne, hv, hkb, Bool.not_false, if_true]
        exact hn

end tree
end bimap_impl

namespace bimap
variable {L R : Type}

/-- C12: on a reachable map `lower_bound_left(k)` is the first position whose
left value is not less than `k` (every value before it is less than `k`,
no value from it on is), and `upper_bound_left(k)` is the first position whose
left value is greater than `k` (no value before it is greater, every value
from it on is); each is `end_left()` when there is no such position.
`lower_bound_right` and `upper_bound_right` are the same with the right
comparator. -/
theorem C12_bounds [Inhabited L] [Inhabited R] (m : bimap L R) (hm : reachable m) :
    (∀ k : L, ∃ l1 l2, m.left_seq = l1 ++ l2 ∧
      (∀ a ∈ l1, m.left_tree.compare a.2 k = true) ∧
      (∀ b ∈ l2, m.left_tree.compare b.2 k = false) ∧
      m.lower_bound_left k = head_ptr m.end_left l2) ∧
    (∀ k : L, ∃ l1 l2, m.left_seq = l1 ++ l2 ∧
      (∀ a ∈ l1, m.left_tree.compare k a.2 = false) ∧
      (∀ b ∈ l2, m.left_tree.compare k b.2 = true) ∧
      m.upper_bound_left k = some (head_ptr m.end_left l2)) ∧
    (∀ k : R, ∃ r1 r2, m.right_seq = r1 ++ r2 ∧
      (∀ a ∈ r1, m.right_tree.compare a.2 k = true) ∧
      (∀ b ∈ r2, m.right_tree.compare b.2 k = false) ∧
      m.lower_bound_right k = head_ptr m.end_right r2) ∧
    (∀ k : R, ∃ r1 r2, m.right_seq = r1 ++ r2 ∧
      (∀ a ∈ r1, m.right_tree.compare k a.2 = false) ∧
      (∀ b ∈ r2, m.right_tree.compare k b.2 = true) ∧
      m.upper_bound_right k = some (head_ptr m.end_right r2)) := by
  have hi := reachable_inv m hm
  exact ⟨fun k => tree.lower_bound_split m.left_tree hi.left k,
    fun k => tree.upper_bound_split m.left_tree hi.left (link_not_node_left m hi) k,
    fun k => tree.lower_bound_split m.right_tree hi.right k,
    fun k => tree.upper_bound_split m.right_tree hi.right (link_not_node_right m hi) k⟩

/-- C12 on the map `(1, "a")`, `(2, "b")`, `(3, "c")`: `lower_bound_left(2)` is
the position of `2`, `upper_bound_left(2)` the position of `3`, and both are
`end_left()` for the key `4`. -/
theorem C12_bounds_witness :
    (∃ l1 l2, abc_map.left_seq = l1 ++ l2 ∧
      (∀ a ∈ l1, abc_map.left_tree.compare 2 a.2 = false) ∧
      (∀ b ∈ l2, abc_map.left_tree.compare 2 b.2 = true) ∧
      abc_map.upper_bound_left 2 = some (head_ptr abc_map.end_left l2)) ∧
    abc_map.lower_bound_left 2 = Ptr.node 2 ∧ abc_map.upper_bound_left 2 = some (Ptr.node 3) ∧
    abc_map.lower_bound_left 4 = abc_map.end_left ∧
    abc_map.upper_bound_left 4 = some abc_map.end_left :=
  ⟨(C12_bounds abc_map reachable_abc_map).2.1 2, by decide!, by decide!, by decide!,
    by decide!⟩

end bimap

/-! ### The in-order predecessor through parent links -/

namespace bimap_impl

@[simp] theorem last_ptr_nil {α : Type} (up : Ptr) : last_ptr up ([] : List (Nat × α)) = up := rfl

theorem last_ptr_append_cons {α : Type} (up : Ptr) (l1 l2 : List (Nat × α)) (a : Nat × α) :
    last_ptr up (l1 ++ a :: l2) = last_ptr (Ptr.node a.1) l2 := by
  simp only [last_ptr, List.getLast?_append_cons, List.getLast?_cons]
  cases l2.getLast? <;> rfl

theorem last_ptr_concat {α : Type} (up : Ptr) (l1 : List (Nat × α)) (a : Nat × α) :
    last_ptr up (l1 ++ [a]) = Ptr.node a.1 := by
  rw [last_ptr_append_cons]
  rfl

namespace tree_node
variable {α : Type}

theorem get_max_ptr (l r : tree_node α) (p : Ptr) (h i : Nat) (v : α) (up : Ptr) :
    (get_max (node l r p h i v)).ptr = last_ptr up (node l r p h i v).inorder := by
  induction r generalizing l p h i v with
  | nil =>
    simp only [get_max, ptr_node, inorder_node, inorder_nil]
    rw [last_ptr_append_cons]
    rfl
  | node rl rr rp rh ri rv _ ihr =>
    simp only [get_max]
    rw [ihr rl rp rh ri rv, inorder_node l, last_ptr_append_cons]
    have e : (node rl rr rp rh ri rv).inorder = rl.inorder ++ (ri, rv) :: rr.inorder := rfl
    rw [e, last_ptr_append_cons, last_ptr_append_cons]

end tree_node

namespace tree
variable {α : Type}

theorem prev_up_succ (t : tree α) (k : Nat) (point parent : Ptr) (pn : tree_base_node)
    (hp : parent ≠ Ptr.null) (hd : t.deref parent = some pn) :
    prev_up t (k + 1) point parent =
      if point = pn.left then prev_up t k parent pn.parent else some parent := by
  simp [prev_up, hp, hd]

open tree_node in
theorem prev_up_spec (t : tree α) (hn : t.root.ids.Nodup) (s : tree_node α) :
    ∀ (q up : Ptr) (n : Nat), subtree s t.root → s.parent_is q → s.links_ok →
      (∀ k, n ≤ k → s ≠ nil → prev_up t k s.ptr q = some up) →
      ∀ l1 x xv l2, s.inorder = l1 ++ (x, xv) :: l2 →
        ∀ xl xr xp xh, lookup x t.root = node xl xr xp xh x xv →
          (xl ≠ nil → (get_max xl).ptr = last_ptr up l1) ∧
          (xl = nil → ∀ k, n + s.size ≤ k + 1 →
            prev_up t k (Ptr.node x) xp = some (last_ptr up l1)) := by
  induction s with
  | nil =>
    intro q up n _ _ _ _ l1 x xv l2 hdec
    simp at hdec
  | node l r p h i v ihl ihr =>
    intro q up n hsub hp hl hA l1 x xv l2 hdec xl xr xp xh hlook
    have hself : lookup i t.root = node l r p h i v := lookup_subtree hn _ _ _ _ _ _ hsub
    have dself := deref_node t i l r p h v hself
    simp only [parent_is_node] at hp
    subst hp
    simp only [links_ok_node] at hl
    obtain ⟨pl, pr, ll, lr⟩ := hl
    have hnd := subtree_nodup hsub hn
    simp only [ids_node, List.nodup_append, List.nodup_cons] at hnd
    obtain ⟨n1, ⟨n2, n3⟩, n4⟩ := hnd
    have hAr : ∀ k, 1 ≤ k → r ≠ nil → prev_up t k r.ptr (Ptr.node i) = some (Ptr.node i) := by
      intro k hk hne
      obtain ⟨k', rfl⟩ : ∃ k', k = k' + 1 := ⟨k - 1, by omega⟩
      rw [prev_up_succ t k' _ _ _ (by simp) dself]
      cases r with
      | nil => exact absurd rfl hne
      | node a b c d e f =>
        cases l with
        | nil => simp
        | node a' b' c' d' e' f' =>
          have : e ≠ e' := by
            intro he
            subst he
            exact @n4 e (by simp) (by simp)
          simp [this]
    have hAl : ∀ k, n + 1 ≤ k → l ≠ nil → prev_up t k l.ptr (Ptr.node i) = some up := by
      intro k hk hne
      obtain ⟨k', rfl⟩ : ∃ k', k = k' + 1 := ⟨k - 1, by omega⟩
      rw [prev_up_succ t k' _ _ _ (by simp) dself]
      simp only [if_true]
      exact hA k' (by omega) (by simp)
    rw [inorder_node] at hdec
    rcases append_cons_split hdec with ⟨tl, e1, e2⟩ | ⟨e1, e2, e3⟩ | ⟨tl, e1, e2⟩
    · obtain ⟨g1, g2⟩ := ihl (Ptr.node i) up (n + 1) (subtree_left_of hsub) pl ll hAl
        l1 x xv tl e1 xl xr xp xh hlook
      refine ⟨g1, fun hx k hk => g2 hx k ?_⟩
      simp only [size_node] at hk
      omega
    · cases e2
      rw [hself] at hlook
      cases hlook
      subst e1
      constructor
      · intro hx
        cases l with
        | nil => exact absurd rfl hx
        | node a b c d e f => exact get_max_ptr _ _ _ _ _ _ _
      · intro hx k hk
        subst hx
        simp only [inorder_nil, last_ptr_nil]
        simp only [size_node] at hk
        exact hA k (by omega) (by simp)
    · obtain ⟨g1, g2⟩ := ihr (Ptr.node i) (Ptr.node i) 1 (subtree_right_of hsub) pr lr hAr
        tl x xv l2 e1 xl xr xp xh hlook
      rw [e2, last_ptr_append_cons]
      refine ⟨g1, fun hx k hk => g2 hx k ?_⟩
      simp only [size_node] at hk
      omega

open tree_node in
/-- `tree::prev` at a node returns its in-order predecessor, and `nullptr`
at the first node. -/
theorem prev_spec (t : tree α) (hn : t.root.ids.Nodup)
    (hp : t.root.parent_is (Ptr.fake t.fake_addr)) (hl : t.root.links_ok)
    (l1 l2 : List (Nat × α)) (x : Nat) (xv : α) (hdec : t.root.inorder = l1 ++ (x, xv) :: l2) :
    t.prev (Ptr.node x) = some (last_ptr Ptr.null l1) := by
  have hm : (x, xv) ∈ t.root.inorder := by simp [hdec]
  obtain ⟨xl, xr, xp, xh, hlook⟩ := lookup_of_mem hn hm
  have hA : ∀ k, 2 ≤ k → t.root ≠ nil →
      prev_up t k t.root.ptr (Ptr.fake t.fake_addr) = some Ptr.null := by
    intro k hk hne
    obtain ⟨k', rfl⟩ : ∃ k', k = k' + 2 := ⟨k - 2, by omega⟩
    rw [prev_up_succ t (k' + 1) _ _ _ (by simp) (deref_fake t)]
    simp [prev_up]
  obtain ⟨g1, g2⟩ := prev_up_spec t hn t.root (Ptr.fake t.fake_addr) Ptr.null 2
    subtree.refl hp hl hA l1 x xv l2 hdec xl xr xp xh hlook
  simp only [prev, hlook]
  cases xl with
  | nil => exact g2 rfl _ (by omega)
  | node a b c d e f => simpa using g1 (by simp)

/-- `tree::prev` at the sentinel returns the last node, and `nullptr` for an
empty tree. -/
theorem prev_end (t : tree α) :
    t.prev (Ptr.fake t.fake_addr) = some (last_ptr Ptr.null t.root.inorder) := by
  simp only [prev, if_true]
  cases hr : t.root with
  | nil => rfl
  | node l r p h i v =>
    simp only [tree_node.get_max_ptr l r p h i v Ptr.null]

end tree
end bimap_impl

/-! ### The claims about iteration -/

namespace bimap
variable {L R : Type}

theorem next_left_spec (m : bimap L R) (hi : m.inv) (l1 l2 : List (Nat × L)) (x : Nat) (v : L)
    (h : m.left_seq = l1 ++ (x, v) :: l2) :
    m.next_left (Ptr.node x) = some (head_ptr m.end_left l2) :=
  tree.next_spec m.left_tree hi.left.nodup hi.left.root_parent hi.left.links
    (link_not_node_left m hi) l1 l2 x v h

theorem next_right_spec (m : bimap L R) (hi : m.inv) (r1 r2 : List (Nat × R)) (x : Nat) (v : R)
    (h : m.right_seq = r1 ++ (x, v) :: r2) :
    m.next_right (Ptr.node x) = some (head_ptr m.end_right r2) :=
  tree.next_spec m.right_tree hi.right.nodup hi.right.root_parent hi.right.links
    (link_not_node_right m hi) r1 r2 x v h

theorem prev_left_spec (m : bimap L R) (hi : m.inv) (l1 l2 : List (Nat × L)) (x : Nat) (v : L)
    (h : m.left_seq = l1 ++ (x, v) :: l2) :
    m.prev_left (Ptr.node x) = some (last_ptr Ptr.null l1) :=
  tree.prev_spec m.left_tree hi.left.nodup hi.left.root_parent hi.left.links l1 l2 x v h

theorem prev_right_spec (m : bimap L R) (hi : m.inv) (r1 r2 : List (Nat × R)) (x : Nat) (v : R)
    (h : m.right_seq = r1 ++ (x, v) :: r2) :
    m.prev_right (Ptr.node x) = some (last_ptr Ptr.null r1) :=
  tree.prev_spec m.right_tree hi.right.nodup hi.right.root_parent hi.right.links r1 r2 x v h

theorem prev_left_end (m : bimap L R) :
    m.prev_left m.end_left = some (last_ptr Ptr.null m.left_seq) :=
  tree.prev_end m.left_tree

theorem prev_right_end (m : bimap L R) :
    m.prev_right m.end_right = some (last_ptr Ptr.null m.right_seq) :=
  tree.prev_end m.right_tree

theorem walk_left_spec (m : bimap L R) (hi : m.inv) (l2 : List (Nat × L)) :
    ∀ l1, m.left_seq = l1 ++ l2 →
      m.walk_left l2.length (head_ptr m.end_left l2)
        = some (l2.map (fun a => Ptr.node a.1), m.end_left) := by
  induction l2 with
  | nil =>
    intro l1 _
    rfl
  | cons a l2 ih =>
    intro l1 h
    have hn := next_left_spec m hi l1 l2 a.1 a.2 h
    have h2 : m.left_seq = (l1 ++ [a]) ++ l2 := by simp [h]
    simp only [List.length_cons, walk_left, head_ptr_cons, hn, ih _ h2, List.map_cons]

theorem walk_right_spec (m : bimap L R) (hi : m.inv) (r2 : List (Nat × R)) :
    ∀ r1, m.right_seq = r1 ++ r2 →
      m.walk_right r2.length (head_ptr m.end_right r2)
        = some (r2.map (fun a => Ptr.node a.1), m.end_right) := by
  induction r2 with
  | nil =>
    intro r1 _
    rfl
  | cons a r2 ih =>
    intro r1 h
    have hn := next_right_spec m hi r1 r2 a.1 a.2 h
    have h2 : m.right_seq = (r1 ++ [a]) ++ r2 := by simp [h]
    simp only [List.length_cons, walk_right, head_ptr_cons, hn, ih _ h2, List.map_cons]

theorem size_eq_left_length (m : bimap L R) (hi : m.inv) : m.size = m.left_seq.length := by
  show m.tree_size = m.left_tree.root.inorder.length
  rw [← hi.size_left, tree_node.size_eq_length]

theorem size_eq_right_length (m : bimap L R) (hi : m.inv) : m.size = m.right_seq.length := by
  show m.tree_size = m.right_tree.root.inorder.length
  rw [← hi.size_right, tree_node.size_eq_length]

theorem prev_next_left (m : bimap L R) (hi : m.inv) (it : Ptr)
    (h : (m.deref_left it).isSome = true) :
    ∃ nx, m.next_left it = some nx ∧ m.prev_left nx = some it := by
  obtain ⟨v, hv⟩ := Option.isSome_iff_exists.1 h
  obtain ⟨i, rfl, ha⟩ := tree.mem_of_value_at m.left_tree hv
  obtain ⟨l1, l2, e⟩ := List.append_of_mem ha
  refine ⟨_, next_left_spec m hi l1 l2 i v e, ?_⟩
  cases l2 with
  | nil =>
    simp only [head_ptr_nil]
    rw [prev_left_end, show m.left_seq = l1 ++ [(i, v)] from e, last_ptr_concat]
  | cons b l2 =>
    have e2 : m.left_seq = (l1 ++ [(i, v)]) ++ (b.1, b.2) :: l2 := by
      simp only [List.append_assoc, List.singleton_append]
      exact e
    rw [head_ptr_cons, prev_left_spec m hi _ l2 b.1 b.2 e2, last_ptr_concat]

theorem prev_next_right (m : bimap L R) (hi : m.inv) (it : Ptr)
    (h : (m.deref_right it).isSome = true) :
    ∃ nx, m.next_right it = some nx ∧ m.prev_right nx = some it := by
  obtain ⟨v, hv⟩ := Option.isSome_iff_exists.1 h
  obtain ⟨i, rfl, ha⟩ := tree.mem_of_value_at m.right_tree hv
  obtain ⟨r1, r2, e⟩ := List.append_of_mem ha
  refine ⟨_, next_right_spec m hi r1 r2 i v e, ?_⟩
  cases r2 with
  | nil =>
    simp only [head_ptr_nil]
    rw [prev_right_end, show m.right_seq = r1 ++ [(i, v)] from e, last_ptr_concat]
  | cons b r2 =>
    have e2 : m.right_seq = (r1 ++ [(i, v)]) ++ (b.1, b.2) :: r2 := by
      simp only [List.append_assoc, List.singleton_append]
      exact e
    rw [head_ptr_cons, prev_right_spec m hi _ r2 b.1 b.2 e2, last_ptr_concat]

theorem head_ptr_eq_end_iff (m : bimap L R) (S : List (Nat × L)) :
    head_ptr m.end_left S = m.end_left ↔ S = [] := by
  cases S with
  | nil => simp
  | cons a S => simp [end_left, tree.get_end]

theorem head_ptr_eq_end_right_iff (m : bimap L R) (S : List (Nat × R)) :
    head_ptr m.end_right S = m.end_right ↔ S = [] := by
  cases S with
  | nil => simp
  | cons a S => simp [end_right, tree.get_end]

/-- C11: on a reachable map of size `n`, `begin_left()` is the first position
of the left sequence (the minimum, as the sequence is strictly increasing)
and is `end_left()` exactly when `n == 0`; applying `++` `n` times from
`begin_left()` passes the positions of the left sequence in order, each entry
once, and arrives at `end_left()`; `--` at `end_left()` is the last position,
whose `++` is `end_left()`; and `--(++it) == it` for every dereferenceable
`it`.  The same holds on the right side. -/
theorem C11_iteration [Inhabited L] [Inhabited R] (m : bimap L R) (hm : reachable m) :
    (m.begin_left = head_ptr m.end_left m.left_seq ∧
      (m.begin_left = m.end_left ↔ m.size = 0) ∧
      m.walk_left m.size m.begin_left
        = some (m.left_seq.map (fun a => Ptr.node a.1), m.end_left) ∧
      m.left_seq.Pairwise (fun a b => m.left_tree.compare a.2 b.2 = true) ∧
      (m.left_seq.map (fun a => Ptr.node a.1)).Nodup ∧
      (∀ a ∈ m.left_seq, m.deref_left (Ptr.node a.1) = some a.2) ∧
      (∀ pre i v, m.left_seq = pre ++ [(i, v)] →
        m.prev_left m.end_left = some (Ptr.node i) ∧
        m.next_left (Ptr.node i) = some m.end_left) ∧
      (∀ it, (m.deref_left it).isSome = true →
        ∃ nx, m.next_left it = some nx ∧ m.prev_left nx = some it)) ∧
    (m.begin_right = head_ptr m.end_right m.right_seq ∧
      (m.begin_right = m.end_right ↔ m.size = 0) ∧
      m.walk_right m.size m.begin_right
        = some (m.right_seq.map (fun a => Ptr.node a.1), m.end_right) ∧
      m.right_seq.Pairwise (fun a b => m.right_tree.compare a.2 b.2 = true) ∧
      (m.right_seq.map (fun a => Ptr.node a.1)).Nodup ∧
      (∀ a ∈ m.right_seq, m.deref_right (Ptr.node a.1) = some a.2) ∧
      (∀ pre i v, m.right_seq = pre ++ [(i, v)] →
        m.prev_right m.end_right = some (Ptr.node i) ∧
        m.next_right (Ptr.node i) = some m.end_right) ∧
      (∀ it, (m.deref_right it).isSome = true →
        ∃ nx, m.next_right it = some nx ∧ m.prev_right nx = some it)) := by
  have hi := reachable_inv m hm
  have hnodup : ∀ {α : Type} (S : List (Nat × α)), (S.map Prod.fst).Nodup →
      (S.map (fun a => Ptr.node a.1)).Nodup := by
    intro α S h
    have : S.map (fun a => Ptr.node a.1) = (S.map Prod.fst).map Ptr.node := by
      simp [List.map_map, Function.comp_def]
    rw [this]
    exact h.map (fun a b hab => by cases hab; rfl)
  refine ⟨⟨begin_left_eq m, ?_, ?_, hi.left.sorted, hnodup _ hi.left.nodup, ?_, ?_,
    prev_next_left m hi⟩, ⟨begin_right_eq m, ?_, ?_, hi.right.sorted, hnodup _ hi.right.nodup,
    ?_, ?_, prev_next_right m hi⟩⟩
  · rw [begin_left_eq, head_ptr_eq_end_iff, size_eq_left_length m hi, List.length_eq_zero]
  · rw [begin_left_eq, size_eq_left_length m hi]
    exact walk_left_spec m hi m.left_seq [] rfl
  · intro a ha
    exact deref_left_of_mem m hi ha
  · intro pre i v e
    refine ⟨?_, ?_⟩
    · rw [prev_left_end, e, last_ptr_concat]
    · exact next_left_spec m hi pre [] i v e
  · rw [begin_right_eq, head_ptr_eq_end_right_iff, size_eq_right_length m hi,
      List.length_eq_zero]
  · rw [begin_right_eq, size_eq_right_length m hi]
    exact walk_right_spec m hi m.right_seq [] rfl
  · intro a ha
    exact deref_right_of_mem m hi ha
  · intro pre i v e
    refine ⟨?_, ?_⟩
    · rw [prev_right_end, e, last_ptr_concat]
    · exact next_right_spec m hi pre [] i v e

/-- C11 on the map `(1, "a")`, `(2, "b")`, `(3, "c")`: three `++` from
`begin_left()` pass the positions of `1`, `2`, `3` and reach `end_left()`, and
`--` at `end_left()` is the position of `3`. -/
theorem C11_iteration_witness :
    abc_map.walk_left 3 abc_map.begin_left
      = some ([Ptr.node 1, Ptr.node 2, Ptr.node 3], abc_map.end_left) ∧
    abc_map.prev_left abc_map.end_left = some (Ptr.node 3) ∧
    abc_map.begin_left = Ptr.node 1 := by
  have h := (C11_iteration abc_map reachable_abc_map).1
  have hseq : abc_map.left_seq = [(1, 1), (2, 2), (3, 3)] := by decide!
  have hsize : abc_map.size = 3 := by decide!
  refine ⟨?_, ?_, ?_⟩
  · have h3 := h.2.2.1
    rw [hsize, hseq] at h3
    exact h3
  · exact (h.2.2.2.2.2.2.1 [(1, 1), (2, 2)] 3 3 hseq).1
  · rw [h.1, hseq]
    rfl

end bimap

/-! ### The claims about erasing a range -/

namespace bimap
variable {L R : Type}

theorem next_left_some (m : bimap L R) (it nx : Ptr) (h : m.next_left it = some nx) :
    ∃ x v, it = Ptr.node x ∧ (x, v) ∈ m.left_seq := by
  cases it with
  | null => simp [next_left, tree.next] at h
  | fake a => simp [next_left, tree.next] at h
  | node x =>
    cases hl : tree_node.lookup x m.left_tree.root with
    | nil => simp [next_left, tree.next, hl] at h
    | node a b c d e f => exact ⟨x, f, rfl, (tree_node.mem_of_lookup hl).2⟩

theorem walk_left_mid (m : bimap L R) (hi : m.inv) (mid : List (Nat × L)) :
    ∀ l1 l2, m.left_seq = l1 ++ mid ++ l2 →
      m.walk_left mid.length (head_ptr m.end_left (mid ++ l2))
        = some (mid.map (fun a => Ptr.node a.1), head_ptr m.end_left l2) := by
  induction mid with
  | nil =>
    intro l1 l2 _
    rfl
  | cons a mid ih =>
    intro l1 l2 h
    have h1 : m.left_seq = l1 ++ (a.1, a.2) :: (mid ++ l2) := by simp [h]
    have hn := next_left_spec m hi l1 (mid ++ l2) a.1 a.2 h1
    have h2 : m.left_seq = (l1 ++ [a]) ++ mid ++ l2 := by simp [h]
    simp only [List.length_cons, walk_left, List.cons_append, head_ptr_cons, hn, ih _ _ h2,
      List.map_cons]

theorem walk_left_too_far (m : bimap L R) (hi : m.inv) (S : List (Nat × L)) :
    ∀ l1 j, m.left_seq = l1 ++ S → m.walk_left (S.length + 1 + j) (head_ptr m.end_left S) = none := by
  induction S with
  | nil =>
    intro l1 j _
    have : ([] : List (Nat × L)).length + 1 + j = j + 1 := by simp; omega
    rw [this]
    simp [walk_left, next_left, tree.next, end_left, tree.get_end]
  | cons a S ih =>
    intro l1 j h
    have h1 : m.left_seq = l1 ++ (a.1, a.2) :: S := h
    have hn := next_left_spec m hi l1 S a.1 a.2 h1
    have h2 : m.left_seq = (l1 ++ [a]) ++ S := by simp [h]
    have : (a :: S).length + 1 + j = (S.length + 1 + j) + 1 := by simp; omega
    rw [this]
    simp only [walk_left, head_ptr_cons, hn, ih _ j h2]

theorem walk_left_decompose (m : bimap L R) (hi : m.inv) (n : Nat) (first last : Ptr)
    (seen : List Ptr) (h : m.walk_left (n + 1) first = some (seen, last)) :
    ∃ l1 mid l2, m.left_seq = l1 ++ mid ++ l2 ∧ first = head_ptr m.end_left (mid ++ l2) ∧
      last = head_ptr m.end_left l2 ∧ seen = mid.map (fun a => Ptr.node a.1) ∧
      mid.length = n + 1 := by
  cases hn : m.next_left first with
  | none => simp [walk_left, hn] at h
  | some nx =>
    obtain ⟨x, v, rfl, hm⟩ := next_left_some m first nx hn
    obtain ⟨l1, S, e⟩ := List.append_of_mem hm
    by_cases hlen : n + 1 ≤ ((x, v) :: S).length
    · have e2 : m.left_seq = l1 ++ ((x, v) :: S).take (n + 1) ++ ((x, v) :: S).drop (n + 1) := by
        rw [List.append_assoc, List.take_append_drop]
        exact e
      have hw := walk_left_mid m hi (((x, v) :: S).take (n + 1)) l1
        (((x, v) :: S).drop (n + 1)) e2
      rw [List.take_append_drop, List.length_take, Nat.min_eq_left hlen] at hw
      rw [show head_ptr m.end_left ((x, v) :: S) = Ptr.node x from rfl, h] at hw
      simp only [Option.some.injEq, Prod.mk.injEq] at hw
      refine ⟨l1, ((x, v) :: S).take (n + 1), ((x, v) :: S).drop (n + 1), e2, ?_, hw.2, hw.1, ?_⟩
      · rw [List.take_append_drop]
        rfl
      · rw [List.length_take, Nat.min_eq_left hlen]
    · exfalso
      have hfar := walk_left_too_far m hi ((x, v) :: S) l1 (n + 1 - (((x, v) :: S).length + 1)) e
      have : ((x, v) :: S).length + 1 + (n + 1 - (((x, v) :: S).length + 1)) = n + 1 := by omega
      rw [this, show head_ptr m.end_left ((x, v) :: S) = Ptr.node x from rfl, h] at hfar
      exact absurd hfar (by simp)

/-- The loop of `erase_left(first, last)` over the part `mid` of the left
sequence. -/
theorem erase_left_loop_spec (mid : List (Nat × L)) :
    ∀ (m : bimap L R) (fuel : Nat) (l1 l2 : List (Nat × L)), m.inv →
      m.left_seq = l1 ++ mid ++ l2 → mid.length + 1 ≤ fuel →
      ∃ m1, erase_left_loop fuel m (head_ptr m.end_left (mid ++ l2))
          (head_ptr m.end_left (mid ++ l2)) (head_ptr m.end_left l2)
          = some (m1, head_ptr m.end_left l2) ∧
        m1.inv ∧ same_frame m m1 ∧ m1.left_seq = l1 ++ l2 ∧
        m1.size + mid.length = m.size ∧
        (∀ k a c, has_pair m1 k a c ↔ (has_pair m k a c ∧ k ∉ mid.map Prod.fst)) := by
  induction mid with
  | nil =>
    intro m fuel l1 l2 hi h hf
    obtain ⟨f, rfl⟩ : ∃ f, fuel = f + 1 := ⟨fuel - 1, by simp at hf; omega⟩
    refine ⟨m, ?_, hi, same_frame_refl m, by simpa using h, by simp, by simp⟩
    simp [erase_left_loop]
  | cons a mid ih =>
    intro m fuel l1 l2 hi h hf
    obtain ⟨f, rfl⟩ : ∃ f, fuel = f + 1 := ⟨fuel - 1, by simp at hf; omega⟩
    have h1 : m.left_seq = l1 ++ (a.1, a.2) :: (mid ++ l2) := by simp [h]
    have hma : (a.1, a.2) ∈ m.left_seq := by rw [h1]; simp
    obtain ⟨r, hb⟩ := right_of_left m hi hma
    obtain ⟨r1, r2, er⟩ := List.append_of_mem hb
    obtain ⟨m0, g1, g2, g3, g4, g5, g6⟩ :=
      remove_spec m hi a.1 a.2 r l1 (mid ++ l2) r1 r2 h1 er
    obtain ⟨f1, f2, f3⟩ :=
      remove_effect m m0 hi a.1 a.2 r l1 (mid ++ l2) r1 r2 h1 er g2 g3 g6
    have hn := next_left_spec m hi l1 (mid ++ l2) a.1 a.2 h1
    have hend : m0.end_left = m.end_left := end_left_same_frame g6
    have hne : head_ptr m.end_left ((a :: mid) ++ l2) ≠ head_ptr m.end_left l2 := by
      have hnd := hi.left.nodup
      have e0 : m.left_tree.root.inorder = l1 ++ (a.1, a.2) :: (mid ++ l2) := h1
      simp only [tree_node.ids, e0, List.map_append, List.map_cons, List.nodup_append,
        List.nodup_cons, List.mem_append, not_or] at hnd
      cases l2 with
      | nil => simp [end_left, tree.get_end]
      | cons b l2 =>
        simp only [List.cons_append, head_ptr_cons, ne_eq, Ptr.node.injEq]
        intro hab
        apply hnd.2.1.1.2
        rw [hab]
        simp
    obtain ⟨m1, k1, k2, k3, k4, k5, k6⟩ := ih m0 f l1 l2 g4 (by simpa using g2)
      (by simp at hf; omega)
    rw [hend] at k1
    refine ⟨m1, ?_, k2, same_frame_trans g6 k3, k4, ?_, ?_⟩
    · rw [erase_left_loop, if_neg hne]
      simp only [List.cons_append, head_ptr_cons, hn, erase_left, g1]
      exact k1
    · have : m1.size + mid.length = m0.size := k5
      have g5' : m0.size + 1 = m.size := g5
      simp only [List.length_cons]
      omega
    · intro k x c
      rw [k6, f3]
      simp only [List.map_cons, List.mem_cons, not_or]
      tauto

theorem next_right_some (m : bimap L R) (it nx : Ptr) (h : m.next_right it = some nx) :
    ∃ x v, it = Ptr.node x ∧ (x, v) ∈ m.right_seq := by
  cases it with
  | null => simp [next_right, tree.next] at h
  | fake a => simp [next_right, tree.next] at h
  | node x =>
    cases hl : tree_node.lookup x m.right_tree.root with
    | nil => simp [next_right, tree.next, hl] at h
    | node a b c d e f => exact ⟨x, f, rfl, (tree_node.mem_of_lookup hl).2⟩

theorem walk_right_mid (m : bimap L R) (hi : m.inv) (mid : List (Nat × R)) :
    ∀ l1 l2, m.right_seq = l1 ++ mid ++ l2 →
      m.walk_right mid.length (head_ptr m.end_right (mid ++ l2))
        = some (mid.map (fun a => Ptr.node a.1), head_ptr m.end_right l2) := by
  induction mid with
  | nil =>
    intro l1 l2 _
    rfl
  | cons a mid ih =>
    intro l1 l2 h
    have h1 : m.right_seq = l1 ++ (a.1, a.2) :: (mid ++ l2) := by simp [h]
    have hn := next_right_spec m hi l1 (mid ++ l2) a.1 a.2 h1
    have h2 : m.right_seq = (l1 ++ [a]) ++ mid ++ l2 := by simp [h]
    simp only [List.length_cons, walk_right, List.cons_append, head_ptr_cons, hn, ih _ _ h2,
      List.map_cons]

theorem walk_right_too_far (m : bimap L R) (hi : m.inv) (S : List (Nat × R)) :
    ∀ l1 j, m.right_seq = l1 ++ S → m.walk_right (S.length + 1 + j) (head_ptr m.end_right S) = none := by
  induction S with
  | nil =>
    intro l1 j _
    have : ([] : List (Nat × R)).length + 1 + j = j + 1 := by simp; omega
    rw [this]
    simp [walk_right, next_right, tree.next, end_right, tree.get_end]
  | cons a S ih =>
    intro l1 j h
    have h1 : m.right_seq = l1 ++ (a.1, a.2) :: S := h
    have hn := next_right_spec m hi l1 S a.1 a.2 h1
    have h2 : m.right_seq = (l1 ++ [a]) ++ S := by simp [h]
    have : (a :: S).length + 1 + j = (S.length + 1 + j) + 1 := by simp; omega
    rw [this]
    simp only [walk_right, head_ptr_cons, hn, ih _ j h2]

theorem walk_right_decompose (m : bimap L R) (hi : m.inv) (n : Nat) (first last : Ptr)
    (seen : List Ptr) (h : m.walk_right (n + 1) first = some (seen, last)) :
    ∃ l1 mid l2, m.right_seq = l1 ++ mid ++ l2 ∧ first = head_ptr m.end_right (mid ++ l2) ∧
      last = head_ptr m.end_right l2 ∧ seen = mid.map (fun a => Ptr.node a.1) ∧
      mid.length = n + 1 := by
  cases hn : m.next_right first with
  | none => simp [walk_right, hn] at h
  | some nx =>
    obtain ⟨x, v, rfl, hm⟩ := next_right_some m first nx hn
    obtain ⟨l1, S, e⟩ := List.append_of_mem hm
    by_cases hlen : n + 1 ≤ ((x, v) :: S).length
    · have e2 : m.right_seq = l1 ++ ((x, v) :: S).take (n + 1) ++ ((x, v) :: S).drop (n + 1) := by
        rw [List.append_assoc, List.take_append_drop]
        exact e
      have hw := walk_right_mid m hi (((x, v) :: S).take (n + 1)) l1
        (((x, v) :: S).drop (n + 1)) e2
      rw [List.take_append_drop, List.length_take, Nat.min_eq_left hlen] at hw
      rw [show head_ptr m.end_right ((x, v) :: S) = Ptr.node x from rfl, h] at hw
      simp only [Option.some.injEq, Prod.mk.injEq] at hw
      refine ⟨l1, ((x, v) :: S).take (n + 1), ((x, v) :: S).drop (n + 1), e2, ?_, hw.2, hw.1, ?_⟩
      · rw [List.take_append_drop]
        rfl
      · rw [List.length_take, Nat.min_eq_left hlen]
    · exfalso
      have hfar := walk_right_too_far m hi ((x, v) :: S) l1 (n + 1 - (((x, v) :: S).length + 1)) e
      have : ((x, v) :: S).length + 1 + (n + 1 - (((x, v) :: S).length + 1)) = n + 1 := by omega
      rw [this, show head_ptr m.end_right ((x, v) :: S) = Ptr.node x from rfl, h] at hfar
      exact absurd hfar (by simp)

/-- The loop of `erase_right(first, last)` over the part `mid` of the right
sequence. -/
theorem erase_right_loop_spec (mid : List (Nat × R)) :
    ∀ (m : bimap L R) (fuel : Nat) (l1 l2 : List (Nat × R)), m.inv →
      m.right_seq = l1 ++ mid ++ l2 → mid.length + 1 ≤ fuel →
      ∃ m1, erase_right_loop fuel m (head_ptr m.end_right (mid ++ l2))
          (head_ptr m.end_right (mid ++ l2)) (head_ptr m.end_right l2)
          = some (m1, head_ptr m.end_right l2) ∧
        m1.inv ∧ same_frame m m1 ∧ m1.right_seq = l1 ++ l2 ∧
        m1.size + mid.length = m.size ∧
        (∀ k a c, has_pair m1 k a c ↔ (has_pair m k a c ∧ k ∉ mid.map Prod.fst)) := by
  induction mid with
  | nil =>
    intro m fuel l1 l2 hi h hf
    obtain ⟨f, rfl⟩ : ∃ f, fuel = f + 1 := ⟨fuel - 1, by simp at hf; omega⟩
    refine ⟨m, ?_, hi, same_frame_refl m, by simpa using h, by simp, by simp⟩
    simp [erase_right_loop]
  | cons a mid ih =>
    intro m fuel l1 l2 hi h hf
    obtain ⟨f, rfl⟩ : ∃ f, fuel = f + 1 := ⟨fuel - 1, by simp at hf; omega⟩
    have h1 : m.right_seq = l1 ++ (a.1, a.2) :: (mid ++ l2) := by simp [h]
    have hma : (a.1, a.2) ∈ m.right_seq := by rw [h1]; simp
    obtain ⟨r, hb⟩ := left_of_right m hi hma
    obtain ⟨r1, r2, er⟩ := List.append_of_mem hb
    obtain ⟨m0, g1, g3, g2, g4, g5, g6⟩ :=
      remove_spec m hi a.1 r a.2 r1 r2 l1 (mid ++ l2) er h1
    obtain ⟨f1, f2, f3⟩ :=
      remove_effect m m0 hi a.1 r a.2 r1 r2 l1 (mid ++ l2) er h1 g3 g2 g6
    have hn := next_right_spec m hi l1 (mid ++ l2) a.1 a.2 h1
    have hend : m0.end_right = m.end_right := end_right_same_frame g6
    have hne : head_ptr m.end_right ((a :: mid) ++ l2) ≠ head_ptr m.end_right l2 := by
      have hnd := hi.right.nodup
      have e0 : m.right_tree.root.inorder = l1 ++ (a.1, a.2) :: (mid ++ l2) := h1
      simp only [tree_node.ids, e0, List.map_append, List.map_cons, List.nodup_append,
        List.nodup_cons, List.mem_append, not_or] at hnd
      cases l2 with
      | nil => simp [end_right, tree.get_end]
      | cons b l2 =>
        simp only [List.cons_append, head_ptr_cons, ne_eq, Ptr.node.injEq]
        intro hab
        apply hnd.2.1.1.2
        rw [hab]
        simp
    obtain ⟨m1, k1, k2, k3, k4, k5, k6⟩ := ih m0 f l1 l2 g4 (by simpa using g2)
      (by simp at hf; omega)
    rw [hend] at k1
    refine ⟨m1, ?_, k2, same_frame_trans g6 k3, k4, ?_, ?_⟩
    · rw [erase_right_loop, if_neg hne]
      simp only [List.cons_append, head_ptr_cons, hn, erase_right, g1]
      exact k1
    · have : m1.size + mid.length = m0.size := k5
      have g5' : m0.size + 1 = m.size := g5
      simp only [List.length_cons]
      omega
    · intro k x c
      rw [k6, f3]
      simp only [List.map_cons, List.mem_cons, not_or]
      tauto



theorem erase_left_range_spec (m : bimap L R) (hi : m.inv) (n : Nat) (first last : Ptr)
    (seen : List Ptr) (h : m.walk_left n first = some (seen, last)) :
    ∃ m1, m.erase_left_range first last = some (m1, last) ∧ m1.inv ∧
      m1.size + n = m.size ∧ seen.length = n ∧
      (∀ k a c, has_pair m1 k a c ↔ (has_pair m k a c ∧ Ptr.node k ∉ seen)) ∧
      m1.end_left = m.end_left ∧ m1.end_right = m.end_right := by
  cases n with
  | zero =>
    simp only [walk_left, Option.some.injEq, Prod.mk.injEq] at h
    obtain ⟨rfl, rfl⟩ := h
    refine ⟨m, ?_, hi, rfl, rfl, by simp, rfl, rfl⟩
    simp [erase_left_range, erase_left_loop]
  | succ n =>
    obtain ⟨l1, mid, l2, e, rfl, rfl, rfl, hlen⟩ := walk_left_decompose m hi n first last seen h
    have hfuel : mid.length + 1 ≤ m.left_tree.root.size + 1 := by
      have e0 : m.left_tree.root.inorder = l1 ++ mid ++ l2 := e
      rw [tree_node.size_eq_length, e0]
      simp only [List.length_append]
      omega
    obtain ⟨m1, k1, k2, k3, k4, k5, k6⟩ := erase_left_loop_spec mid m _ l1 l2 hi e hfuel
    refine ⟨m1, k1, k2, by omega, by simpa using hlen, ?_, end_left_same_frame k3,
      end_right_same_frame k3⟩
    intro k a c
    rw [k6]
    simp only [List.mem_map, Ptr.node.injEq, Prod.exists, exists_and_right, exists_eq_right]

theorem erase_left_all (m : bimap L R) (hi : m.inv) :
    ∃ m1, m.erase_left_range m.begin_left m.end_left = some (m1, m.end_left) ∧
      m1.left_seq = [] ∧ m1.right_seq = [] ∧ m1.size = 0 ∧ m1.inv := by
  have e : m.left_seq = [] ++ m.left_seq ++ [] := by simp
  have hfuel : m.left_seq.length + 1 ≤ m.left_tree.root.size + 1 := by
    rw [tree_node.size_eq_length]
    exact Nat.le_refl _
  obtain ⟨m1, k1, k2, k3, k4, k5, k6⟩ :=
    erase_left_loop_spec m.left_seq m _ [] [] hi e hfuel
  have hs : m1.size = 0 := by
    have := size_eq_left_length m hi
    omega
  refine ⟨m1, ?_, by simpa using k4, ?_, hs, k2⟩
  · simp only [List.append_nil, head_ptr_nil] at k1
    rw [erase_left_range, begin_left_eq]
    exact k1
  · have := size_eq_right_length m1 k2
    rw [hs] at this
    exact List.length_eq_zero.1 this.symm

theorem erase_right_range_spec (m : bimap L R) (hi : m.inv) (n : Nat) (first last : Ptr)
    (seen : List Ptr) (h : m.walk_right n first = some (seen, last)) :
    ∃ m1, m.erase_right_range first last = some (m1, last) ∧ m1.inv ∧
      m1.size + n = m.size ∧ seen.length = n ∧
      (∀ k a c, has_pair m1 k a c ↔ (has_pair m k a c ∧ Ptr.node k ∉ seen)) ∧
      m1.end_left = m.end_left ∧ m1.end_right = m.end_right := by
  cases n with
  | zero =>
    simp only [walk_right, Option.some.injEq, Prod.mk.injEq] at h
    obtain ⟨rfl, rfl⟩ := h
    refine ⟨m, ?_, hi, rfl, rfl, by simp, rfl, rfl⟩
    simp [erase_right_range, erase_right_loop]
  | succ n =>
    obtain ⟨l1, mid, l2, e, rfl, rfl, rfl, hlen⟩ := walk_right_decompose m hi n first last seen h
    have hfuel : mid.length + 1 ≤ m.right_tree.root.size + 1 := by
      have e0 : m.right_tree.root.inorder = l1 ++ mid ++ l2 := e
      rw [tree_node.size_eq_length, e0]
      simp only [List.length_append]
      omega
    obtain ⟨m1, k1, k2, k3, k4, k5, k6⟩ := erase_right_loop_spec mid m _ l1 l2 hi e hfuel
    refine ⟨m1, k1, k2, by omega, by simpa using hlen, ?_, end_left_same_frame k3,
      end_right_same_frame k3⟩
    intro k a c
    rw [k6]
    simp only [List.mem_map, Ptr.node.injEq, Prod.exists, exists_and_right, exists_eq_right]

theorem erase_right_all (m : bimap L R) (hi : m.inv) :
    ∃ m1, m.erase_right_range m.begin_right m.end_right = some (m1, m.end_right) ∧
      m1.right_seq = [] ∧ m1.left_seq = [] ∧ m1.size = 0 ∧ m1.inv := by
  have e : m.right_seq = [] ++ m.right_seq ++ [] := by simp
  have hfuel : m.right_seq.length + 1 ≤ m.right_tree.root.size + 1 := by
    rw [tree_node.size_eq_length]
    exact Nat.le_refl _
  obtain ⟨m1, k1, k2, k3, k4, k5, k6⟩ :=
    erase_right_loop_spec m.right_seq m _ [] [] hi e hfuel
  have hs : m1.size = 0 := by
    have := size_eq_right_length m hi
    omega
  refine ⟨m1, ?_, by simpa using k4, ?_, hs, k2⟩
  · simp only [List.append_nil, head_ptr_nil] at k1
    rw [erase_right_range, begin_right_eq]
    exact k1
  · have := size_eq_left_length m1 k2
    rw [hs] at this
    exact List.length_eq_zero.1 this.symm

end bimap

namespace bimap
variable {L R : Type}

/-- C15: on a reachable map, when `last` is reached from `first` by `n`
applications of `++` (passing the positions `seen`), `erase_left(first,
last)` returns `last`; the entries that remain are exactly the entries whose
position is not in `seen`, with the same partners, and the size has dropped by
`n`; for `first == last` the map is unchanged; and
`erase_left(begin_left(), end_left())` leaves the map empty.
`erase_right(first, last)` is symmetric. -/
theorem C15_erase_range [Inhabited L] [Inhabited R] (m : bimap L R) (hm : reachable m) :
    (∀ (n : Nat) (first last : Ptr) (seen : List Ptr),
      m.walk_left n first = some (seen, last) →
      ∃ m1, m.erase_left_range first last = some (m1, last) ∧ m1.inv ∧
        m1.size + n = m.size ∧ seen.length = n ∧
        (∀ k a c, has_pair m1 k a c ↔ (has_pair m k a c ∧ Ptr.node k ∉ seen)) ∧
        m1.end_left = m.end_left ∧ m1.end_right = m.end_right) ∧
    (∀ it : Ptr, m.erase_left_range it it = some (m, it)) ∧
    (∃ m1, m.erase_left_range m.begin_left m.end_left = some (m1, m.end_left) ∧
      m1.left_seq = [] ∧ m1.right_seq = [] ∧ m1.size = 0 ∧ m1.inv) ∧
    (∀ (n : Nat) (first last : Ptr) (seen : List Ptr),
      m.walk_right n first = some (seen, last) →
      ∃ m1, m.erase_right_range first last = some (m1, last) ∧ m1.inv ∧
        m1.size + n = m.size ∧ seen.length = n ∧
        (∀ k a c, has_pair m1 k a c ↔ (has_pair m k a c ∧ Ptr.node k ∉ seen)) ∧
        m1.end_left = m.end_left ∧ m1.end_right = m.end_right) ∧
    (∀ it : Ptr, m.erase_right_range it it = some (m, it)) ∧
    (∃ m1, m.erase_right_range m.begin_right m.end_right = some (m1, m.end_right) ∧
      m1.right_seq = [] ∧ m1.left_seq = [] ∧ m1.size = 0 ∧ m1.inv) := by
  have hi := reachable_inv m hm
  refine ⟨erase_left_range_spec m hi, ?_, erase_left_all m hi, erase_right_range_spec m hi, ?_,
    erase_right_all m hi⟩
  · intro it
    simp [erase_left_range, erase_left_loop]
  · intro it
    simp [erase_right_range, erase_right_loop]

/-- C15 on the map `(1, "a")`, `(2, "b")`, `(3, "c")`: erasing the left range
from the position of `1` to the position of `3` returns the position of `3`
and leaves a map of size `1`. -/
theorem C15_erase_range_witness :
    ∃ m1, abc_map.erase_left_range (Ptr.node 1) (Ptr.node 3) = some (m1, Ptr.node 3) ∧
      m1.size = 1 ∧ (∀ k a c, has_pair m1 k a c → k = 3) := by
  obtain ⟨m1, e, _, hs, _, hp, _⟩ :=
    (C15_erase_range abc_map reachable_abc_map).1 2 (Ptr.node 1) (Ptr.node 3)
      [Ptr.node 1, Ptr.node 2] (by decide!)
  have hsize : abc_map.size = 3 := by decide!
  refine ⟨m1, e, by omega, ?_⟩
  intro k a c h
  obtain ⟨h1, h2⟩ := (hp k a c).1 h
  have hseq : abc_map.left_seq = [(1, 1), (2, 2), (3, 3)] := by decide!
  have hk : (k, a) ∈ abc_map.left_seq := h1.1
  rw [hseq] at hk
  simp only [List.mem_cons, Prod.mk.injEq, List.mem_singleton, List.not_mem_nil, or_false,
    Ptr.node.injEq, not_or] at hk h2
  omega

end bimap

/-! ### The claims about copy construction and equality -/

namespace bimap
variable {L R : Type}

theorem forall2_mem_left {α β : Type} {P : α → β → Prop} {S : List α} {T : List β}
    (h : List.Forall₂ P S T) {x : α} (hx : x ∈ S) : ∃ y ∈ T, P x y := by
  induction h with
  | nil => simp at hx
  | cons hab _ ih =>
    rcases List.mem_cons.1 hx with rfl | hx
    · exact ⟨_, by simp, hab⟩
    · obtain ⟨y, hy, hp⟩ := ih hx
      exact ⟨y, by simp [hy], hp⟩

theorem forall2_concat {α β : Type} {P : α → β → Prop} {S : List α} {T : List β}
    (h : List.Forall₂ P S T) {x : α} {y : β} (hxy : P x y) :
    List.Forall₂ P (S ++ [x]) (T ++ [y]) := by
  induction h with
  | nil => exact List.Forall₂.cons hxy List.Forall₂.nil
  | cons hab _ ih => exact List.Forall₂.cons hab ih

theorem deref_flip_left_of_pair (m : bimap L R) (hi : m.inv) {i : Nat} {l : L} {r : R}
    (h : has_pair m i l r) : m.deref_flip_left (Ptr.node i) = some r := by
  simp only [deref_flip_left, flip_left_node m hi (tree_node.mem_ids_of_mem h.1),
    deref_right_of_mem m hi h.2]

/-- The loop of the copy constructor over the part `todo` of the left
sequence of `m`. -/
theorem copy_loop_spec [Inhabited L] [Inhabited R] (m : bimap L R) (hi : m.inv)
    (todo : List (Nat × L)) :
    ∀ (c : bimap L R) (done : List (Nat × L)) (fuel : Nat), c.inv → reachable c →
      m.left_seq = done ++ todo →
      c.left_tree.compare = m.left_tree.compare →
      c.right_tree.compare = m.right_tree.compare →
      List.Forall₂ (same_entry c m) c.left_seq done → todo.length + 1 ≤ fuel →
      ∃ c1, copy_loop m fuel c (head_ptr m.end_left todo) = some c1 ∧ c1.inv ∧ reachable c1 ∧
        same_frame c c1 ∧ List.Forall₂ (same_entry c1 m) c1.left_seq (done ++ todo) := by
  induction todo with
  | nil =>
    intro c done fuel hc hrc _ _ _ hall hf
    obtain ⟨f, rfl⟩ : ∃ f, fuel = f + 1 := ⟨fuel - 1, by simp at hf; omega⟩
    refine ⟨c, ?_, hc, hrc, same_frame_refl c, by simpa using hall⟩
    simp [copy_loop]
  | cons a todo ih =>
    intro c done fuel hc hrc hseq hcl hcr hall hf
    obtain ⟨f, rfl⟩ : ∃ f, fuel = f + 1 := ⟨fuel - 1, by simp at hf; omega⟩
    have h1 : m.left_seq = done ++ (a.1, a.2) :: todo := hseq
    have hma : (a.1, a.2) ∈ m.left_seq := by rw [h1]; simp
    obtain ⟨r, hb⟩ := right_of_left m hi hma
    have hpa : has_pair m a.1 a.2 r := ⟨hma, hb⟩
    have hso := hi.left.sorted
    have hnd := hi.left.nodup
    have e0 : m.left_tree.root.inorder = done ++ (a.1, a.2) :: todo := h1
    simp only [tree_node.sorted, tree_node.ids, e0, List.pairwise_append, List.pairwise_cons,
      List.map_append, List.map_cons, List.nodup_append, List.nodup_cons, List.mem_cons]
      at hso hnd
    -- every left value already copied is less than the next one
    have hless : ∀ x ∈ c.left_seq, m.left_tree.compare x.2 a.2 = true := by
      intro x hx
      obtain ⟨y, hy, hxy⟩ := forall2_mem_left hall hx
      rw [hxy.1]
      exact hso.2.2 y hy (a.1, a.2) (Or.inl rfl)
    have habs_l : ∀ x ∈ c.left_seq, ¬ equiv c.left_tree.compare a.2 x.2 := by
      intro x hx hq
      rw [hcl] at hq
      have := hless x hx
      rw [hq.2] at this
      exact absurd this (by decide)
    have habs_r : ∀ y ∈ c.right_seq, ¬ equiv c.right_tree.compare r y.2 := by
      intro y hy hq
      rw [hcr] at hq
      obtain ⟨j, yv⟩ := y
      obtain ⟨xv, hx⟩ := left_of_right c hc hy
      obtain ⟨z, hz, hxz⟩ := forall2_mem_left hall hx
      obtain ⟨r', hp1, hp2⟩ := hxz.2
      have er : r' = yv := seq_value_unique hc.right.nodup hp1.2 hy
      subst er
      obtain ⟨ei, _, _⟩ := pair_unique_of_right m hi hpa hp2 hq
      have hzi : z.1 ∈ List.map Prod.fst done := List.mem_map.2 ⟨z, hz, rfl⟩
      rw [← ei] at hzi
      exact hnd.2.2 hzi (List.mem_cons_self _ _)
    obtain ⟨k1, k2, r1, r2, e1, e2, e3, e4, e5, hi1, e6, hfr⟩ :=
      insert_absent c hc a.2 r habs_l habs_r
    obtain ⟨p1, p2, p3, p4, p5, p6, p7, p8, p9⟩ := insert_absent_pairs c hc a.2 r habs_l habs_r
    have hk2 : k2 = [] := by
      cases k2 with
      | nil => rfl
      | cons y k2 =>
        exfalso
        have hs1 := hi1.left.sorted
        have e4' : (c.insert a.2 r).1.left_tree.root.inorder = k1 ++ (c.alloc, a.2) :: y :: k2 :=
          e4
        simp only [tree_node.sorted, e4', List.pairwise_append, List.pairwise_cons,
          List.mem_cons] at hs1
        have hy1 := hs1.2.1.1 y (Or.inl rfl)
        rw [hfr.2.2.1, hcl] at hy1
        have hy2 := hless y (by rw [e1]; simp)
        rw [hi.left.order.asymm hy1] at hy2
        exact absurd hy2 (by decide)
    subst hk2
    have e4' : (c.insert a.2 r).1.left_seq = c.left_seq ++ [(c.alloc, a.2)] := by
      rw [e4, e1]
      simp
    have hall1 : List.Forall₂ (same_entry (c.insert a.2 r).1 m) (c.insert a.2 r).1.left_seq
        (done ++ [a]) := by
      rw [e4']
      refine forall2_concat (hall.imp ?_) ?_
      · intro x y hxy
        obtain ⟨r', hp1, hp2⟩ := hxy.2
        exact ⟨hxy.1, r', (p6 _ _ _).2 (Or.inl hp1), hp2⟩
      · exact ⟨rfl, r, p5, hpa⟩
    obtain ⟨c1, q1, q2, q3, q4, q5⟩ := ih (c.insert a.2 r).1 (done ++ [a]) f hi1
      (reachable.insert c a.2 r hrc) (by simp [h1]) (hfr.2.2.1.trans hcl)
      (hfr.2.2.2.trans hcr) hall1 (by simp at hf; omega)
    refine ⟨c1, ?_, q2, q3, same_frame_trans hfr q4, by simpa using q5⟩
    have hne : head_ptr m.end_left (a :: todo) ≠ m.end_left := by
      simp [end_left, tree.get_end]
    rw [copy_loop, if_pos hne]
    simp only [head_ptr_cons, deref_left_of_mem m hi hma, deref_flip_left_of_pair m hi hpa,
      next_left_spec m hi done todo a.1 a.2 h1]
    exact q1

theorem init_same_frame (la ra : Nat) (cl : L → L → Bool) (cr : R → R → Bool) :
    (init la ra cl cr).left_tree.compare = cl ∧ (init la ra cl cr).right_tree.compare = cr ∧
    (init la ra cl cr).end_left = Ptr.fake la ∧ (init la ra cl cr).end_right = Ptr.fake ra ∧
    (init la ra cl cr).left_seq = [] ∧ (init la ra cl cr).right_seq = [] :=
  ⟨rfl, rfl, rfl, rfl, rfl, rfl⟩

theorem copy_spec [Inhabited L] [Inhabited R] (m : bimap L R) (hi : m.inv) (la ra : Nat) :
    ∃ c, copy la ra m = some c ∧ c.inv ∧ reachable c ∧
      c.left_tree.compare = m.left_tree.compare ∧
      c.right_tree.compare = m.right_tree.compare ∧
      c.end_left = Ptr.fake la ∧ c.end_right = Ptr.fake ra ∧
      List.Forall₂ (same_entry c m) c.left_seq m.left_seq := by
  have hfuel : m.left_seq.length + 1 ≤ m.left_tree.root.size + 1 := by
    rw [tree_node.size_eq_length]
    exact Nat.le_refl _
  obtain ⟨c1, q1, q2, q3, q4, q5⟩ := copy_loop_spec m hi m.left_seq
    (init la ra m.left_tree.compare m.right_tree.compare) [] _
    (init_inv la ra _ _ hi.left.order hi.right.order)
    (reachable.init la ra _ _ hi.left.order hi.right.order) rfl rfl rfl List.Forall₂.nil hfuel
  refine ⟨c1, ?_, q2, q3, q4.2.2.1, q4.2.2.2, ?_, ?_, by simpa using q5⟩
  · rw [copy, begin_left_eq]
    exact q1
  · rw [end_left_same_frame q4]
    rfl
  · rw [end_right_same_frame q4]
    rfl

theorem pair_at_of_pair (m : bimap L R) (hi : m.inv) {i : Nat} {l : L} {r : R}
    (h : has_pair m i l r) : m.pair_at (i, l) = some (l, r) := by
  simp [pair_at, deref_flip_left_of_pair m hi h]

theorem mem_pairs_iff (m : bimap L R) (hi : m.inv) (l : L) (r : R) :
    (l, r) ∈ pairs m ↔ ∃ i, has_pair m i l r := by
  constructor
  · intro h
    obtain ⟨a, ha, e⟩ := List.mem_filterMap.1 h
    have ha1 : (a.1, a.2) ∈ m.left_seq := ha
    obtain ⟨r1, hr⟩ := right_of_left m hi ha1
    have hp : has_pair m a.1 a.2 r1 := ⟨ha1, hr⟩
    have e1 : m.pair_at a = some (a.2, r1) := pair_at_of_pair m hi hp
    rw [e1] at e
    cases e
    exact ⟨a.1, hp⟩
  · rintro ⟨i, hp⟩
    exact List.mem_filterMap.2 ⟨(i, l), hp.1, pair_at_of_pair m hi hp⟩

theorem pairs_eq_of_same_entry (c m : bimap L R) (hc : c.inv) (hm : m.inv)
    {S T : List (Nat × L)} (h : List.Forall₂ (same_entry c m) S T) :
    S.filterMap (pair_at c) = T.filterMap (pair_at m) := by
  induction h with
  | nil => rfl
  | @cons x y S T hxy _ ih =>
    obtain ⟨e, r, hp1, hp2⟩ := hxy
    have e1 : c.pair_at x = some (x.2, r) := pair_at_of_pair c hc hp1
    have e2 : m.pair_at y = some (x.2, r) := by
      rw [e]
      exact pair_at_of_pair m hm hp2
    rw [List.filterMap_cons_some e1, List.filterMap_cons_some e2, ih]

theorem compare_equal_iff {α : Type} (t : tree α) (a b : α) :
    t.compare_equal a b = true ↔ equiv t.compare a b := by
  simp [tree.compare_equal, equiv]

theorem forall2_self {α : Type} {P : α → α → Prop} (h : ∀ a, P a a) (l : List α) :
    List.Forall₂ P l l := by
  induction l with
  | nil => exact List.Forall₂.nil
  | cons a l ih => exact List.Forall₂.cons (h a) ih

/-- The loop of `compare_equal` from the parts `sa` and `sb` of the two left
sequences, when they have the same length: it returns, and it returns `true`
exactly when the pairs are equal in lock-step. -/
theorem compare_equal_loop_spec (a b : bimap L R) (ha : a.inv) (hb : b.inv)
    (sa : List (Nat × L)) :
    ∀ (sb da db : List (Nat × L)) (fuel : Nat), a.left_seq = da ++ sa → b.left_seq = db ++ sb →
      sa.length = sb.length → sa.length + 1 ≤ fuel →
      ∃ res, compare_equal_loop a b fuel (head_ptr a.end_left sa) (head_ptr b.end_left sb)
          = some res ∧
        (res = true ↔
          List.Forall₂ (equal_entries a) (sa.filterMap (pair_at a)) (sb.filterMap (pair_at b))) := by
  induction sa with
  | nil =>
    intro sb da db fuel _ _ hl hf
    obtain ⟨f, rfl⟩ : ∃ f, fuel = f + 1 := ⟨fuel - 1, by simp at hf; omega⟩
    cases sb with
    | cons y sb => simp at hl
    | nil =>
      refine ⟨true, by simp [compare_equal_loop], ?_⟩
      simp
  | cons x sa ih =>
    intro sb da db fuel hsa hsb hl hf
    obtain ⟨f, rfl⟩ : ∃ f, fuel = f + 1 := ⟨fuel - 1, by simp at hf; omega⟩
    cases sb with
    | nil => simp at hl
    | cons y sb =>
      have h1 : a.left_seq = da ++ (x.1, x.2) :: sa := hsa
      have h2 : b.left_seq = db ++ (y.1, y.2) :: sb := hsb
      have hxa : (x.1, x.2) ∈ a.left_seq := by rw [h1]; simp
      have hyb : (y.1, y.2) ∈ b.left_seq := by rw [h2]; simp
      obtain ⟨ra, hra⟩ := right_of_left a ha hxa
      obtain ⟨rb, hrb⟩ := right_of_left b hb hyb
      have hpa : has_pair a x.1 x.2 ra := ⟨hxa, hra⟩
      have hpb : has_pair b y.1 y.2 rb := ⟨hyb, hrb⟩
      have e1 : a.pair_at x = some (x.2, ra) := pair_at_of_pair a ha hpa
      have e2 : b.pair_at y = some (y.2, rb) := pair_at_of_pair b hb hpb
      obtain ⟨res, q1, q2⟩ := ih sb (da ++ [x]) (db ++ [y]) f (by simp [h1]) (by simp [h2])
        (by simpa using hl) (by simp at hf; omega)
      have hne : head_ptr a.end_left (x :: sa) ≠ a.end_left ∧
          head_ptr b.end_left (y :: sb) ≠ b.end_left := by
        simp [end_left, tree.get_end]
      rw [compare_equal_loop, if_pos hne, List.filterMap_cons_some e1,
        List.filterMap_cons_some e2]
      simp only [head_ptr_cons, deref_left_of_mem a ha hxa, deref_left_of_mem b hb hyb,
        deref_flip_left_of_pair a ha hpa, deref_flip_left_of_pair b hb hpb,
        next_left_spec a ha da sa x.1 x.2 h1, next_left_spec b hb db sb y.1 y.2 h2,
        List.forall₂_cons]
      by_cases c1 : a.left_tree.compare_equal x.2 y.2 = true
      · by_cases c2 : a.right_tree.compare_equal ra rb = true
        · refine ⟨res, by simp [c1, c2, q1], ?_⟩
          rw [q2]
          constructor
          · intro h
            exact ⟨⟨(compare_equal_iff _ _ _).1 c1, (compare_equal_iff _ _ _).1 c2⟩, h⟩
          · intro h
            exact h.2
        · refine ⟨false, by simp [c1, c2], ?_⟩
          constructor
          · intro h
            cases h
          · intro h
            exact absurd ((compare_equal_iff _ _ _).2 h.1.2) c2
      · refine ⟨false, by simp [c1], ?_⟩
        constructor
        · intro h
          cases h
        · intro h
          exact absurd ((compare_equal_iff _ _ _).2 h.1.1) c1

/-- On two maps that satisfy the invariant `operator==` returns, and it
returns `true` exactly when the maps are equal as the specification words
it. -/
theorem compare_equal_spec (a b : bimap L R) (ha : a.inv) (hb : b.inv) :
    ∃ res, a.compare_equal b = some res ∧ (res = true ↔ equal_as_worded a b) := by
  by_cases hs : a.size = b.size
  · have hl : a.left_seq.length = b.left_seq.length := by
      rw [← size_eq_left_length a ha, ← size_eq_left_length b hb, hs]
    have hfuel : a.left_seq.length + 1 ≤ a.left_tree.root.size + 1 := by
      rw [tree_node.size_eq_length]
      exact Nat.le_refl _
    obtain ⟨res, q1, q2⟩ := compare_equal_loop_spec a b ha hb a.left_seq b.left_seq [] [] _
      rfl rfl hl hfuel
    refine ⟨res, ?_, ?_⟩
    · rw [compare_equal, if_neg (by simpa using hs), begin_left_eq, begin_left_eq]
      exact q1
    · rw [q2]
      exact ⟨fun h => ⟨hs, h⟩, fun h => h.2⟩
  · refine ⟨false, ?_, ?_⟩
    · rw [compare_equal, if_pos hs]
    · constructor
      · intro h
        cases h
      · intro h
        exact absurd h.1 hs

/-- C16: on a reachable map `m` the copy constructor returns a map `c` (for
any addresses `la`, `ra` of its two sentinels) that is reachable, has the
comparators of `m`, and satisfies `c == m`, which is the equality as worded
(the same size and, in lock-step over the left sequences, equivalent left
values and equivalent paired right values); the pairs of `c` in left order are
the pairs of `m`, so `c` holds a pair exactly when `m` holds it. -/
theorem C16_copy_round_trip [Inhabited L] [Inhabited R] (m : bimap L R) (hm : reachable m)
    (la ra : Nat) :
    ∃ c, copy la ra m = some c ∧ reachable c ∧
      c.left_tree.compare = m.left_tree.compare ∧
      c.right_tree.compare = m.right_tree.compare ∧
      c.end_left = Ptr.fake la ∧ c.end_right = Ptr.fake ra ∧
      c.compare_equal m = some true ∧ m.compare_equal c = some true ∧
      equal_as_worded c m ∧ c.size = m.size ∧ pairs c = pairs m ∧
      (∀ l r, (∃ i, has_pair c i l r) ↔ (∃ j, has_pair m j l r)) := by
  have hi := reachable_inv m hm
  obtain ⟨c, q1, q2, q3, q4, q5, q6, q7, q8⟩ := copy_spec m hi la ra
  have hp : pairs c = pairs m := pairs_eq_of_same_entry c m q2 hi q8
  have hs : c.size = m.size := by
    rw [size_eq_left_length c q2, size_eq_left_length m hi, q8.length_eq]
  have hw1 : equal_as_worded c m := by
    refine ⟨hs, ?_⟩
    rw [hp]
    exact forall2_self (fun x => ⟨equiv_refl q2.left.order x.1, equiv_refl q2.right.order x.2⟩) _
  have hw2 : equal_as_worded m c := by
    refine ⟨hs.symm, ?_⟩
    rw [hp]
    exact forall2_self (fun x => ⟨equiv_refl hi.left.order x.1, equiv_refl hi.right.order x.2⟩) _
  obtain ⟨r1, a1, b1⟩ := compare_equal_spec c m q2 hi
  obtain ⟨r2, a2, b2⟩ := compare_equal_spec m c hi q2
  refine ⟨c, q1, q3, q4, q5, q6, q7, ?_, ?_, hw1, hs, hp, ?_⟩
  · rw [a1, b1.2 hw1]
  · rw [a2, b2.2 hw2]
  · intro l r
    rw [← mem_pairs_iff c q2, ← mem_pairs_iff m hi, hp]

/-- C16 on the map `(1, "a")`, `(2, "b")`, `(3, "c")`: the copy is equal to
the map and holds the same three pairs. -/
theorem C16_copy_round_trip_witness :
    pairs abc_map = [(1, "a"), (2, "b"), (3, "c")] ∧
    ∃ c, copy 10 11 abc_map = some c ∧ c.compare_equal abc_map = some true ∧
      pairs c = [(1, "a"), (2, "b"), (3, "c")] ∧ c.size = 3 := by
  have hp : pairs abc_map = [(1, "a"), (2, "b"), (3, "c")] := by decide!
  have hsize : abc_map.size = 3 := by decide!
  obtain ⟨c, e, _, _, _, _, _, h1, _, _, h2, h3, _⟩ :=
    C16_copy_round_trip abc_map reachable_abc_map 10 11
  exact ⟨hp, c, e, h1, h3.trans hp, h2.trans hsize⟩

end bimap

/-! ### The claim about parent links and the sentinel -/

namespace bimap_impl
namespace tree_node
variable {α : Type}

theorem links_ok_of_subtree {s T : tree_node α} (hs : subtree s T) (hk : T.links_ok) :
    s.links_ok := by
  induction hs with
  | refl => exact hk
  | left L R' P H J V _ ih =>
    simp only [links_ok_node] at hk
    exact ih hk.2.2.1
  | right L R' P H J V _ ih =>
    simp only [links_ok_node] at hk
    exact ih hk.2.2.2

/-- On a sorted, balanced tree with correct parent links no assertion of
`check_invariant` fails. -/
theorem check_invariant_true (cmp : α → α → Bool) (t : tree_node α) :
    t.sorted cmp → t.avl → t.links_ok → check_invariant cmp t = true := by
  induction t with
  | nil => intro _ _ _; rfl
  | node l r p h i v ihl ihr =>
    intro hs ha hk
    have ha1 := ha
    rw [sorted_node] at hs
    simp only [avl] at ha1
    simp only [links_ok_node] at hk
    obtain ⟨sl, sr, s1, s2, _⟩ := hs
    obtain ⟨al, ar, _, b1, b2⟩ := ha1
    obtain ⟨pl, pr, kl, kr⟩ := hk
    have el := ihl sl al kl
    have er := ihr sr ar kr
    have cl : ∀ ll lr lp lh li lv, l = node ll lr lp lh li lv →
        lp = Ptr.node i ∧ cmp lv v = true := by
      intro ll lr lp lh li lv e
      subst e
      exact ⟨by simpa using pl, s1 (li, lv) (by simp)⟩
    have cr : ∀ rl rr rp rh ri rv, r = node rl rr rp rh ri rv →
        rp = Ptr.node i ∧ cmp v rv = true := by
      intro rl rr rp rh ri rv e
      subst e
      exact ⟨by simpa using pr, s2 (ri, rv) (by simp)⟩
    cases l with
    | nil =>
      cases r with
      | nil =>
        unfold check_invariant
        simp
      | node rl rr rp rh ri rv =>
        obtain ⟨c1, c2⟩ := cr _ _ _ _ _ _ rfl
        subst c1
        unfold check_invariant
        simp only [c2, er, decide_True, Bool.and_self, Bool.true_and, Bool.and_eq_true,
          decide_eq_true_eq]
        exact ⟨b1, b2⟩
    | node ll lr lp lh li lv =>
      obtain ⟨d1, d2⟩ := cl _ _ _ _ _ _ rfl
      subst d1
      cases r with
      | nil =>
        unfold check_invariant
        simp only [d2, el, decide_True, Bool.and_self, Bool.true_and, Bool.and_eq_true,
          decide_eq_true_eq]
        exact ⟨b1, b2⟩
      | node rl rr rp rh ri rv =>
        obtain ⟨c1, c2⟩ := cr _ _ _ _ _ _ rfl
        subst c1
        unfold check_invariant
        simp only [c2, d2, er, el, decide_True, Bool.and_self, Bool.true_and, Bool.and_eq_true,
          decide_eq_true_eq]
        exact ⟨b1, b2⟩

end tree_node

namespace tree
variable {α : Type}

theorem child_link_of_subtree (t : tree α) (hn : t.root.ids.Nodup) (c : tree_node α) (p : Ptr)
    (hs : subtree c t.root) (hp : c.parent_is p) : t.child_link_ok p c.ptr := by
  cases c with
  | nil => exact Or.inl rfl
  | node cl cr cp ch ci cv =>
    refine Or.inr ⟨_, deref_node t ci cl cr cp ch cv
      (tree_node.lookup_subtree hn _ _ _ _ _ _ hs), ?_⟩
    simpa using hp

/-- A tree that satisfies the invariant has correct parent links when read
through pointers. -/
theorem back_links_of_inv (t : tree α) (hi : t.inv) : t.back_links := by
  refine ⟨?_, ?_, tree_node.check_invariant_true t.compare t.root hi.sorted hi.avl hi.links⟩
  · intro i hmem
    obtain ⟨v, hv⟩ := tree_node.exists_of_mem_ids hmem
    obtain ⟨l, r, p, hh, hs⟩ := tree_node.subtree_of_mem hv
    have e := tree_node.lookup_subtree hi.nodup _ _ _ _ _ _ hs
    have hk := tree_node.links_ok_of_subtree hs hi.links
    simp only [tree_node.links_ok_node] at hk
    refine ⟨_, deref_node t i l r p hh v e, ?_, ?_, ?_⟩
    · exact child_link_of_subtree t hi.nodup l _ (tree_node.subtree_left_of hs) hk.1
    · exact child_link_of_subtree t hi.nodup r _ (tree_node.subtree_right_of hs) hk.2.1
    · have := tree_node.parent_ne_null t.root (Ptr.fake t.fake_addr) (by simp) hi.root_parent
        hi.links i l r p hh i v e
      simp [tree_base_node.is_end, this]
  · refine ⟨_, deref_fake t, rfl, ?_, rfl, rfl⟩
    exact child_link_of_subtree t hi.nodup t.root _ subtree.refl hi.root_parent

theorem links_insert (t : tree α) (i : Nat) (x : α) (hk : t.root.links_ok) :
    (t.insert i x).root.links_ok ∧
    (t.insert i x).root.parent_is (Ptr.fake (t.insert i x).fake_addr) := by
  simp only [insert, tree_node.links_ok_set_parent, tree_node.parent_is_set_parent, and_true]
  exact tree_node.links_ok_insert_impl t.compare i x t.root hk

theorem links_remove (t t1 : tree α) (src p : Ptr) (hk : t.root.links_ok)
    (h : t.remove src = some (t1, p)) :
    t1.root.links_ok ∧ t1.root.parent_is (Ptr.fake t1.fake_addr) := by
  simp only [remove] at h
  cases hv : t.value_at src with
  | none => simp [hv] at h
  | some x =>
    cases hn : t.next src with
    | none => simp [hv, hn] at h
    | some q =>
      simp only [hv, hn, Option.some.injEq, Prod.mk.injEq] at h
      obtain ⟨rfl, _⟩ := h
      simp only [tree_node.links_ok_set_parent, tree_node.parent_is_set_parent, and_true]
      exact tree_node.links_ok_remove_impl t.compare x t.root hk

theorem links_swap (t other : tree α) (h1 : t.root.links_ok) (h2 : other.root.links_ok) :
    ((t.swap other).1.root.links_ok ∧
      (t.swap other).1.root.parent_is (Ptr.fake (t.swap other).1.fake_addr)) ∧
    ((t.swap other).2.root.links_ok ∧
      (t.swap other).2.root.parent_is (Ptr.fake (t.swap other).2.fake_addr)) := by
  simp only [swap, tree_node.links_ok_set_parent, tree_node.parent_is_set_parent, and_true]
  exact ⟨h2, h1⟩

end tree
end bimap_impl

namespace bimap
variable {L R : Type}

/-- C21: in every reachable map both trees have correct parent links when
read through pointers: behind both child pointers of every stored node the
parent link is that node, the root's parent link is the tree's own sentinel,
the sentinel's parent link is null, `is_end()` is true for the sentinel and
false for every stored node, and no assertion of `check_invariant` fails.
`tree::insert`, `tree::remove` and `tree::swap` each leave correct links below
the root and the root's parent link at the own sentinel, and every tree that
satisfies the tree invariant has correct parent links. -/
theorem C21_parent_links [Inhabited L] [Inhabited R] (m : bimap L R) (hm : reachable m) :
    m.left_tree.back_links ∧ m.right_tree.back_links ∧
    (∀ (α : Type) (t : tree α) (i : Nat) (x : α), t.root.links_ok →
      (t.insert i x).root.links_ok ∧
      (t.insert i x).root.parent_is (Ptr.fake (t.insert i x).fake_addr)) ∧
    (∀ (α : Type) (t t1 : tree α) (src p : Ptr), t.root.links_ok →
      t.remove src = some (t1, p) →
      t1.root.links_ok ∧ t1.root.parent_is (Ptr.fake t1.fake_addr)) ∧
    (∀ (α : Type) (t other : tree α), t.root.links_ok → other.root.links_ok →
      ((t.swap other).1.root.links_ok ∧
        (t.swap other).1.root.parent_is (Ptr.fake (t.swap other).1.fake_addr)) ∧
      ((t.swap other).2.root.links_ok ∧
        (t.swap other).2.root.parent_is (Ptr.fake (t.swap other).2.fake_addr))) ∧
    (∀ (α : Type) (t : tree α), t.inv → t.back_links) := by
  have hi := reachable_inv m hm
  exact ⟨tree.back_links_of_inv _ hi.left, tree.back_links_of_inv _ hi.right,
    fun α t i x hk => tree.links_insert t i x hk,
    fun α t t1 src p hk h => tree.links_remove t t1 src p hk h,
    fun α t other h1 h2 => tree.links_swap t other h1 h2,
    fun α t h => tree.back_links_of_inv t h⟩

/-- C21 on the map `(1, "a")`, `(2, "b")`, `(3, "c")`: the left tree has the
root `2` below the sentinel and the children `1` and `3` below `2`. -/
theorem C21_parent_links_witness :
    abc_map.left_tree.back_links ∧ abc_map.right_tree.back_links ∧
    abc_map.left_tree.deref abc_map.end_left
      = some ⟨Ptr.node 2, Ptr.fake 1, Ptr.null, 1⟩ ∧
    abc_map.left_tree.deref (Ptr.node 2) = some ⟨Ptr.node 1, Ptr.node 3, Ptr.fake 0, 2⟩ ∧
    abc_map.left_tree.deref (Ptr.node 1) = some ⟨Ptr.null, Ptr.null, Ptr.node 2, 1⟩ ∧
    abc_map.left_tree.deref (Ptr.node 3) = some ⟨Ptr.null, Ptr.null, Ptr.node 2, 1⟩ ∧
    abc_map.left_tree.root.check_invariant abc_map.left_tree.compare = true :=
  have h := C21_parent_links abc_map reachable_abc_map
  ⟨h.1, h.2.1, by decide!, by decide!, by decide!, by decide!, by decide!⟩

end bimap

/-! ### The claim about the logarithmic height -/

namespace bimap_impl
namespace tree_node
variable {α : Type}

theorem two_pow_half_le_fib (h : Nat) :
    2 ^ (h / 2) ≤ Nat.fib (h + 2) ∧ 2 ^ ((h + 1) / 2) ≤ Nat.fib (h + 3) := by
  induction h with
  | zero => decide
  | succ n ih =>
    refine ⟨ih.2, ?_⟩
    have e : (n + 1 + 1) / 2 = n / 2 + 1 := by omega
    have f1 : Nat.fib (n + 1 + 3) = Nat.fib (n + 2) + Nat.fib (n + 3) := Nat.fib_add_two
    have f2 : Nat.fib (n + 2) ≤ Nat.fib (n + 3) := Nat.fib_mono (by omega)
    rw [e, pow_succ, f1]
    omega

/-- The cached height of a child is below the cached height of the node. -/
theorem avl_child_height {l r : tree_node α} {p : Ptr} {h i : Nat} {v : α}
    (ha : (node l r p h i v).avl) :
    l.avl ∧ r.avl ∧ l.get_height + 1 ≤ h ∧ r.get_height + 1 ≤ h := by
  rw [avl_node] at ha
  obtain ⟨a, b, c, _, _⟩ := ha
  exact ⟨a, b, by omega, by omega⟩

/-- A balanced tree of height `h` has at least `fib (h + 2) - 1` nodes. -/
theorem avl_fib (t : tree_node α) : t.avl → Nat.fib (t.get_height + 2) ≤ t.size + 1 := by
  induction t with
  | nil => intro _; simp
  | node l r p h i v ihl ihr =>
    intro ha
    rw [avl_node] at ha
    obtain ⟨al, ar, e, b1, b2⟩ := ha
    have hl := ihl al
    have hr := ihr ar
    simp only [get_height_node, size_node]
    by_cases c : r.get_height ≤ l.get_height
    · have eh : h = l.get_height + 1 := by omega
      have f1 : Nat.fib (l.get_height + 1 + 2) = Nat.fib (l.get_height + 1) +
          Nat.fib (l.get_height + 2) := Nat.fib_add_two
      have f2 : Nat.fib (l.get_height + 1) ≤ Nat.fib (r.get_height + 2) :=
        Nat.fib_mono (by omega)
      rw [eh, f1]
      omega
    · have eh : h = r.get_height + 1 := by omega
      have f1 : Nat.fib (r.get_height + 1 + 2) = Nat.fib (r.get_height + 1) +
          Nat.fib (r.get_height + 2) := Nat.fib_add_two
      have f2 : Nat.fib (r.get_height + 1) ≤ Nat.fib (l.get_height + 2) :=
        Nat.fib_mono (by omega)
      rw [eh, f1]
      omega

theorem avl_size_bounds (t : tree_node α) (ha : t.avl) :
    Nat.fib (t.get_height + 2) - 1 ≤ t.size ∧ 2 ^ (t.get_height / 2) ≤ t.size + 1 := by
  have h1 := avl_fib t ha
  have h2 := (two_pow_half_le_fib t.get_height).1
  exact ⟨by omega, by omega⟩

theorem find_path_length (cmp : α → α → Bool) (key : α) (t : tree_node α) :
    t.avl → (find_path cmp key t).length ≤ t.get_height := by
  induction t with
  | nil => intro _; simp [find_path]
  | node l r p h i v ihl ihr =>
    intro ha
    obtain ⟨al, ar, hl, hr⟩ := avl_child_height ha
    have := ihl al
    have := ihr ar
    simp only [find_path, get_height_node]
    split_ifs <;> simp only [List.length_cons, List.length_nil] <;> omega

theorem lower_bound_path_length (cmp : α → α → Bool) (key : α) (t : tree_node α) :
    t.avl → (lower_bound_path cmp key t).length ≤ t.get_height := by
  induction t with
  | nil => intro _; simp [lower_bound_path]
  | node l r p h i v ihl ihr =>
    intro ha
    obtain ⟨al, ar, hl, hr⟩ := avl_child_height ha
    have := ihl al
    have := ihr ar
    simp only [lower_bound_path, get_height_node]
    split_ifs <;> simp only [List.length_cons, List.length_nil] <;> omega

theorem insert_impl_path_length (cmp : α → α → Bool) (x : α) (t : tree_node α) :
    t.avl → (insert_impl_path cmp x t).length ≤ t.get_height := by
  induction t with
  | nil => intro _; simp [insert_impl_path]
  | node l r p h i v ihl ihr =>
    intro ha
    obtain ⟨al, ar, hl, hr⟩ := avl_child_height ha
    have := ihl al
    have := ihr ar
    simp only [insert_impl_path, get_height_node]
    split_ifs <;> simp only [List.length_cons, List.length_nil] <;> omega

theorem insert_impl_depth_le (cmp : α → α → Bool) (x : α) (t : tree_node α) :
    t.avl → insert_impl_depth cmp x t ≤ t.get_height := by
  induction t with
  | nil => intro _; simp [insert_impl_depth]
  | node l r p h i v ihl ihr =>
    intro ha
    obtain ⟨al, ar, hl, hr⟩ := avl_child_height ha
    have := ihl al
    have := ihr ar
    simp only [insert_impl_depth, get_height_node]
    split_ifs <;> omega

/-- The loop of `get_min` and the calls of `remove_min` visit the same nodes. -/
theorem get_min_path_eq (t : tree_node α) : get_min_path t = remove_min_path t := by
  induction t with
  | nil => rfl
  | node l r p h i v ihl _ =>
    cases l with
    | nil => rfl
    | node ll lr lp lh li lv =>
      simp only [get_min_path, remove_min_path, ihl]

theorem remove_min_path_length (t : tree_node α) :
    t.avl → (remove_min_path t).length ≤ t.get_height := by
  induction t with
  | nil => intro _; simp [remove_min_path]
  | node l r p h i v ihl _ =>
    intro ha
    obtain ⟨al, _, hl, _⟩ := avl_child_height ha
    have := ihl al
    cases l with
    | nil =>
      simp only [remove_min_path, get_height_node, List.length_cons, List.length_nil]
      omega
    | node ll lr lp lh li lv =>
      simp only [remove_min_path, get_height_node, List.length_cons] at this hl ⊢
      omega

theorem remove_min_depth_le (t : tree_node α) :
    t.avl → remove_min_depth t + 1 ≤ t.get_height + 1 ∧ remove_min_depth t ≤ t.get_height := by
  induction t with
  | nil => intro _; simp [remove_min_depth]
  | node l r p h i v ihl _ =>
    intro ha
    obtain ⟨al, _, hl, _⟩ := avl_child_height ha
    have := ihl al
    cases l with
    | nil =>
      simp only [remove_min_depth, get_height_node]
      omega
    | node ll lr lp lh li lv =>
      simp only [remove_min_depth, get_height_node] at this hl ⊢
      omega

theorem remove_impl_path_card (cmp : α → α → Bool) (x : α) (t : tree_node α) :
    t.avl → (remove_impl_path cmp x t).toFinset.card ≤ t.get_height := by
  induction t with
  | nil => intro _; simp [remove_impl_path]
  | node l r p h i v ihl ihr =>
    intro ha
    obtain ⟨al, ar, hl, hr⟩ := avl_child_height ha
    have h1 := ihl al
    have h2 := ihr ar
    simp only [remove_impl_path, get_height_node]
    split_ifs
    · rw [List.toFinset_cons]
      have := Finset.card_insert_le i (remove_impl_path cmp x l).toFinset
      omega
    · rw [List.toFinset_cons]
      have := Finset.card_insert_le i (remove_impl_path cmp x r).toFinset
      omega
    · cases r with
      | nil =>
        simp only [List.toFinset_cons, List.toFinset_nil, insert_emptyc_eq,
          Finset.card_singleton]
        omega
      | node rl rr rp rh ri rv =>
        simp only [get_min_path_eq]
        have e : (i :: (remove_min_path (node rl rr rp rh ri rv) ++
            remove_min_path (node rl rr rp rh ri rv))).toFinset =
            insert i (remove_min_path (node rl rr rp rh ri rv)).toFinset := by
          ext a
          simp
        rw [e]
        have c1 := Finset.card_insert_le i (remove_min_path (node rl rr rp rh ri rv)).toFinset
        have c2 := List.toFinset_card_le (remove_min_path (node rl rr rp rh ri rv))
        have c3 := remove_min_path_length (node rl rr rp rh ri rv) ar
        omega

theorem remove_impl_depth_le (cmp : α → α → Bool) (x : α) (t : tree_node α) :
    t.avl → remove_impl_depth cmp x t ≤ t.get_height := by
  induction t with
  | nil => intro _; simp [remove_impl_depth]
  | node l r p h i v ihl ihr =>
    intro ha
    obtain ⟨al, ar, hl, hr⟩ := avl_child_height ha
    have h1 := ihl al
    have h2 := ihr ar
    simp only [remove_impl_depth, get_height_node]
    split_ifs
    · omega
    · omega
    · cases r with
      | nil => simp
      | node rl rr rp rh ri rv =>
        have c3 := (remove_min_depth_le (node rl rr rp rh ri rv) ar).2
        simp only at c3 ⊢
        omega

end tree_node
end bimap_impl

namespace bimap
variable {L R : Type}

/-- C22: every tree that satisfies the AVL invariant, with `n` nodes and root
height `h`, has `fib (h + 2) - 1 ≤ n` and `2 ^ (h / 2) ≤ n + 1`; the loops of
`find` and `lower_bound` and the calls of `insert_impl` and `remove_min` visit
at most `h` nodes, `remove_impl` (with the `get_min` and `remove_min` it calls
on the right subtree) visits at most `h` different nodes, and the recursive
calls nested below the first call of `insert_impl`, `remove_impl` and
`remove_min` are at most `h`.  Both trees of every reachable map satisfy the
AVL invariant, so the two bounds on the size hold for them with `n` the size
of the map. -/
theorem C22_log_height [Inhabited L] [Inhabited R] (m : bimap L R) (hm : reachable m) :
    (Nat.fib (m.left_tree.root.get_height + 2) - 1 ≤ m.size ∧
      2 ^ (m.left_tree.root.get_height / 2) ≤ m.size + 1) ∧
    (Nat.fib (m.right_tree.root.get_height + 2) - 1 ≤ m.size ∧
      2 ^ (m.right_tree.root.get_height / 2) ≤ m.size + 1) ∧
    (∀ (α : Type) (t : tree_node α), t.avl →
      Nat.fib (t.get_height + 2) - 1 ≤ t.size ∧ 2 ^ (t.get_height / 2) ≤ t.size + 1 ∧
      t.remove_min_path.length ≤ t.get_height ∧ t.remove_min_depth ≤ t.get_height ∧
      ∀ (cmp : α → α → Bool) (key : α),
        (tree_node.find_path cmp key t).length ≤ t.get_height ∧
        (tree_node.lower_bound_path cmp key t).length ≤ t.get_height ∧
        (tree_node.insert_impl_path cmp key t).length ≤ t.get_height ∧
        tree_node.insert_impl_depth cmp key t ≤ t.get_height ∧
        (tree_node.remove_impl_path cmp key t).toFinset.card ≤ t.get_height ∧
        tree_node.remove_impl_depth cmp key t ≤ t.get_height) := by
  have hi := reachable_inv m hm
  have hl := tree_node.avl_size_bounds _ hi.left.avl
  have hr := tree_node.avl_size_bounds _ hi.right.avl
  rw [hi.size_left] at hl
  rw [hi.size_right] at hr
  refine ⟨hl, hr, ?_⟩
  intro α t ha
  have hb := tree_node.avl_size_bounds t ha
  refine ⟨hb.1, hb.2, tree_node.remove_min_path_length t ha,
    (tree_node.remove_min_depth_le t ha).2, ?_⟩
  intro cmp key
  exact ⟨tree_node.find_path_length cmp key t ha, tree_node.lower_bound_path_length cmp key t ha,
    tree_node.insert_impl_path_length cmp key t ha, tree_node.insert_impl_depth_le cmp key t ha,
    tree_node.remove_impl_path_card cmp key t ha, tree_node.remove_impl_depth_le cmp key t ha⟩

/-- C22 on the map `(1, "a")`, `(2, "b")`, `(3, "c")`: the left tree has
height `2` and three nodes; `find(3)` visits the nodes `2` and `3`, and
removing `2` visits `2` and, twice, `3`. -/
theorem C22_log_height_witness :
    abc_map.left_tree.root.get_height = 2 ∧ abc_map.size = 3 ∧
    Nat.fib (abc_map.left_tree.root.get_height + 2) - 1 ≤ abc_map.size ∧
    2 ^ (abc_map.left_tree.root.get_height / 2) ≤ abc_map.size + 1 ∧
    tree_node.find_path int_less 3 abc_map.left_tree.root = [2, 3] ∧
    tree_node.remove_impl_path int_less 2 abc_map.left_tree.root = [2, 3, 3] ∧
    (tree_node.remove_impl_path int_less 2 abc_map.left_tree.root).toFinset.card
      ≤ abc_map.left_tree.root.get_height :=
  have h := C22_log_height abc_map reachable_abc_map
  ⟨by decide!, by decide!, h.1.1, h.1.2, by decide!, by decide!,
    (h.2.2 Int abc_map.left_tree.root (reachable_inv abc_map reachable_abc_map).left.avl).2.2.2.2
      int_less 2 |>.2.2.2.2.1⟩

end bimap
